import Mathlib

/-! liljson

A shallow embedding of `src/main.c` (a small JSON parser with its own string
buffer, chained hash map, lexer, recursive-descent parser and printer), and
theorems about it.

Conventions of the embedding:

* C strings and the input stream are lists of characters, one per byte. The
  source keeps every `getchar()` result in a `char` and compares it with
  `EOF`; `char` is signed, as on x86, so the byte 255 compares equal to `EOF`
  as the end of the stream does. The source states its domain as ASCII ("we
  are only handling ascii here").
* Pointers into heap structures become values: a collision chain is a list of
  entries, the bucket array is a list of chains.
* `exit(1)` becomes the result `Res.fatal`; recursion and loops whose
  termination Lean cannot see take a fuel argument and return
  `Res.out_of_fuel` when it runs out.
* The `int` fields `len` and `cap` are natural numbers; they agree with the
  `int` arithmetic of the source below 2^31, beyond which `cap * 2` and
  `len++` overflow, which C leaves undefined. `float` is IEEE 754 single
  precision, `double` double precision; `size_t` is 64 bits wide.
* The allocator is that of glibc: a `calloc` block for an even number of
  pointers has one zeroed word of slack behind it (see `bucket_at`).
-/

set_option autoImplicit false

namespace Liljson

/-! ## Strings -/

/-- The string buffer `string_t`: `char_ptr` holds the `len` characters stored
(the terminating NUL byte is not represented), `cap` is the capacity of the
allocation. The source leaves the single byte of a fresh buffer uninitialised;
the embedding reads a buffer of length zero as the empty C string. -/
structure string_t where
  char_ptr : List Char
  cap : Nat
  deriving DecidableEq, Repr

/-- The field `len` of `string_t`. -/
def string_t.len (s : string_t) : Nat := s.char_ptr.length

/-- The source's `str_alloc`: a new empty string of capacity 1. -/
def str_alloc : string_t := ⟨[], 1⟩

/-- The loop `while (i < str->len + l) { i = i * 2; }` of `str_append_char`,
run for at most `fuel` iterations. -/
def str_grow_loop (target : Nat) : Nat → Nat → Nat
  | 0, i => i
  | fuel + 1, i => if i < target then str_grow_loop target fuel (i * 2) else i

/-- The source's `str_append_char`: grows the buffer by doubling when the
character and the terminating byte do not fit, then stores the character. -/
def str_append_char (str : string_t) (c : Char) : string_t :=
  let l := 2
  let cap :=
    if str.cap < str.len + l then
      str_grow_loop (str.len + l) (str.len + l) (str.cap * 2)
    else str.cap
  ⟨str.char_ptr ++ [c], cap⟩

/-- What a reader of a `char*` sees: the characters up to the first NUL. -/
def c_str (s : List Char) : List Char := s.takeWhile (fun c => c ≠ Char.ofNat 0)

/-! ## Hash map -/

/-- One node of a collision chain (`ht_entry_t`); the `next` pointer is the
tail of the list the node sits in. -/
structure ht_entry_t (α : Type) where
  key : List Char
  value : α
  deriving DecidableEq, Repr

/-- The hash map `hash_map_t`. The field `load_factor` is the constant 0.75
and is not stored. -/
structure hash_map_t (α : Type) where
  cap : Nat
  len : Nat
  buckets : List (List (ht_entry_t α))
  deriving DecidableEq, Repr

/-- The source's `hash_map_alloc`: `is` empty buckets. -/
def hash_map_alloc {α : Type} (is : Nat) : hash_map_t α :=
  ⟨is, 0, List.replicate is []⟩

/-- The read `buckets[i]`: inside the array, the chain stored there. The
source's `ht_get_next` also reads `buckets[cap]`, one slot behind the array
(`ht_get_next_reads` lists the indices); the embedding takes that read to
yield `NULL`. This is what the program meets for the capacities `4 * 2^k` of
the parser's maps, where the `calloc` block of glibc has a zeroed slack word
behind the array; for an odd capacity that word lies outside the block and the
program reads whatever is there. The statements about maps of arbitrary
capacity are about calls that read inside the array only, or about the indices
read. -/
def bucket_at {α : Type} (buckets : List (List (ht_entry_t α))) (i : Nat) :
    List (ht_entry_t α) :=
  buckets.getD i []

/-- The value a `char` adds to a `size_t`: `char` is signed, so a byte from
128 on is negative and wraps around 2^64. -/
def char_to_size_t (c : Char) : Nat :=
  if c.toNat < 128 then c.toNat else c.toNat + (2 ^ 64 - 256)

/-- The source's `str_hash`: `hash = 7; hash = hash * 31 + str[i]` in 64-bit
unsigned arithmetic. -/
def str_hash (str : List Char) : Nat :=
  str.foldl (fun hash c => (hash * 31 + char_to_size_t c) % 2 ^ 64) 7

/-- The loop of `__ht_get_impl`: walk the chain until a node with an equal
key. -/
def chain_find {α : Type} (key : List Char) : List (ht_entry_t α) → Option (ht_entry_t α)
  | [] => none
  | entry :: next => if key = entry.key then some entry else chain_find key next

/-- The source's `__ht_get_impl`. -/
def __ht_get_impl {α : Type} (ht : hash_map_t α) (key : List Char) (hash : Nat) :
    Option (ht_entry_t α) :=
  chain_find key (bucket_at ht.buckets (hash % ht.cap))

/-- The source's `ht_get`: the value stored under `key`, `none` for `NULL`. -/
def ht_get {α : Type} (ht : hash_map_t α) (key : List Char) : Option α :=
  match __ht_get_impl ht key (str_hash key) with
  | some e => some e.value
  | none => none

/-- The chain part of `__ht_buckets_set`: an empty chain becomes the new
entry; otherwise the walk stops at the first node whose key equals `key`
(nothing is stored) or at the last node (the new entry is linked behind it). -/
def chain_set {α : Type} (new_entry : ht_entry_t α) (key : List Char) :
    List (ht_entry_t α) → List (ht_entry_t α)
  | [] => [new_entry]
  | ee :: next => if ee.key = key then ee :: next else ee :: chain_set new_entry key next

/-- The source's `__ht_buckets_set`. -/
def __ht_buckets_set {α : Type} (buckets : List (List (ht_entry_t α)))
    (new_entry : ht_entry_t α) (key : List Char) (hash : Nat) (cap : Nat) :
    List (List (ht_entry_t α)) :=
  buckets.set (hash % cap) (chain_set new_entry key (bucket_at buckets (hash % cap)))

/-- The inner loop of `__ht_grow`: every node of one old chain, from head to
tail, is unlinked and placed into the new buckets. -/
def ht_rehash_chain {α : Type} (ns : Nat) (buckets : List (List (ht_entry_t α)))
    (chain : List (ht_entry_t α)) : List (List (ht_entry_t α)) :=
  chain.foldl (fun b e => __ht_buckets_set b e e.key (str_hash e.key) ns) buckets

/-- The source's `__ht_grow`: doubles `cap` and rehashes all entries. -/
def __ht_grow {α : Type} (ht : hash_map_t α) : hash_map_t α :=
  let ns := ht.cap * 2
  let buckets := (List.range ht.cap).foldl
    (fun b i => ht_rehash_chain ns b (bucket_at ht.buckets i)) (List.replicate ns [])
  { ht with buckets := buckets, cap := ns }

/-- The spacing of the `float` values around `n`, found by doubling: the
smallest power of two `u` with `n < 2^24 * u`. Eight rounds cover the
non-negative range of `int`. -/
def float_ulp_loop : Nat → Nat → Nat → Nat
  | 0, u, _ => u
  | fuel + 1, u, n => if n < 2 ^ 24 * u then u else float_ulp_loop fuel (2 * u) n

/-- The spacing of the `float` values around the `int` value `n`. -/
def float_ulp (n : Nat) : Nat := float_ulp_loop 8 1 n

/-- The conversion `(float)n` of a non-negative `int`: `n` rounded to 24
significant bits, to the nearest multiple of the spacing, ties to the even
multiple (IEEE 754 single precision, round-to-nearest-even). -/
def float_of_int (n : Nat) : Nat :=
  let u := float_ulp n
  let q := n / u
  let r := n % u
  if 2 * r < u ∨ (2 * r = u ∧ q % 2 = 0) then q * u else (q + 1) * u

/-- The test `((float)ht->len + 1.0) / ((float)ht->cap) >= ht->load_factor` of
`ht_set`, with `load_factor` 0.75. Both fields are converted to `float`; the
sum and the quotient are computed in `double` (`1.0` is a `double`), the sum
without rounding. The quotient of two integers below 2^32 that is smaller than
3/4 is smaller by more than 2^-34, so rounding it to `double` does not move it
across 0.75, and the test is `3 * (float)cap ≤ 4 * ((float)len + 1)`. -/
def load_factor_reached (len cap : Nat) : Bool :=
  decide (3 * float_of_int cap ≤ 4 * (float_of_int len + 1))

/-- The source's `ht_set`. -/
def ht_set {α : Type} (ht : hash_map_t α) (key : List Char) (value : α) : hash_map_t α :=
  let ht := if load_factor_reached ht.len ht.cap then __ht_grow ht else ht
  let hash := str_hash key
  let new_entry : ht_entry_t α := ⟨key, value⟩
  { ht with
    buckets := __ht_buckets_set ht.buckets new_entry key hash ht.cap
    len := ht.len + 1 }

/-- A sequence of `ht_set` calls, in order. -/
def ht_set_all {α : Type} (ht : hash_map_t α) (ops : List (List Char × α)) : hash_map_t α :=
  ops.foldl (fun m kv => ht_set m kv.1 kv.2) ht

/-- The iterator `ht_iterator_t`. -/
structure ht_iterator_t where
  curr_bucket : Nat
  curr_idx : Nat
  deriving DecidableEq, Repr

/-- The source's `ht_get_iter`. -/
def ht_get_iter : ht_iterator_t := ⟨0, 0⟩

/-- The loop `while (bucket == NULL && it->curr_bucket < ht->cap)` of
`ht_get_next`, started at bucket `b`; it runs at most `cap - b` times. The
result is the final `curr_bucket`. -/
def ht_scan {α : Type} (ht : hash_map_t α) : Nat → Nat → Nat
  | 0, b => b
  | fuel + 1, b =>
    if (bucket_at ht.buckets b).isEmpty ∧ b < ht.cap then ht_scan ht fuel (b + 1) else b

/-- The source's `ht_get_next`: the next entry (`none` for `NULL`) and the
updated iterator. In the first branch the source dereferences the node at
position `curr_idx` without a check; where the chain is shorter the embedding
returns `none`. -/
def ht_get_next {α : Type} (ht : hash_map_t α) (it : ht_iterator_t) :
    Option (ht_entry_t α) × ht_iterator_t :=
  if it.curr_idx ≠ 0 then
    match (bucket_at ht.buckets it.curr_bucket).drop it.curr_idx with
    | [] => (none, it)
    | bucket :: next =>
      if !next.isEmpty then (some bucket, { it with curr_idx := it.curr_idx + 1 })
      else (some bucket, ⟨it.curr_bucket + 1, 0⟩)
  else
    let b := ht_scan ht (ht.cap - it.curr_bucket) it.curr_bucket
    match bucket_at ht.buckets b with
    | [] => (none, { it with curr_bucket := b })
    | bucket :: next =>
      if !next.isEmpty then (some bucket, ⟨b, it.curr_idx + 1⟩)
      else (some bucket, ⟨b + 1, it.curr_idx⟩)

/-! ## Lexer -/

/-- The enumeration `token_type_t`. -/
inductive token_type_t where
  | TOKEN_EOF
  | BRACKET_OPEN
  | BRACKET_CLOSE
  | ARRAY_OPEN
  | ARRAY_CLOSE
  | COLON
  | STRING
  | COMMA
  | KEYWORD
  | NUMBER
  deriving DecidableEq, Repr

open token_type_t

/-- The token `token_t`; `lexeme` is `none` for the `NULL` lexeme of a
single-type token. -/
structure token_t where
  lexeme : Option string_t
  type : token_type_t
  deriving DecidableEq, Repr

/-- The ways the program ends in `exit(1)`. -/
inductive Fatal where
  /-- The final branch of `get_next_token`: "Unexpected character". -/
  | unexpected_character (c : Char)
  /-- The source's `panic_unexpected_token`. -/
  | unexpected_token (t : token_t)
  /-- The final branch of `parse_keyword`: "Invalid keyword". -/
  | invalid_keyword (lexeme : List Char)
  /-- The first branch of `parse_keyword`: a token without lexeme. -/
  | internal_error
  deriving DecidableEq, Repr

/-- Result of a computation that may end the process or run out of fuel. -/
inductive Res (α : Type) where
  | ok (a : α)
  | fatal (e : Fatal)
  | out_of_fuel
  deriving DecidableEq, Repr

/-- Sequencing of results. -/
def Res.bind {α β : Type} (r : Res α) (f : α → Res β) : Res β :=
  match r with
  | Res.ok a => f a
  | Res.fatal e => Res.fatal e
  | Res.out_of_fuel => Res.out_of_fuel

/-- The source's `single_type_token`. -/
def single_type_token (tp : token_type_t) : token_t := ⟨none, tp⟩

/-- The source's `token_alloc`, with the type the caller stores right after. -/
def token_alloc (tp : token_type_t) : token_t := ⟨some str_alloc, tp⟩

/-- The C library's `isspace` in the "C" locale: space, `\t`, `\n`, `\v`, `\f`
and `\r`. -/
def isspace (c : Char) : Bool :=
  c.toNat = 32 || (9 ≤ c.toNat && c.toNat ≤ 13)

/-- The C library's `isdigit`. -/
def isdigit (c : Char) : Bool :=
  48 ≤ c.toNat && c.toNat ≤ 57

/-- The C library's `isalpha` in the "C" locale: the 52 ASCII letters. -/
def isalpha (c : Char) : Bool :=
  (65 ≤ c.toNat && c.toNat ≤ 90) || (97 ≤ c.toNat && c.toNat ≤ 122)

/-- The value `EOF` stored into a `char`: the byte 255. The source keeps every
`getchar()` result in a `char` and compares that with `EOF`, so (with the
signed `char` of x86) the input byte 255 compares equal to `EOF` too. -/
def EOF_char : Char := Char.ofNat 255

/-- The loop `while (isspace(c) && (c = getchar()) != EOF) {}` entered with
the character `c` just read and the unread characters `s`, followed by the
test `c == EOF`: the final `c` (`none` when it compares equal to `EOF`, which
the byte 255 held in a `char` does as well as the end of the stream) and the
unread characters. -/
def skip_whitespace : Char → List Char → Option Char × List Char
  | c, [] => if isspace c then (none, []) else if c = EOF_char then (none, []) else (some c, [])
  | c, c2 :: s =>
    if isspace c then skip_whitespace c2 s
    else if c = EOF_char then (none, c2 :: s)
    else (some c, c2 :: s)

/-- The string-literal loop of `get_next_token`,
`while ((c = getchar()) != EOF && c != quote)`, followed by the `ungetc` of
`EOF` (which leaves the stream as it is): the lexeme and the unread
characters. The byte 255, held in a `char`, compares equal to `EOF`: it ends
the loop and is not pushed back. After a backslash the next `getchar()` result
is appended unchecked, also when it is `EOF`. -/
def lex_string : string_t → List Char → string_t × List Char
  | t, [] => (t, [])
  | t, c :: s =>
    if c = EOF_char then (t, s)
    else if c = '"' then (t, s)
    else if c = '\\' then
      match s with
      | [] => (str_append_char t EOF_char, [])
      | c2 :: s2 => lex_string (str_append_char t c2) s2
    else lex_string (str_append_char t c) s

/-- The loops `while ((c = getchar()) != EOF && isdigit(c))` and
`... && isalpha(c))` of `get_next_token`, followed by `ungetc(c, stream)`:
the lexeme and the unread characters. The byte 255, held in a `char`,
compares equal to `EOF`: it ends the loop, and `ungetc(EOF)` pushes nothing
back, so the byte is consumed. -/
def lex_run (is_member : Char → Bool) : string_t → List Char → string_t × List Char
  | t, [] => (t, [])
  | t, c :: s =>
    if c = EOF_char then (t, s)
    else if is_member c then lex_run is_member (str_append_char t c) s
    else (t, c :: s)

/-- The source's `get_next_token`, on the unread characters of standard
input: the token and the characters left unread. -/
def get_next_token (stream : List Char) : Res (token_t × List Char) :=
  match stream with
  | [] => Res.ok (single_type_token TOKEN_EOF, [])
  | c0 :: s0 =>
    match skip_whitespace c0 s0 with
    | (none, s) => Res.ok (single_type_token TOKEN_EOF, s)
    | (some c, s) =>
      if c = '{' then Res.ok (single_type_token BRACKET_OPEN, s)
      else if c = '}' then Res.ok (single_type_token BRACKET_CLOSE, s)
      else if c = ':' then Res.ok (single_type_token COLON, s)
      else if c = ',' then Res.ok (single_type_token COMMA, s)
      else if c = '[' then Res.ok (single_type_token ARRAY_OPEN, s)
      else if c = ']' then Res.ok (single_type_token ARRAY_CLOSE, s)
      else if c = '"' then
        let r := lex_string str_alloc s
        Res.ok (⟨some r.1, STRING⟩, r.2)
      else if isdigit c then
        let r := lex_run isdigit (str_append_char str_alloc c) s
        Res.ok (⟨some r.1, NUMBER⟩, r.2)
      else if isalpha c then
        let r := lex_run isalpha (str_append_char str_alloc c) s
        Res.ok (⟨some r.1, KEYWORD⟩, r.2)
      else Res.fatal (Fatal.unexpected_character c)

/-! ## Value model -/

/-- The array payload `as_array` of `json_value_t`: the `len` stored elements
and the capacity of the allocation. -/
structure as_array_t (α : Type) where
  array : List α
  cap : Nat
  deriving DecidableEq, Repr

/-- The field `len` of the array payload. -/
def as_array_t.len {α : Type} (a : as_array_t α) : Nat := a.array.length

/-- The tagged union `json_value_t`: one constructor per `json_type_t` tag,
carrying the payload that tag selects. -/
inductive json_value_t where
  | JSON_OBJECT (map : hash_map_t json_value_t)
  | JSON_ARRAY (as_array : as_array_t json_value_t)
  | JSON_STRING (string : string_t)
  | JSON_NUMBER (number : Int)
  | JSON_TRUE (boolean : Int)
  | JSON_FALSE (boolean : Int)
  | JSON_NULL

open json_value_t

instance : Inhabited json_value_t := ⟨JSON_NULL⟩

/-- The C library's `printf("%d", n)`. -/
def print_int (n : Int) : List Char :=
  if n < 0 then '-' :: Nat.toDigits 10 n.natAbs else Nat.toDigits 10 n.toNat

/-- The C library's `atoi` on a string that starts with a digit: the value of
the leading run of digits. Beyond `INT_MAX` the C standard leaves the result
undefined; the embedding takes glibc's (`strtol` clamped to `LONG_MAX`, then
truncated to a 32-bit `int`). -/
def atoi (s : List Char) : Int :=
  let n : Nat := (s.takeWhile isdigit).foldl (fun acc c => acc * 10 + (c.toNat - 48)) 0
  let m : Nat := (min n (2 ^ 63 - 1)) % 2 ^ 32
  if m < 2 ^ 31 then (m : Int) else (m : Int) - 2 ^ 32

/-- The source's `__json_value_array_resize` and `__json_value_array_append`:
the grown array and the text the resize writes to standard output. -/
def __json_value_array_append {α : Type} (parent : as_array_t α) (new_item : α) :
    as_array_t α × List Char :=
  let new_cap := parent.len + 1
  if parent.cap < new_cap then
    let resize := parent.cap * 2
    (⟨parent.array ++ [new_item], resize⟩,
      "trying to allocate new array of size ".toList ++ print_int resize ++ ['\n'])
  else (⟨parent.array ++ [new_item], parent.cap⟩, [])

/-! ## Parser -/

/-- The parser state `parser_t`: the lookahead token and the unread characters
of the stream. The field `out` is the text written to standard output so far;
it is carried here because the parser's callees write to it. -/
structure parser_t where
  lookahead : token_t
  stream : List Char
  out : List Char
  deriving DecidableEq, Repr

/-- The characters read through `token->lexeme->char_ptr`; tokens of type
STRING, NUMBER and KEYWORD always carry a lexeme. -/
def token_t.lexeme_str (t : token_t) : List Char :=
  match t.lexeme with
  | some l => c_str l.char_ptr
  | none => []

/-- The source's `match`: advances past a lookahead of the expected type. -/
def match_token (p : parser_t) (type : token_type_t) : Res parser_t :=
  if p.lookahead.type = type then
    match get_next_token p.stream with
    | Res.ok r => Res.ok { p with lookahead := r.1, stream := r.2 }
    | Res.fatal e => Res.fatal e
    | Res.out_of_fuel => Res.out_of_fuel
  else Res.fatal (Fatal.unexpected_token p.lookahead)

/-- The source's `new_parser`, on the characters of standard input. -/
def new_parser_t (stream : List Char) : Res parser_t :=
  match get_next_token stream with
  | Res.ok r => Res.ok ⟨r.1, r.2, []⟩
  | Res.fatal e => Res.fatal e
  | Res.out_of_fuel => Res.out_of_fuel

/-- The source's `parse_keyword`. -/
def parse_keyword (t : token_t) : Res json_value_t :=
  match t.lexeme with
  | none => Res.fatal Fatal.internal_error
  | some l =>
    if c_str l.char_ptr = ['t', 'r', 'u', 'e'] then Res.ok (JSON_TRUE 1)
    else if c_str l.char_ptr = ['f', 'a', 'l', 's', 'e'] then Res.ok (JSON_FALSE 0)
    else if c_str l.char_ptr = ['n', 'u', 'l', 'l'] then Res.ok JSON_NULL
    else Res.fatal (Fatal.invalid_keyword (c_str l.char_ptr))

mutual

/-- The source's `parse_single_object_member`; `parent` is the map of the
object under construction. -/
def parse_single_object_member :
    Nat → parser_t → hash_map_t json_value_t → Res (hash_map_t json_value_t × parser_t)
  | 0, _, _ => Res.out_of_fuel
  | fuel + 1, p, parent =>
    if p.lookahead.type ≠ STRING then Res.fatal (Fatal.unexpected_token p.lookahead)
    else
      let key := p.lookahead.lexeme_str
      (match_token p STRING).bind fun p1 =>
      (match_token p1 COLON).bind fun p2 =>
      (parse_value fuel p2).bind fun r =>
      Res.ok (ht_set parent key r.1, r.2)

/-- The source's `parse_rest_object_members`. -/
def parse_rest_object_members :
    Nat → parser_t → hash_map_t json_value_t → Res (hash_map_t json_value_t × parser_t)
  | 0, _, _ => Res.out_of_fuel
  | fuel + 1, p, parent =>
    if p.lookahead.type = COMMA then
      (match_token p COMMA).bind fun p1 =>
      (parse_single_object_member fuel p1 parent).bind fun r =>
      parse_rest_object_members fuel r.2 r.1
    else Res.ok (parent, p)

/-- The source's `parse_json_object_members`. -/
def parse_json_object_members :
    Nat → parser_t → hash_map_t json_value_t → Res (hash_map_t json_value_t × parser_t)
  | 0, _, _ => Res.out_of_fuel
  | fuel + 1, p, parent =>
    (parse_single_object_member fuel p parent).bind fun r =>
    parse_rest_object_members fuel r.2 r.1

/-- The source's `parse_json_object`. -/
def parse_json_object : Nat → parser_t → Res (json_value_t × parser_t)
  | 0, _ => Res.out_of_fuel
  | fuel + 1, p =>
    (match_token p BRACKET_OPEN).bind fun p1 =>
    let map : hash_map_t json_value_t := hash_map_alloc 4
    if p1.lookahead.type = BRACKET_CLOSE then
      (match_token p1 BRACKET_CLOSE).bind fun p2 => Res.ok (JSON_OBJECT map, p2)
    else
      (parse_json_object_members fuel p1 map).bind fun r =>
      (match_token r.2 BRACKET_CLOSE).bind fun p3 => Res.ok (JSON_OBJECT r.1, p3)

/-- The source's `parse_json_array_members`; `parent` is the payload of the
array under construction. -/
def parse_json_array_members :
    Nat → parser_t → as_array_t json_value_t → Res (as_array_t json_value_t × parser_t)
  | 0, _, _ => Res.out_of_fuel
  | fuel + 1, p, parent =>
    (parse_value fuel p).bind fun r =>
    let a := __json_value_array_append parent r.1
    let p1 : parser_t := { r.2 with out := r.2.out ++ a.2 }
    if p1.lookahead.type = COMMA then
      (match_token p1 COMMA).bind fun p2 => parse_json_array_members fuel p2 a.1
    else Res.ok (a.1, p1)

/-- The source's `parse_json_array`. -/
def parse_json_array : Nat → parser_t → Res (json_value_t × parser_t)
  | 0, _ => Res.out_of_fuel
  | fuel + 1, p =>
    (match_token p ARRAY_OPEN).bind fun p1 =>
    let initial_array_size := 2
    let ret : as_array_t json_value_t := ⟨[], initial_array_size⟩
    if p1.lookahead.type = ARRAY_CLOSE then
      (match_token p1 ARRAY_CLOSE).bind fun p2 => Res.ok (JSON_ARRAY ret, p2)
    else
      (parse_json_array_members fuel p1 ret).bind fun r =>
      (match_token r.2 ARRAY_CLOSE).bind fun p3 => Res.ok (JSON_ARRAY r.1, p3)

/-- The source's `parse_value`. -/
def parse_value : Nat → parser_t → Res (json_value_t × parser_t)
  | 0, _ => Res.out_of_fuel
  | fuel + 1, p =>
    if p.lookahead.type = BRACKET_OPEN then parse_json_object fuel p
    else if p.lookahead.type = KEYWORD then
      (parse_keyword p.lookahead).bind fun v =>
      (match_token p KEYWORD).bind fun p1 => Res.ok (v, p1)
    else if p.lookahead.type = NUMBER then
      let v := JSON_NUMBER (atoi p.lookahead.lexeme_str)
      (match_token p NUMBER).bind fun p1 => Res.ok (v, p1)
    else if p.lookahead.type = STRING then
      let v := JSON_STRING (p.lookahead.lexeme.getD ⟨[], 0⟩)
      (match_token p STRING).bind fun p1 => Res.ok (v, p1)
    else if p.lookahead.type = ARRAY_OPEN then parse_json_array fuel p
    else Res.fatal (Fatal.unexpected_token p.lookahead)

end

/-! ## Printer and program -/

mutual

/-- The loop `while ((n = ht_get_next(map, it)) != NULL)` of the JSON_OBJECT
case of `print_json_value`, entered with the iterator `it` and the counter
`i`. -/
def print_object_loop :
    Nat → hash_map_t json_value_t → ht_iterator_t → Nat → Res (List Char)
  | 0, _, _, _ => Res.out_of_fuel
  | fuel + 1, map, it, i =>
    match ht_get_next map it with
    | (none, _) => Res.ok []
    | (some n, it1) =>
      (print_json_value fuel n.value).bind fun v =>
      (print_object_loop fuel map it1 (i + 1)).bind fun rest =>
      Res.ok (['"'] ++ n.key ++ ['"', ':', ' '] ++ v
        ++ (if i + 1 ≠ map.len then [','] else []) ++ rest)

/-- The loop `for (int i = 0; i < len; i++)` of the JSON_ARRAY case of
`print_json_value`, entered with the counter `i`. -/
def print_array_loop : Nat → as_array_t json_value_t → Nat → Res (List Char)
  | 0, _, _ => Res.out_of_fuel
  | fuel + 1, a, i =>
    match a.array.get? i with
    | none => Res.ok []
    | some x =>
      (print_json_value fuel x).bind fun v =>
      (print_array_loop fuel a (i + 1)).bind fun rest =>
      Res.ok (v ++ (if i ≠ a.len - 1 then [',', ' '] else []) ++ rest)

/-- The source's `print_json_value`: the text written to standard output. -/
def print_json_value : Nat → json_value_t → Res (List Char)
  | 0, _ => Res.out_of_fuel
  | _ + 1, JSON_NUMBER number => Res.ok (print_int number)
  | _ + 1, JSON_STRING string => Res.ok (['"'] ++ c_str string.char_ptr ++ ['"'])
  | _ + 1, JSON_TRUE _ => Res.ok ['t', 'r', 'u', 'e']
  | _ + 1, JSON_FALSE _ => Res.ok ['f', 'a', 'l', 's', 'e']
  | _ + 1, JSON_NULL => Res.ok ['n', 'u', 'l', 'l']
  | fuel + 1, JSON_OBJECT map =>
    (print_object_loop fuel map ht_get_iter 0).bind fun body =>
    Res.ok (['{', ' '] ++ body ++ [' ', '}'])
  | fuel + 1, JSON_ARRAY a =>
    (print_array_loop fuel a 0).bind fun body =>
    Res.ok (['[', ' '] ++ body ++ [' ', ']'])

end

/-- The source's `pretty_print_parse_tree`. -/
def pretty_print_parse_tree (fuel : Nat) (tree : json_value_t) : Res (List Char) :=
  (print_json_value fuel tree).bind fun text => Res.ok (text ++ ['\n'])

/-- The source's `main` on the characters of standard input: everything the
process writes to standard output when it returns from `main`. -/
def main (fuel : Nat) (stdin : List Char) : Res (List Char) :=
  (new_parser_t stdin).bind fun p =>
  (parse_value fuel p).bind fun r =>
  (pretty_print_parse_tree fuel r.1).bind fun text =>
  Res.ok (r.2.out ++ text)

/-! ## Notions used to state the properties -/

/-- All entries of a bucket array: bucket by bucket, and from head to tail
within a chain. -/
def ht_entries {α : Type} (ht : hash_map_t α) : List (ht_entry_t α) :=
  ht.buckets.flatten

/-- Well-formedness of a bucket array of capacity `cap`: there are `cap ≥ 1`
buckets, every entry sits in the bucket its hash selects, and no key is
stored twice. -/
def buckets_wf {α : Type} (cap : Nat) (buckets : List (List (ht_entry_t α))) : Prop :=
  buckets.length = cap ∧ 0 < cap ∧
  (∀ i e, e ∈ bucket_at buckets i → str_hash e.key % cap = i) ∧
  (buckets.flatten.map (fun e => e.key)).Nodup

/-- Well-formedness of a hash map. -/
def ht_wf {α : Type} (ht : hash_map_t α) : Prop := buckets_wf ht.cap ht.buckets

/-- The whitespace of the specification's lexer section: space, tab, newline
and carriage-return. -/
def spec_whitespace (c : Char) : Bool :=
  c = ' ' || c = '\t' || c = '\n' || c = '\r'

/-- The characters that start a token: the six punctuation characters and the
quote (digits and letters are tested with `isdigit` and `isalpha`). -/
def token_start_chars : List Char := ['{', '}', '[', ']', ':', ',', '"']

/-- A text with every escaping backslash removed and the character that
follows each of them kept as it is. -/
def drop_backslashes : List Char → List Char
  | [] => []
  | c :: s =>
    if c = '\\' then
      match s with
      | [] => []
      | c2 :: s2 => c2 :: drop_backslashes s2
    else c :: drop_backslashes s

/-- The result `r2` carries on from `r1`: it is `r1`, unless `r1` ran out of
fuel. -/
def Res.le {α : Type} (r1 r2 : Res α) : Prop := r1 = Res.out_of_fuel ∨ r2 = r1

/-- With enough fuel the computation returns `a`. -/
def Returns {α : Type} (f : Nat → Res α) (a : α) : Prop :=
  ∃ n, ∀ fuel, n ≤ fuel → f fuel = Res.ok a

/-- With enough fuel the computation ends in the fatal error `e`. -/
def Aborts {α : Type} (f : Nat → Res α) (e : Fatal) : Prop :=
  ∃ n, ∀ fuel, n ≤ fuel → f fuel = Res.fatal e

/-- The stream `s` holds the tokens `ts` followed by end-of-stream: repeated
calls of `get_next_token` return the tokens of `ts`, none of type TOKEN_EOF,
and then a token of type TOKEN_EOF. -/
def Lexes : List Char → List token_t → Prop
  | s, [] => ∃ tok s1, get_next_token s = Res.ok (tok, s1) ∧ tok.type = TOKEN_EOF
  | s, t :: ts => t.type ≠ TOKEN_EOF ∧ ∃ s1, get_next_token s = Res.ok (t, s1) ∧ Lexes s1 ts

/-- The token `t` is one that `get_next_token` returns on some stream. -/
def lexer_token (t : token_t) : Prop :=
  ∃ s s1, get_next_token s = Res.ok (t, s1)

/-- The parser `p` stands before the token sequence `ts` followed by
end-of-stream: its lookahead is the first token of `ts`, a token the lexer
returned, and its stream holds the others. -/
def AtTokens (p : parser_t) : List token_t → Prop
  | [] => p.lookahead.type = TOKEN_EOF
  | t :: ts => p.lookahead = t ∧ t.type ≠ TOKEN_EOF ∧ lexer_token t ∧ Lexes p.stream ts

/-- The token sequence `e` is a value text whose tree is `v`: wherever the
parser stands before `e`, `parse_value` returns `v` and leaves the parser
right behind `e`. -/
def ParsesAs (e : List token_t) (v : json_value_t) : Prop :=
  ∀ p xs, AtTokens p (e ++ xs) →
    ∃ q, Returns (fun fuel => parse_value fuel p) (v, q) ∧ AtTokens q xs

/-- All tokens of a stream, for a stream that lexes without error within the
fuel. -/
def lex_all : Nat → List Char → Option (List token_t)
  | 0, _ => none
  | fuel + 1, s =>
    match get_next_token s with
    | Res.ok (tok, s1) =>
      if tok.type = TOKEN_EOF then some []
      else
        match lex_all fuel s1 with
        | some ts => some (tok :: ts)
        | none => none
    | _ => none

/-- Token sequences joined by COMMA tokens. -/
def comma_separated : List (List token_t) → List token_t
  | [] => []
  | [e] => e
  | e :: e2 :: es => e ++ single_type_token COMMA :: comma_separated (e2 :: es)

/-- The tokens of an array text with the element texts `es`. -/
def array_tokens (es : List (List token_t)) : List token_t :=
  single_type_token ARRAY_OPEN :: (comma_separated es ++ [single_type_token ARRAY_CLOSE])

/-- The tokens of an object member with key token `k` and value text `e`. -/
def member_tokens (k : token_t) (e : List token_t) : List token_t :=
  k :: single_type_token COLON :: e

/-- The tokens of an object text with the members `ms` (key token and value
text). -/
def object_tokens (ms : List (token_t × List token_t)) : List token_t :=
  single_type_token BRACKET_OPEN ::
    (comma_separated (ms.map fun m => member_tokens m.1 m.2)
      ++ [single_type_token BRACKET_CLOSE])

/-- The nonterminals of the grammar of the specification's section 6. -/
inductive Nonterminal where
  | value
  | object
  | member
  | members
  | array
  | elements
  deriving DecidableEq, Repr

/-- The grammar of the specification's section 6 on token sequences:
`value := object | array | string | number | "true" | "false" | "null"`,
`object := "{" (member ("," member)*)? "}"`, `member := string ":" value`,
`array := "[" (value ("," value)*)? "]"`; `members` and `elements` are the
non-empty comma-separated lists. -/
inductive Derives : Nonterminal → List token_t → Prop where
  | value_object (e : List token_t) : Derives Nonterminal.object e → Derives Nonterminal.value e
  | value_array (e : List token_t) : Derives Nonterminal.array e → Derives Nonterminal.value e
  | value_string (t : token_t) : t.type = STRING → Derives Nonterminal.value [t]
  | value_number (t : token_t) : t.type = NUMBER → Derives Nonterminal.value [t]
  | value_true (t : token_t) : t.type = KEYWORD → t.lexeme_str = ['t', 'r', 'u', 'e'] →
      Derives Nonterminal.value [t]
  | value_false (t : token_t) : t.type = KEYWORD → t.lexeme_str = ['f', 'a', 'l', 's', 'e'] →
      Derives Nonterminal.value [t]
  | value_null (t : token_t) : t.type = KEYWORD → t.lexeme_str = ['n', 'u', 'l', 'l'] →
      Derives Nonterminal.value [t]
  | object_empty (o c : token_t) : o.type = BRACKET_OPEN → c.type = BRACKET_CLOSE →
      Derives Nonterminal.object [o, c]
  | object_members (o c : token_t) (ms : List token_t) : o.type = BRACKET_OPEN →
      Derives Nonterminal.members ms → c.type = BRACKET_CLOSE →
      Derives Nonterminal.object (o :: (ms ++ [c]))
  | member (k col : token_t) (v : List token_t) : k.type = STRING → col.type = COLON →
      Derives Nonterminal.value v → Derives Nonterminal.member (k :: col :: v)
  | members_one (m : List token_t) : Derives Nonterminal.member m →
      Derives Nonterminal.members m
  | members_more (m : List token_t) (comma : token_t) (ms : List token_t) :
      Derives Nonterminal.member m → comma.type = COMMA → Derives Nonterminal.members ms →
      Derives Nonterminal.members (m ++ comma :: ms)
  | array_empty (o c : token_t) : o.type = ARRAY_OPEN → c.type = ARRAY_CLOSE →
      Derives Nonterminal.array [o, c]
  | array_elements (o c : token_t) (es : List token_t) : o.type = ARRAY_OPEN →
      Derives Nonterminal.elements es → c.type = ARRAY_CLOSE →
      Derives Nonterminal.array (o :: (es ++ [c]))
  | elements_one (v : List token_t) : Derives Nonterminal.value v →
      Derives Nonterminal.elements v
  | elements_more (v : List token_t) (comma : token_t) (es : List token_t) :
      Derives Nonterminal.value v → comma.type = COMMA → Derives Nonterminal.elements es →
      Derives Nonterminal.elements (v ++ comma :: es)

/-- The fatal errors the parser proper can end in. -/
def parser_error (e : Fatal) : Prop :=
  (∃ t, e = Fatal.unexpected_token t) ∨
  (∃ t : token_t, e = Fatal.invalid_keyword t.lexeme_str ∧ t.type = KEYWORD ∧
    t.lexeme_str ≠ ['t', 'r', 'u', 'e'] ∧ t.lexeme_str ≠ ['f', 'a', 'l', 's', 'e'] ∧
    t.lexeme_str ≠ ['n', 'u', 'l', 'l'])

/-- Token sequences each preceded by a COMMA token. -/
def comma_prefixed : List (List token_t) → List token_t
  | [] => []
  | e :: es => single_type_token COMMA :: (e ++ comma_prefixed es)

/-- A sequence of `__json_value_array_append` calls, in order. -/
def array_append_all (parent : as_array_t json_value_t) (vs : List json_value_t) :
    as_array_t json_value_t :=
  vs.foldl (fun a v => (__json_value_array_append a v).1) parent

/-! ### Example inputs -/

/-- The STRING token the lexer produces for a one-character literal. -/
def string_token_1 (c : Char) : token_t := ⟨some ⟨[c], 2⟩, STRING⟩

/-- The NUMBER token the lexer produces for a one-digit literal. -/
def number_token_1 (c : Char) : token_t := ⟨some ⟨[c], 2⟩, NUMBER⟩

/-- The KEYWORD token the lexer produces for a word of four to seven
letters. -/
def keyword_token (w : List Char) : token_t := ⟨some ⟨w, 8⟩, KEYWORD⟩

/-- The parser state of `new_parser` on the text `[1,2,3,4,5]`. -/
def example_array_state : parser_t :=
  ⟨single_type_token ARRAY_OPEN, ['1', ',', '2', ',', '3', ',', '4', ',', '5', ']'], []⟩

/-- The element texts of `[1,2,3,4,5]` with their trees. -/
def example_array_elements : List (List token_t × json_value_t) :=
  [([number_token_1 '1'], JSON_NUMBER 1), ([number_token_1 '2'], JSON_NUMBER 2),
   ([number_token_1 '3'], JSON_NUMBER 3), ([number_token_1 '4'], JSON_NUMBER 4),
   ([number_token_1 '5'], JSON_NUMBER 5)]

/-- What a parser function does on the token sequence `ts` once it has enough
fuel: it ends in a parser error, or it returns after consuming a prefix of
`ts` with the property `D`. -/
def parse_outcome {α : Type} (r : Res (α × parser_t)) (ts : List token_t)
    (D : List token_t → Prop) : Prop :=
  (∃ err, r = Res.fatal err ∧ parser_error err) ∨
  (∃ a q e xs, r = Res.ok (a, q) ∧ ts = e ++ xs ∧ D e ∧ AtTokens q xs)

/-- The token sequences `parse_rest_object_members` consumes: nothing, or a
COMMA and a non-empty member list. -/
def derives_rest (e : List token_t) : Prop :=
  e = [] ∨ ∃ comma ms, e = comma :: ms ∧ comma.type = COMMA ∧ Derives Nonterminal.members ms

/-! ### Notions for the round trip through the printer -/

/-- A text the printer's output can carry between quotes and the lexer reads
back unchanged: non-empty, of ASCII characters other than NUL, the quote and
the backslash. -/
def clean_text (s : List Char) : Prop :=
  s ≠ [] ∧ ∀ c ∈ s, 0 < c.toNat ∧ c.toNat < 128 ∧ c ≠ '"' ∧ c ≠ '\\'

/-- The conditions on a tree under which printing and parsing again is
claimed to give the tree back: strings and keys are clean texts, numbers are
not negative, and the `len` of every map is its number of entries. -/
inductive Good : json_value_t → Prop where
  | number (n : Int) : 0 ≤ n → Good (JSON_NUMBER n)
  | string (s : string_t) : clean_text s.char_ptr → Good (JSON_STRING s)
  | tru (b : Int) : Good (JSON_TRUE b)
  | fls (b : Int) : Good (JSON_FALSE b)
  | null : Good JSON_NULL
  | array (a : as_array_t json_value_t) : (∀ x ∈ a.array, Good x) → Good (JSON_ARRAY a)
  | object (m : hash_map_t json_value_t) : m.len = (ht_entries m).length →
      (∀ e ∈ ht_entries m, clean_text e.key) → (∀ e ∈ ht_entries m, Good e.value) →
      Good (JSON_OBJECT m)

/-- What holds of every tree the parser builds: maps are well-formed, numbers
are in the range of `int`, and the boolean payloads are 1 and 0. -/
inductive TreeWF : json_value_t → Prop where
  | number (n : Int) : -(2 ^ 31) ≤ n → n < 2 ^ 31 → TreeWF (JSON_NUMBER n)
  | string (s : string_t) : TreeWF (JSON_STRING s)
  | tru : TreeWF (JSON_TRUE 1)
  | fls : TreeWF (JSON_FALSE 0)
  | null : TreeWF JSON_NULL
  | array (a : as_array_t json_value_t) : (∀ x ∈ a.array, TreeWF x) → TreeWF (JSON_ARRAY a)
  | object (m : hash_map_t json_value_t) : ht_wf m →
      (∀ e ∈ ht_entries m, TreeWF e.value) → TreeWF (JSON_OBJECT m)

/-- Structural equality of trees that ignores the order of object keys (and
the capacities of buffers, arrays and maps): two objects are equal when they
hold the same keys with equal values. -/
inductive JEq : json_value_t → json_value_t → Prop where
  | number (n : Int) : JEq (JSON_NUMBER n) (JSON_NUMBER n)
  | string (s1 s2 : string_t) : s1.char_ptr = s2.char_ptr →
      JEq (JSON_STRING s1) (JSON_STRING s2)
  | tru (b : Int) : JEq (JSON_TRUE b) (JSON_TRUE b)
  | fls (b : Int) : JEq (JSON_FALSE b) (JSON_FALSE b)
  | null : JEq JSON_NULL JSON_NULL
  | array (a1 a2 : as_array_t json_value_t) : a1.array.length = a2.array.length →
      (∀ i x1 x2, a1.array.get? i = some x1 → a2.array.get? i = some x2 → JEq x1 x2) →
      JEq (JSON_ARRAY a1) (JSON_ARRAY a2)
  | object (m1 m2 : hash_map_t json_value_t) :
      (∀ k, (ht_get m1 k).isSome = (ht_get m2 k).isSome) →
      (∀ k x1 x2, ht_get m1 k = some x1 → ht_get m2 k = some x2 → JEq x1 x2) →
      JEq (JSON_OBJECT m1) (JSON_OBJECT m2)

/-- The buffer after appending the characters `cs` one by one. -/
def str_append_all (t : string_t) (cs : List Char) : string_t :=
  cs.foldl str_append_char t

/-- The token `get_next_token` returns for a literal with the lexeme `cs`. -/
def lexed_token (ty : token_type_t) (cs : List Char) : token_t :=
  ⟨some (str_append_all str_alloc cs), ty⟩

/-- The next character of the stream, if any, is neither a digit nor a
letter, nor the byte 255 that a `char` holds as `EOF`. -/
def starts_clear (rest : List Char) : Prop :=
  ∀ c r, rest = c :: r → isdigit c = false ∧ isalpha c = false ∧ c ≠ EOF_char

/-- The text lexes to the tokens `ts`, whatever follows it, as long as no
digit, letter or byte 255 follows it directly. -/
def LexesTo (text : List Char) (ts : List token_t) : Prop :=
  ∀ rest tsr, starts_clear rest → Lexes rest tsr → Lexes (text ++ rest) (ts ++ tsr)

/-- The text the loop of the JSON_OBJECT case prints for the entries with the
keys and printed values `kvs`, entered with the counter `i`. -/
def object_body (len : Nat) : List (List Char × List Char) → Nat → List Char
  | [], _ => []
  | kv :: rest, i =>
    ['"'] ++ kv.1 ++ ['"', ':', ' '] ++ kv.2 ++ (if i + 1 ≠ len then [','] else [])
      ++ object_body len rest (i + 1)

/-- The text the loop of the JSON_ARRAY case prints for the elements with the
printed values `vs`, entered with the counter `i`. -/
def array_body (len : Nat) : List (List Char) → Nat → List Char
  | [], _ => []
  | v :: rest, i =>
    v ++ (if i ≠ len - 1 then [',', ' '] else []) ++ array_body len rest (i + 1)

/-- The entries an iterator has still to return: the rest of its chain and
the chains of the buckets behind it. -/
def iter_rest {α : Type} (ht : hash_map_t α) (it : ht_iterator_t) : List (ht_entry_t α) :=
  (bucket_at ht.buckets it.curr_bucket).drop it.curr_idx
    ++ (ht.buckets.drop (it.curr_bucket + 1)).flatten

/-- An iterator state reached by `ht_get_next` from `ht_get_iter`: inside a
chain it points at a node of the chain. -/
def iter_valid {α : Type} (ht : hash_map_t α) (it : ht_iterator_t) : Prop :=
  it.curr_idx = 0 ∨ it.curr_idx < (bucket_at ht.buckets it.curr_bucket).length

/-- The tree `v` prints as `text`, `text` lexes to the tokens `ts`, and `ts`
parses to a tree `w` equal to `v` up to the order of object keys. -/
def reads_back (v : json_value_t) (text : List Char) (ts : List token_t)
    (w : json_value_t) : Prop :=
  Returns (fun fuel => print_json_value fuel v) text ∧ LexesTo text ts ∧ ParsesAs ts w ∧
  JEq v w

/-- The text `{"a":[1,true]}`. -/
def example_text : List Char :=
  ['{', '"', 'a', '"', ':', '[', '1', ',', 't', 'r', 'u', 'e', ']', '}']

/-- The parser state of `new_parser` on `example_text`. -/
def example_text_state : parser_t :=
  ⟨single_type_token BRACKET_OPEN,
    ['"', 'a', '"', ':', '[', '1', ',', 't', 'r', 'u', 'e', ']', '}'], []⟩

/-- The tree of `example_text`. -/
def example_text_tree : json_value_t :=
  JSON_OBJECT (ht_set (hash_map_alloc 4) ['a'] (JSON_ARRAY ⟨[JSON_NUMBER 1, JSON_TRUE 1], 2⟩))

/-- The text `"\\"`: a string literal that holds one escaped backslash. -/
def escaped_text : List Char := ['"', '\\', '\\', '"']

/-! ### Notions for numbers, tags, iteration and the program's output -/

/-- The enumeration `json_type_t`. -/
inductive json_type_t where
  | JSON_OBJECT
  | JSON_ARRAY
  | JSON_STRING
  | JSON_NUMBER
  | JSON_TRUE
  | JSON_FALSE
  | JSON_NULL
  deriving DecidableEq, Repr

/-- The field `type` of a `json_value_t`. -/
def json_value_t.type : json_value_t → json_type_t
  | JSON_OBJECT _ => json_type_t.JSON_OBJECT
  | JSON_ARRAY _ => json_type_t.JSON_ARRAY
  | JSON_STRING _ => json_type_t.JSON_STRING
  | JSON_NUMBER _ => json_type_t.JSON_NUMBER
  | JSON_TRUE _ => json_type_t.JSON_TRUE
  | JSON_FALSE _ => json_type_t.JSON_FALSE
  | JSON_NULL => json_type_t.JSON_NULL

/-- The tag of the production of `value` that a sentence with the first token
`t` comes from: OBJECT for `{`, ARRAY for `[`, STRING, NUMBER, and TRUE, FALSE
or NULL for the keyword of that name. -/
def production_tag (t : token_t) : Option json_type_t :=
  match t.type with
  | BRACKET_OPEN => some json_type_t.JSON_OBJECT
  | ARRAY_OPEN => some json_type_t.JSON_ARRAY
  | STRING => some json_type_t.JSON_STRING
  | NUMBER => some json_type_t.JSON_NUMBER
  | KEYWORD =>
    if t.lexeme_str = ['t', 'r', 'u', 'e'] then some json_type_t.JSON_TRUE
    else if t.lexeme_str = ['f', 'a', 'l', 's', 'e'] then some json_type_t.JSON_FALSE
    else if t.lexeme_str = ['n', 'u', 'l', 'l'] then some json_type_t.JSON_NULL
    else none
  | _ => none

/-- What the parser does with a sentence `e` of the nonterminal `nt`: a value
text parses to a tree with the tag of its production, an object text to an
object, an array text to an array; a member is a STRING key, a COLON and a
value text that parses; member and element lists are non-empty
comma-separated lists of such members and value texts. -/
def Parses : Nonterminal → List token_t → Prop
  | Nonterminal.value, e =>
    ∃ v, ParsesAs e v ∧ e.head?.bind production_tag = some v.type
  | Nonterminal.object, e => ∃ m, ParsesAs e (JSON_OBJECT m)
  | Nonterminal.array, e => ∃ a, ParsesAs e (JSON_ARRAY a)
  | Nonterminal.member, e =>
    ∃ k ve v, e = member_tokens k ve ∧ k.type = STRING ∧ ParsesAs ve v
  | Nonterminal.members, e =>
    ∃ ms : List (token_t × List token_t × json_value_t),
      e = comma_separated (ms.map fun m => member_tokens m.1 m.2.1) ∧ ms ≠ [] ∧
      ∀ m ∈ ms, m.1.type = STRING ∧ ParsesAs m.2.1 m.2.2
  | Nonterminal.elements, e =>
    ∃ es : List (List token_t × json_value_t),
      e = comma_separated (es.map Prod.fst) ∧ es ≠ [] ∧ ∀ ev ∈ es, ParsesAs ev.1 ev.2

/-- The indices at which the loop
`while (bucket == NULL && it->curr_bucket < ht->cap)` of `ht_get_next` reads
`ht->buckets`, started at bucket `b`: each round increments `curr_bucket` and
reads the bucket at the new index. -/
def ht_scan_reads {α : Type} (ht : hash_map_t α) : Nat → Nat → List Nat
  | 0, _ => []
  | fuel + 1, b =>
    if (bucket_at ht.buckets b).isEmpty ∧ b < ht.cap then (b + 1) :: ht_scan_reads ht fuel (b + 1)
    else []

/-- The indices at which one call of `ht_get_next` reads `ht->buckets`, in
order: `curr_bucket` once inside a chain; otherwise `curr_bucket` and then the
indices the scan loop reads. -/
def ht_get_next_reads {α : Type} (ht : hash_map_t α) (it : ht_iterator_t) : List Nat :=
  if it.curr_idx ≠ 0 then [it.curr_bucket]
  else it.curr_bucket :: ht_scan_reads ht (ht.cap - it.curr_bucket) it.curr_bucket

/-- The iterator after `n` calls of `ht_get_next` from `ht_get_iter`. -/
def ht_iter_after {α : Type} (ht : hash_map_t α) : Nat → ht_iterator_t
  | 0 => ht_get_iter
  | n + 1 => (ht_get_next ht (ht_iter_after ht n)).2

/-- The text `[1,2,3]`. -/
def example_array_text : List Char := ['[', '1', ',', '2', ',', '3', ']']

/-- The tokens of `example_text`. -/
def example_text_tokens : List token_t :=
  [single_type_token BRACKET_OPEN, string_token_1 'a', single_type_token COLON,
   single_type_token ARRAY_OPEN, number_token_1 '1', single_type_token COMMA,
   keyword_token ['t', 'r', 'u', 'e'], single_type_token ARRAY_CLOSE,
   single_type_token BRACKET_CLOSE]

/-- The line `__json_value_array_resize` prints when the array of
`example_array_text` grows from 2 to 4 slots. -/
def example_array_resize_line : List Char :=
  "trying to allocate new array of size 4".toList ++ ['\n']

/-- The serialization of the tree of `example_array_text`. -/
def example_array_rendering : List Char := "[ 1, 2, 3 ]".toList

open token_type_t json_value_t

/-! ## Hash map: chains -/

section hash
variable {α : Type}

theorem bucket_at_nil (i : Nat) : bucket_at ([] : List (List (ht_entry_t α))) i = [] := by
  simp [bucket_at]

theorem bucket_at_cons_zero (x : List (ht_entry_t α)) (xs : List (List (ht_entry_t α))) :
    bucket_at (x :: xs) 0 = x := rfl

theorem bucket_at_cons_succ (x : List (ht_entry_t α)) (xs : List (List (ht_entry_t α)))
    (i : Nat) : bucket_at (x :: xs) (i + 1) = bucket_at xs i := rfl

theorem bucket_at_of_le (B : List (List (ht_entry_t α))) (i : Nat) (h : B.length ≤ i) :
    bucket_at B i = [] := by
  induction B generalizing i with
  | nil => exact bucket_at_nil i
  | cons x xs ih =>
    cases i with
    | zero => simp at h
    | succ i => rw [bucket_at_cons_succ]; exact ih i (by simpa using h)

theorem mem_flatten_iff_bucket (B : List (List (ht_entry_t α))) (e : ht_entry_t α) :
    e ∈ B.flatten ↔ ∃ i, e ∈ bucket_at B i := by
  induction B with
  | nil => simp [bucket_at_nil]
  | cons x xs ih =>
    rw [List.flatten_cons, List.mem_append, ih]
    constructor
    · rintro (h | ⟨i, h⟩)
      · exact ⟨0, h⟩
      · exact ⟨i + 1, h⟩
    · rintro ⟨i, h⟩
      cases i with
      | zero => exact Or.inl h
      | succ i => exact Or.inr ⟨i, h⟩

theorem bucket_at_sublist (B : List (List (ht_entry_t α))) (i : Nat) :
    (bucket_at B i).Sublist B.flatten := by
  induction B generalizing i with
  | nil => simp [bucket_at_nil]
  | cons x xs ih =>
    cases i with
    | zero => rw [bucket_at_cons_zero, List.flatten_cons]; exact List.sublist_append_left _ _
    | succ i =>
      rw [bucket_at_cons_succ, List.flatten_cons]
      exact (ih i).trans (List.sublist_append_right _ _)

theorem bucket_at_set (B : List (List (ht_entry_t α))) (j i : Nat) (x : List (ht_entry_t α)) :
    bucket_at (B.set j x) i = if i = j ∧ j < B.length then x else bucket_at B i := by
  induction B generalizing i j with
  | nil => simp [bucket_at_nil]
  | cons y ys ih =>
    cases j with
    | zero =>
      cases i with
      | zero => simp [bucket_at_cons_zero]
      | succ i => simp [bucket_at_cons_succ]
    | succ j =>
      cases i with
      | zero => simp [bucket_at_cons_zero]
      | succ i => simp [bucket_at_cons_succ, ih]

theorem set_bucket_at_self (B : List (List (ht_entry_t α))) (j : Nat) :
    B.set j (bucket_at B j) = B := by
  induction B generalizing j with
  | nil => simp
  | cons y ys ih =>
    cases j with
    | zero => simp [bucket_at_cons_zero]
    | succ j => simp [bucket_at_cons_succ, ih]

theorem flatten_set_append_perm (B : List (List (ht_entry_t α))) (j : Nat) (h : j < B.length)
    (e : ht_entry_t α) :
    (B.set j (bucket_at B j ++ [e])).flatten.Perm (e :: B.flatten) := by
  induction B generalizing j with
  | nil => simp at h
  | cons y ys ih =>
    cases j with
    | zero =>
      simp only [List.set_cons_zero, bucket_at_cons_zero, List.flatten_cons, List.append_assoc]
      have : ([e] ++ ys.flatten).Perm (ys.flatten ++ [e]) := List.perm_append_comm
      calc y ++ ([e] ++ ys.flatten)
          _ |>.Perm ([e] ++ (y ++ ys.flatten)) := by
            rw [← List.append_assoc, ← List.append_assoc]
            exact List.Perm.append_right _ List.perm_append_comm
    | succ j =>
      simp only [List.set_cons_succ, bucket_at_cons_succ, List.flatten_cons]
      have h1 := ih j (by simpa using h)
      calc y ++ (ys.set j (bucket_at ys j ++ [e])).flatten
          _ |>.Perm (y ++ (e :: ys.flatten)) := List.Perm.append_left _ h1
          _ |>.Perm (e :: (y ++ ys.flatten)) := List.perm_middle

theorem chain_set_of_not_mem (new_entry : ht_entry_t α) (key : List Char)
    (chain : List (ht_entry_t α)) (h : ∀ e ∈ chain, e.key ≠ key) :
    chain_set new_entry key chain = chain ++ [new_entry] := by
  induction chain with
  | nil => rfl
  | cons ee next ih =>
    have h1 : ee.key ≠ key := h ee (List.mem_cons_self _ _)
    simp only [chain_set, if_neg h1, List.cons_append]
    rw [ih (fun e he => h e (List.mem_cons_of_mem _ he))]

theorem chain_set_of_mem (new_entry : ht_entry_t α) (key : List Char)
    (chain : List (ht_entry_t α)) (h : ∃ e ∈ chain, e.key = key) :
    chain_set new_entry key chain = chain := by
  induction chain with
  | nil => obtain ⟨e, he, _⟩ := h; simp at he
  | cons ee next ih =>
    by_cases h1 : ee.key = key
    · simp [chain_set, h1]
    · simp only [chain_set, if_neg h1]
      obtain ⟨e, he, hk⟩ := h
      rcases List.mem_cons.1 he with rfl | he
      · exact absurd hk h1
      · rw [ih ⟨e, he, hk⟩]

theorem chain_find_some (key : List Char) (chain : List (ht_entry_t α)) (e : ht_entry_t α)
    (h : chain_find key chain = some e) : e ∈ chain ∧ e.key = key := by
  induction chain with
  | nil => simp [chain_find] at h
  | cons ee next ih =>
    by_cases h1 : key = ee.key
    · simp only [chain_find, if_pos h1, Option.some.injEq] at h
      subst h
      exact ⟨List.mem_cons_self _ _, h1.symm⟩
    · simp only [chain_find, if_neg h1] at h
      exact ⟨List.mem_cons_of_mem _ (ih h).1, (ih h).2⟩

theorem chain_find_none (key : List Char) (chain : List (ht_entry_t α))
    (h : ∀ e ∈ chain, e.key ≠ key) : chain_find key chain = none := by
  induction chain with
  | nil => rfl
  | cons ee next ih =>
    have h1 : ¬ key = ee.key := fun h2 => h ee (List.mem_cons_self _ _) h2.symm
    simp only [chain_find, if_neg h1]
    exact ih (fun e he => h e (List.mem_cons_of_mem _ he))

theorem chain_find_of_mem (chain : List (ht_entry_t α)) (e : ht_entry_t α)
    (hnd : (chain.map (fun e => e.key)).Nodup) (he : e ∈ chain) :
    chain_find e.key chain = some e := by
  induction chain with
  | nil => simp at he
  | cons ee next ih =>
    rw [List.map_cons, List.nodup_cons] at hnd
    rcases List.mem_cons.1 he with rfl | he
    · simp [chain_find]
    · have h1 : ¬ e.key = ee.key := by
        intro h2
        exact hnd.1 (h2 ▸ List.mem_map_of_mem (fun e => e.key) he)
      simp only [chain_find, if_neg h1]
      exact ih hnd.2 he

end hash

/-! ## Hash map: buckets, growth and `ht_set` -/

section hash2
variable {α : Type}

theorem buckets_wf_replicate (cap : Nat) (h : 0 < cap) :
    buckets_wf cap (List.replicate cap ([] : List (ht_entry_t α))) := by
  refine ⟨by simp, h, ?_, by simp⟩
  intro i e he
  exfalso
  have : e ∈ (List.replicate cap ([] : List (ht_entry_t α))).flatten :=
    (mem_flatten_iff_bucket _ e).2 ⟨i, he⟩
  simp at this

theorem buckets_set_new (cap : Nat) (B : List (List (ht_entry_t α)))
    (new_entry : ht_entry_t α) (key : List Char) (hwf : buckets_wf cap B)
    (hkey : new_entry.key = key) (hnew : ∀ e ∈ B.flatten, e.key ≠ key) :
    buckets_wf cap (__ht_buckets_set B new_entry key (str_hash key) cap) ∧
    (__ht_buckets_set B new_entry key (str_hash key) cap).flatten.Perm
      (new_entry :: B.flatten) := by
  obtain ⟨hlen, hpos, hhash, hnd⟩ := hwf
  have hj : str_hash key % cap < B.length := by rw [hlen]; exact Nat.mod_lt _ hpos
  have hchain : chain_set new_entry key (bucket_at B (str_hash key % cap))
      = bucket_at B (str_hash key % cap) ++ [new_entry] :=
    chain_set_of_not_mem _ _ _ (fun e he => hnew e ((mem_flatten_iff_bucket B e).2 ⟨_, he⟩))
  have hperm : (__ht_buckets_set B new_entry key (str_hash key) cap).flatten.Perm
      (new_entry :: B.flatten) := by
    unfold __ht_buckets_set
    rw [hchain]
    exact flatten_set_append_perm B _ hj new_entry
  refine ⟨⟨?_, hpos, ?_, ?_⟩, hperm⟩
  · unfold __ht_buckets_set; rw [List.length_set]; exact hlen
  · intro i e he
    unfold __ht_buckets_set at he
    rw [bucket_at_set, hchain] at he
    by_cases hi : i = str_hash key % cap ∧ str_hash key % cap < B.length
    · rw [if_pos hi] at he
      rcases List.mem_append.1 he with he | he
      · rw [← hi.1] at he; exact hhash i e he
      · rw [List.mem_singleton] at he
        subst he
        rw [hkey]; exact hi.1.symm
    · rw [if_neg hi] at he
      exact hhash i e he
  · have := (hperm.map (fun e => e.key)).nodup_iff
    rw [this, List.map_cons, List.nodup_cons]
    refine ⟨?_, hnd⟩
    intro hmem
    obtain ⟨e, he, hk⟩ := List.mem_map.1 hmem
    exact hnew e he (hk.trans hkey)

theorem buckets_set_old (cap : Nat) (B : List (List (ht_entry_t α)))
    (new_entry : ht_entry_t α) (key : List Char) (hwf : buckets_wf cap B)
    (hold : ∃ e ∈ B.flatten, e.key = key) :
    __ht_buckets_set B new_entry key (str_hash key) cap = B := by
  obtain ⟨_, _, hhash, _⟩ := hwf
  obtain ⟨e, he, hk⟩ := hold
  obtain ⟨i, hi⟩ := (mem_flatten_iff_bucket B e).1 he
  have h1 := hhash i e hi
  rw [hk] at h1
  unfold __ht_buckets_set
  rw [chain_set_of_mem _ _ _ ⟨e, h1 ▸ hi, hk⟩]
  exact set_bucket_at_self B _

/-- Rehashing a list of entries with pairwise distinct keys, none of them
already present, adds exactly these entries. -/
theorem rehash_fold (ns : Nat) (L : List (ht_entry_t α)) (B : List (List (ht_entry_t α)))
    (hwf : buckets_wf ns B)
    (hnd : ((B.flatten ++ L).map (fun e => e.key)).Nodup) :
    buckets_wf ns (ht_rehash_chain ns B L) ∧
    (ht_rehash_chain ns B L).flatten.Perm (B.flatten ++ L) := by
  induction L generalizing B with
  | nil => simpa [ht_rehash_chain] using hwf
  | cons e L ih =>
    have hnew : ∀ x ∈ B.flatten, x.key ≠ e.key := by
      intro x hx hk
      rw [List.map_append, List.map_cons] at hnd
      have := (List.nodup_append.1 hnd).2.2
      exact this (List.mem_map_of_mem (fun e => e.key) hx) (hk ▸ List.mem_cons_self _ _)
    obtain ⟨hwf1, hperm1⟩ := buckets_set_new ns B e e.key hwf rfl hnew
    have hperm2 : ((__ht_buckets_set B e e.key (str_hash e.key) ns).flatten ++ L).Perm
        (B.flatten ++ e :: L) :=
      (List.Perm.append_right L hperm1).trans (by
        simpa using (@List.perm_middle _ e B.flatten L).symm)
    have hnd1 : (((__ht_buckets_set B e e.key (str_hash e.key) ns).flatten ++ L).map
        (fun e => e.key)).Nodup :=
      ((hperm2.map (fun e => e.key)).nodup_iff).2 hnd
    obtain ⟨hwf2, hperm3⟩ := ih _ hwf1 hnd1
    refine ⟨hwf2, ?_⟩
    exact hperm3.trans hperm2

theorem rehash_chain_append (ns : Nat) (B : List (List (ht_entry_t α)))
    (L1 L2 : List (ht_entry_t α)) :
    ht_rehash_chain ns B (L1 ++ L2) = ht_rehash_chain ns (ht_rehash_chain ns B L1) L2 := by
  simp [ht_rehash_chain, List.foldl_append]

theorem grow_loop_eq (ns : Nat) (old : List (List (ht_entry_t α)))
    (B : List (List (ht_entry_t α))) (n : Nat) (hn : n ≤ old.length) :
    (List.range n).foldl (fun b i => ht_rehash_chain ns b (bucket_at old i)) B
      = ht_rehash_chain ns B (old.take n).flatten := by
  induction n with
  | zero => simp [ht_rehash_chain]
  | succ n ih =>
    rw [List.range_succ, List.foldl_append, ih (Nat.le_of_succ_le hn)]
    have hlt : n < old.length := hn
    have htake : old.take (n + 1) = old.take n ++ [bucket_at old n] := by
      rw [List.take_succ]
      congr 1
      simp [bucket_at, List.getElem?_eq_getElem hlt]
    rw [htake, List.flatten_append, rehash_chain_append]
    simp

theorem ht_grow_buckets (ht : hash_map_t α) (h : ht.buckets.length = ht.cap) :
    (__ht_grow ht).buckets
      = ht_rehash_chain (ht.cap * 2) (List.replicate (ht.cap * 2) []) ht.buckets.flatten := by
  unfold __ht_grow
  simp only
  rw [grow_loop_eq _ _ _ _ (le_of_eq h.symm), ← h, List.take_length]

theorem ht_grow_cap (ht : hash_map_t α) : (__ht_grow ht).cap = ht.cap * 2 := rfl

theorem ht_grow_len (ht : hash_map_t α) : (__ht_grow ht).len = ht.len := rfl

theorem ht_grow_wf (ht : hash_map_t α) (hwf : ht_wf ht) :
    ht_wf (__ht_grow ht) ∧ (ht_entries (__ht_grow ht)).Perm (ht_entries ht) := by
  obtain ⟨hlen, hpos, hhash, hnd⟩ := hwf
  have hpos2 : 0 < ht.cap * 2 := by omega
  have := rehash_fold (ht.cap * 2) ht.buckets.flatten (List.replicate (ht.cap * 2) [])
    (buckets_wf_replicate _ hpos2) (by simpa using hnd)
  rw [← ht_grow_buckets ht hlen] at this
  refine ⟨this.1, ?_⟩
  simpa [ht_entries] using this.2

theorem ht_set_cap (ht : hash_map_t α) (key : List Char) (value : α) :
    (ht_set ht key value).cap = if load_factor_reached ht.len ht.cap then ht.cap * 2 else ht.cap := by
  unfold ht_set
  by_cases h : load_factor_reached ht.len ht.cap = true
  · simp [h, ht_grow_cap]
  · simp [h]

theorem ht_set_len (ht : hash_map_t α) (key : List Char) (value : α) :
    (ht_set ht key value).len = ht.len + 1 := by
  unfold ht_set
  by_cases h : load_factor_reached ht.len ht.cap = true
  · simp [h, ht_grow_len]
  · simp [h]

/-- The effect of `ht_set` on a well-formed map: a new key adds its entry, a
stored key changes no entry. -/
theorem ht_set_wf (ht : hash_map_t α) (key : List Char) (value : α) (hwf : ht_wf ht) :
    ht_wf (ht_set ht key value) ∧
    ((∀ e ∈ ht_entries ht, e.key ≠ key) →
      (ht_entries (ht_set ht key value)).Perm (⟨key, value⟩ :: ht_entries ht)) ∧
    ((∃ e ∈ ht_entries ht, e.key = key) →
      (ht_entries (ht_set ht key value)).Perm (ht_entries ht)) := by
  have key_step : ∀ m : hash_map_t α, ht_wf m → (ht_entries m).Perm (ht_entries ht) →
      buckets_wf m.cap (__ht_buckets_set m.buckets ⟨key, value⟩ key (str_hash key) m.cap) ∧
      ((∀ e ∈ ht_entries ht, e.key ≠ key) →
        (__ht_buckets_set m.buckets ⟨key, value⟩ key (str_hash key) m.cap).flatten.Perm
          (⟨key, value⟩ :: ht_entries ht)) ∧
      ((∃ e ∈ ht_entries ht, e.key = key) →
        (__ht_buckets_set m.buckets ⟨key, value⟩ key (str_hash key) m.cap).flatten.Perm
          (ht_entries ht)) := by
    intro m hm hperm
    by_cases hold : ∃ e ∈ ht_entries ht, e.key = key
    · have hold2 : ∃ e ∈ m.buckets.flatten, e.key = key := by
        obtain ⟨e, he, hk⟩ := hold
        exact ⟨e, hperm.symm.subset he, hk⟩
      rw [buckets_set_old m.cap m.buckets _ key hm hold2]
      refine ⟨hm, ?_, fun _ => hperm⟩
      intro hnew
      obtain ⟨e, he, hk⟩ := hold
      exact absurd hk (hnew e he)
    · have hnew : ∀ e ∈ m.buckets.flatten, e.key ≠ key := by
        intro e he hk
        exact hold ⟨e, hperm.subset he, hk⟩
      obtain ⟨h1, h2⟩ := buckets_set_new m.cap m.buckets ⟨key, value⟩ key hm rfl hnew
      refine ⟨h1, fun _ => h2.trans (List.Perm.cons _ hperm), fun h => absurd h hold⟩
  unfold ht_set
  by_cases h : load_factor_reached ht.len ht.cap = true
  · simp only [if_pos h]
    obtain ⟨hg, hp⟩ := ht_grow_wf ht hwf
    exact key_step (__ht_grow ht) hg hp
  · simp only [if_neg h]
    exact key_step ht hwf (List.Perm.refl _)

theorem ht_wf_alloc (c : Nat) (hc : 1 ≤ c) : ht_wf (hash_map_alloc c : hash_map_t α) :=
  buckets_wf_replicate c hc

theorem ht_entries_alloc (c : Nat) : ht_entries (hash_map_alloc c : hash_map_t α) = [] := by
  simp [ht_entries, hash_map_alloc]

theorem ht_wf_set_all (ht : hash_map_t α) (ops : List (List Char × α)) (hwf : ht_wf ht) :
    ht_wf (ht_set_all ht ops) := by
  induction ops generalizing ht with
  | nil => exact hwf
  | cons kv ops ih => exact ih _ (ht_set_wf ht kv.1 kv.2 hwf).1

theorem ht_set_all_append (ht : hash_map_t α) (ops1 ops2 : List (List Char × α)) :
    ht_set_all ht (ops1 ++ ops2) = ht_set_all (ht_set_all ht ops1) ops2 := by
  simp [ht_set_all, List.foldl_append]

/-- On a well-formed map `ht_get` finds exactly the stored entries. -/
theorem ht_get_eq_some_iff (ht : hash_map_t α) (hwf : ht_wf ht) (key : List Char) (v : α) :
    ht_get ht key = some v ↔ (⟨key, v⟩ : ht_entry_t α) ∈ ht_entries ht := by
  obtain ⟨hlen, hpos, hhash, hnd⟩ := hwf
  unfold ht_get __ht_get_impl
  constructor
  · intro h
    cases hf : chain_find key (bucket_at ht.buckets (str_hash key % ht.cap)) with
    | none => rw [hf] at h; simp at h
    | some e =>
      rw [hf] at h
      simp only [Option.some.injEq] at h
      obtain ⟨he, hk⟩ := chain_find_some _ _ _ hf
      have : e = ⟨key, v⟩ := by cases e; simp_all
      rw [← this]
      exact (mem_flatten_iff_bucket _ e).2 ⟨_, he⟩
  · intro h
    obtain ⟨i, hi⟩ := (mem_flatten_iff_bucket _ _).1 h
    have h1 := hhash i _ hi
    simp only at h1
    rw [← h1] at hi
    have hnd2 : ((bucket_at ht.buckets (str_hash key % ht.cap)).map (fun e => e.key)).Nodup :=
      ((bucket_at_sublist ht.buckets _).map _).nodup hnd
    have := chain_find_of_mem _ _ hnd2 hi
    simp only at this
    rw [this]

theorem ht_get_eq_none_iff (ht : hash_map_t α) (hwf : ht_wf ht) (key : List Char) :
    ht_get ht key = none ↔ ∀ e ∈ ht_entries ht, e.key ≠ key := by
  constructor
  · intro h e he hk
    have := (ht_get_eq_some_iff ht hwf key e.value).2 (by cases e; simp_all)
    rw [h] at this
    simp at this
  · intro h
    cases hg : ht_get ht key with
    | none => rfl
    | some v =>
      exact absurd rfl (h _ ((ht_get_eq_some_iff ht hwf key v).1 hg))

end hash2

/-! ## Hash map: the properties of `ht_set` and `ht_get` -/

section hash_claims
variable {α : Type}

theorem ht_set_all_snoc (ht : hash_map_t α) (ops : List (List Char × α)) (kv : List Char × α) :
    ht_set_all ht (ops ++ [kv]) = ht_set (ht_set_all ht ops) kv.1 kv.2 := by
  simp [ht_set_all, List.foldl_append]

theorem ht_set_all_len (ht : hash_map_t α) (ops : List (List Char × α)) :
    (ht_set_all ht ops).len = ht.len + ops.length := by
  induction ops using List.reverseRecOn with
  | nil => rfl
  | append_singleton ops kv ih =>
    rw [ht_set_all_snoc, ht_set_len, ih, List.length_append]
    simp; omega

/-- Below 2^24 the conversion to `float` is exact. -/
theorem float_of_int_small (n : Nat) (h : n < 2 ^ 24) : float_of_int n = n := by
  have hu : float_ulp n = 1 := by
    unfold float_ulp
    rw [float_ulp_loop, if_pos (by omega)]
  unfold float_of_int
  simp only [hu, Nat.div_one, Nat.mod_one, Nat.mul_one]
  rw [if_pos (Or.inl (by decide))]

/-- Below 2^24 the test of `ht_set` is the exact comparison of
`(len + 1) / cap` with 0.75. -/
theorem load_factor_reached_small (len cap : Nat) (h1 : len < 2 ^ 24) (h2 : cap < 2 ^ 24) :
    load_factor_reached len cap = true ↔ 3 * cap ≤ 4 * (len + 1) := by
  unfold load_factor_reached
  rw [float_of_int_small len h1, float_of_int_small cap h2, decide_eq_true_iff]

/-- While the test of `ht_set` fails, the capacity stays as allocated. -/
theorem ht_set_all_no_growth (c : Nat) (ops : List (List Char × α))
    (h : ∀ j, j < ops.length → load_factor_reached j c = false) :
    (ht_set_all (hash_map_alloc c) ops).cap = c := by
  induction ops using List.reverseRecOn with
  | nil => rfl
  | append_singleton ops kv ih =>
    have hlen : (ht_set_all (hash_map_alloc c : hash_map_t α) ops).len = ops.length := by
      rw [ht_set_all_len]; simp [hash_map_alloc]
    have hcap := ih (fun j hj => h j (by rw [List.length_append]; omega))
    rw [ht_set_all_snoc, ht_set_cap, hlen, hcap,
      h ops.length (by rw [List.length_append, List.length_singleton]; omega)]
    rfl

/-- The capacity reached after `n` calls of `ht_set` on `hash_map_alloc c`,
for sizes at which the conversions to `float` are exact. -/
theorem ht_set_all_cap (c : Nat) (hc : 1 ≤ c) (hcb : c < 2 ^ 24) (ops : List (List Char × α))
    (hn : 8 * ops.length < 3 * 2 ^ 24) :
    ∃ k, (ht_set_all (hash_map_alloc c) ops).cap = c * 2 ^ k ∧
      4 * ops.length < 3 * (c * 2 ^ k) ∧
      ∀ j, 4 * ops.length < 3 * (c * 2 ^ j) → k ≤ j := by
  induction ops using List.reverseRecOn with
  | nil =>
    refine ⟨0, by simp [ht_set_all, hash_map_alloc], by simp; omega, fun j _ => Nat.zero_le j⟩
  | append_singleton ops kv ih =>
    rw [List.length_append, List.length_singleton] at hn
    obtain ⟨k, hcap, hlt, hmin⟩ := ih (by omega)
    have hlen : (ht_set_all (hash_map_alloc c : hash_map_t α) ops).len = ops.length := by
      rw [ht_set_all_len]; simp [hash_map_alloc]
    rw [ht_set_all_snoc, ht_set_cap, hlen, hcap, List.length_append, List.length_singleton]
    have hpow : 1 ≤ 2 ^ k := Nat.one_le_two_pow
    have hck : 1 ≤ c * 2 ^ k := Nat.mul_pos hc hpow
    have hcapb : c * 2 ^ k < 2 ^ 24 := by
      cases k with
      | zero => simpa using hcb
      | succ k0 =>
        have hnot : ¬ 4 * ops.length < 3 * (c * 2 ^ k0) := fun hlt0 => by
          have := hmin k0 hlt0
          omega
        have : c * 2 ^ (k0 + 1) = 2 * (c * 2 ^ k0) := by rw [pow_succ]; ring
        rw [this]
        omega
    have htest := load_factor_reached_small ops.length (c * 2 ^ k) (by omega) hcapb
    by_cases hg : 3 * (c * 2 ^ k) ≤ 4 * (ops.length + 1)
    · rw [if_pos (htest.2 hg)]
      refine ⟨k + 1, by rw [pow_succ]; ring, ?_, ?_⟩
      · rw [pow_succ]
        have : c * (2 ^ k * 2) = 2 * (c * 2 ^ k) := by ring
        rw [this]
        rcases Nat.eq_zero_or_pos ops.length with h0 | h0
        · rw [h0]; omega
        · omega
      · intro j hj
        have h1 : k ≤ j := hmin j (by omega)
        rcases Nat.eq_or_lt_of_le h1 with h2 | h2
        · subst h2; omega
        · exact h2
    · rw [if_neg (fun ht => hg (htest.1 ht))]
      refine ⟨k, rfl, by omega, ?_⟩
      intro j hj
      exact hmin j (by omega)

/-- C2: for a map obtained from `hash_map_alloc c`, `c ≥ 1`, by any sequence of
`ht_set` calls, and a key `k` that has no entry in it, `ht_get k` after
`ht_set k v` returns `v` (the statement covers the calls that grow the table
and those that do not). -/
theorem ht_get_after_ht_set_fresh (c : Nat) (hc : 1 ≤ c) (ops : List (List Char × α))
    (k : List Char) (v : α)
    (hk : ∀ e ∈ ht_entries (ht_set_all (hash_map_alloc c) ops), e.key ≠ k) :
    ht_get (ht_set (ht_set_all (hash_map_alloc c) ops) k v) k = some v := by
  have hwf := ht_wf_set_all (hash_map_alloc c) ops (ht_wf_alloc c hc)
  obtain ⟨hwf2, hnew, _⟩ := ht_set_wf _ k v hwf
  rw [ht_get_eq_some_iff _ hwf2]
  exact (hnew hk).symm.subset (List.mem_cons_self _ _)

/-- Witness for C2: capacity 1, one stored key, and a second key whose
insertion grows the table from 2 to 4 buckets. -/
theorem ht_get_after_ht_set_fresh_witness :
    (1 ≤ 1 ∧ ∀ e ∈ ht_entries (ht_set_all (hash_map_alloc 1) [(['a'], (1 : Nat))]),
      e.key ≠ ['b']) ∧
    (ht_set (ht_set_all (hash_map_alloc 1) [(['a'], (1 : Nat))]) ['b'] 2).cap = 4 ∧
    ht_get (ht_set (ht_set_all (hash_map_alloc 1) [(['a'], (1 : Nat))]) ['b'] 2) ['b']
      = some 2 :=
  ⟨⟨by decide, by decide⟩, by decide,
    ht_get_after_ht_set_fresh 1 (by decide) [(['a'], 1)] ['b'] 2 (by decide)⟩

/-- C3: for a map obtained from `hash_map_alloc c`, `c ≥ 1`, by any sequence of
`ht_set` calls, and a key `k` stored with value `v`, `ht_get k` after
`ht_set k w` still returns `v`, for every `w` (also when the call grows the
table). -/
theorem ht_get_after_ht_set_stored (c : Nat) (hc : 1 ≤ c) (ops : List (List Char × α))
    (k : List Char) (v w : α)
    (hk : ht_get (ht_set_all (hash_map_alloc c) ops) k = some v) :
    ht_get (ht_set (ht_set_all (hash_map_alloc c) ops) k w) k = some v := by
  have hwf := ht_wf_set_all (hash_map_alloc c) ops (ht_wf_alloc c hc)
  obtain ⟨hwf2, _, hold⟩ := ht_set_wf _ k w hwf
  rw [ht_get_eq_some_iff _ hwf] at hk
  rw [ht_get_eq_some_iff _ hwf2]
  exact (hold ⟨_, hk, rfl⟩).symm.subset hk

/-- Witness for C3: the second `ht_set` of the key grows the table from 2 to 4
buckets and leaves the stored value. -/
theorem ht_get_after_ht_set_stored_witness :
    (1 ≤ 1 ∧ ht_get (ht_set_all (hash_map_alloc 1) [(['a'], (1 : Nat))]) ['a'] = some 1) ∧
    (ht_set (ht_set_all (hash_map_alloc 1) [(['a'], (1 : Nat))]) ['a'] 2).cap = 4 ∧
    ht_get (ht_set (ht_set_all (hash_map_alloc 1) [(['a'], (1 : Nat))]) ['a'] 2) ['a']
      = some 1 :=
  ⟨⟨by decide, by decide⟩, by decide,
    ht_get_after_ht_set_stored 1 (by decide) [(['a'], 1)] ['a'] 1 2 (by decide)⟩

/-- The state `ht_set` converts to `float` wrongly for C4: with the capacity
2^24 + 1, which `float` holds as 2^24, the test holds at `len = 12582911`,
one call before `(len + 1) / cap` reaches 0.75. -/
theorem load_factor_reached_early :
    load_factor_reached 12582911 (2 ^ 24 + 1) = true ∧
    ¬ 3 * (2 ^ 24 + 1) ≤ 4 * (12582911 + 1) ∧
    ∀ j, j < 12582911 → load_factor_reached j (2 ^ 24 + 1) = false := by
  have hF : float_of_int (2 ^ 24 + 1) = 2 ^ 24 := by decide
  refine ⟨by decide, by decide, ?_⟩
  intro j hj
  unfold load_factor_reached
  rw [hF, float_of_int_small j (by omega), decide_eq_false_iff_not]
  omega

/-- The capacity after `n + 1` calls, when the test of `ht_set` holds first at
`len = n`. -/
theorem ht_set_all_grow_at (c n : Nat) (f : Nat → List Char × α)
    (hno : ∀ j, j < n → load_factor_reached j c = false)
    (hyes : load_factor_reached n c = true) :
    (ht_set_all (hash_map_alloc c) ((List.range (n + 1)).map f)).cap = c * 2 := by
  have hlen : (ht_set_all (hash_map_alloc c : hash_map_t α) ((List.range n).map f)).len = n := by
    rw [ht_set_all_len, List.length_map, List.length_range]
    exact Nat.zero_add n
  have hcap := ht_set_all_no_growth c ((List.range n).map f)
    (fun j hj => hno j (by rw [List.length_map, List.length_range] at hj; exact hj))
  rw [List.range_succ, List.map_append, List.map_singleton, ht_set_all_snoc, ht_set_cap, hlen,
    hcap, hyes]
  rfl

/-- C4 as stated fails: after 12582912 pairwise distinct keys into the
capacity 2^24 + 1 the capacity is doubled, although the capacity as allocated
is the smallest `c * 2^k` with `n / cap < 0.75`: `ht_set` tests
`(len + 1) / cap` on `float` values, and `(float)cap` is 2^24. -/
theorem ht_cap_after_distinct_inserts_counterexample :
    ¬ (∀ (c : Nat), 1 ≤ c → ∀ ops : List (List Char × Nat),
        (ops.map (fun kv => kv.1)).Nodup →
        ∃ k, (ht_set_all (hash_map_alloc c) ops).cap = c * 2 ^ k ∧
          4 * ops.length < 3 * (ht_set_all (hash_map_alloc c) ops).cap ∧
          ∀ j, 4 * ops.length < 3 * (c * 2 ^ j) →
            (ht_set_all (hash_map_alloc c) ops).cap ≤ c * 2 ^ j) := by
  intro h
  obtain ⟨h1, _, h3⟩ := load_factor_reached_early
  have hnd : (((List.range (12582911 + 1)).map
      fun i => ((List.replicate i 'a', 0) : List Char × Nat)).map (fun kv => kv.1)).Nodup := by
    rw [List.map_map]
    refine (List.nodup_range _).map ?_
    intro i j hij
    have := congrArg List.length hij
    simp only [Function.comp, List.length_replicate] at this
    exact this
  obtain ⟨k, _, _, hmin⟩ := h (2 ^ 24 + 1) (by decide) _ hnd
  have hcap := ht_set_all_grow_at (2 ^ 24 + 1) 12582911
    (fun i => ((List.replicate i 'a', 0) : List Char × Nat)) h3 h1
  have h0 := hmin 0 (by
    rw [List.length_map, List.length_range]
    decide)
  rw [hcap] at h0
  exact absurd h0 (by decide)

/-- C4, amended: after inserting `n` pairwise distinct keys with `ht_set` into
`hash_map_alloc c`, with `1 ≤ c < 2^24` and `n < 6291456` (written
`8 * n < 3 * 2^24`), sizes at which every `len` and `cap` that `ht_set`
converts to `float` is below 2^24, the field `cap` is the smallest value
`c * 2^k` with `n / cap < 0.75` (written `4 * n < 3 * cap`). -/
theorem ht_cap_after_distinct_inserts (c : Nat) (hc : 1 ≤ c) (hcb : c < 2 ^ 24)
    (ops : List (List Char × α)) (hn : 8 * ops.length < 3 * 2 ^ 24)
    (_hdistinct : (ops.map (fun kv => kv.1)).Nodup) :
    ∃ k, (ht_set_all (hash_map_alloc c) ops).cap = c * 2 ^ k ∧
      4 * ops.length < 3 * (ht_set_all (hash_map_alloc c) ops).cap ∧
      ∀ j, 4 * ops.length < 3 * (c * 2 ^ j) →
        (ht_set_all (hash_map_alloc c) ops).cap ≤ c * 2 ^ j := by
  obtain ⟨k, hcap, hlt, hmin⟩ := ht_set_all_cap c hc hcb ops hn
  refine ⟨k, hcap, by rw [hcap]; exact hlt, ?_⟩
  intro j hj
  rw [hcap]
  exact Nat.mul_le_mul_left c (Nat.pow_le_pow_right (by decide) (hmin j hj))

/-- Witness for C4 amended: three distinct keys into capacity 4 give capacity
8. -/
theorem ht_cap_after_distinct_inserts_witness :
    (1 ≤ 4 ∧ 4 < 2 ^ 24 ∧
      8 * [(['a'], (1 : Nat)), (['b'], 2), (['c'], 3)].length < 3 * 2 ^ 24 ∧
      ([(['a'], (1 : Nat)), (['b'], 2), (['c'], 3)].map (fun kv => kv.1)).Nodup) ∧
    (ht_set_all (hash_map_alloc 4) [(['a'], (1 : Nat)), (['b'], 2), (['c'], 3)]).cap = 8 ∧
    ∃ k, (ht_set_all (hash_map_alloc 4) [(['a'], (1 : Nat)), (['b'], 2), (['c'], 3)]).cap
        = 4 * 2 ^ k ∧
      4 * [(['a'], (1 : Nat)), (['b'], 2), (['c'], 3)].length
        < 3 * (ht_set_all (hash_map_alloc 4) [(['a'], (1 : Nat)), (['b'], 2), (['c'], 3)]).cap ∧
      ∀ j, 4 * [(['a'], (1 : Nat)), (['b'], 2), (['c'], 3)].length < 3 * (4 * 2 ^ j) →
        (ht_set_all (hash_map_alloc 4) [(['a'], (1 : Nat)), (['b'], 2), (['c'], 3)]).cap
          ≤ 4 * 2 ^ j :=
  ⟨⟨by decide, by decide, by decide, by decide⟩, by decide,
    ht_cap_after_distinct_inserts 4 (by decide) (by decide) [(['a'], 1), (['b'], 2), (['c'], 3)]
      (by decide) (by decide)⟩

end hash_claims

/-! ## Lexer -/

theorem str_append_char_ptr (t : string_t) (c : Char) :
    (str_append_char t c).char_ptr = t.char_ptr ++ [c] := rfl

theorem isspace_EOF_char : isspace EOF_char = false := by decide

theorem isdigit_EOF_char : isdigit EOF_char = false := by decide

theorem isalpha_EOF_char : isalpha EOF_char = false := by decide

theorem skip_whitespace_eq (c : Char) (s : List Char) :
    skip_whitespace c s =
      match (c :: s).dropWhile isspace with
      | [] => (none, [])
      | c1 :: r => if c1 = EOF_char then (none, r) else (some c1, r) := by
  induction s generalizing c with
  | nil =>
    by_cases h : isspace c = true
    · simp [skip_whitespace, List.dropWhile, h]
    · by_cases he : c = EOF_char
      · subst he
        simp [skip_whitespace, List.dropWhile, isspace_EOF_char]
      · simp [skip_whitespace, List.dropWhile, h, he]
  | cons c2 s ih =>
    by_cases h : isspace c = true
    · simp only [skip_whitespace, h, if_true]
      rw [ih c2]
      simp [List.dropWhile_cons, h]
    · by_cases he : c = EOF_char
      · subst he
        simp [skip_whitespace, List.dropWhile, isspace_EOF_char]
      · simp [skip_whitespace, List.dropWhile, h, he]

/-- The token `get_next_token` produces once the first character `c` after
the whitespace is known. -/
theorem get_next_token_cons (c : Char) (s : List Char) (h : isspace c = false)
    (he : c ≠ EOF_char) :
    get_next_token (c :: s) =
      if c = '{' then Res.ok (single_type_token BRACKET_OPEN, s)
      else if c = '}' then Res.ok (single_type_token BRACKET_CLOSE, s)
      else if c = ':' then Res.ok (single_type_token COLON, s)
      else if c = ',' then Res.ok (single_type_token COMMA, s)
      else if c = '[' then Res.ok (single_type_token ARRAY_OPEN, s)
      else if c = ']' then Res.ok (single_type_token ARRAY_CLOSE, s)
      else if c = '"' then
        Res.ok (⟨some (lex_string str_alloc s).1, STRING⟩, (lex_string str_alloc s).2)
      else if isdigit c then
        Res.ok (⟨some (lex_run isdigit (str_append_char str_alloc c) s).1, NUMBER⟩,
          (lex_run isdigit (str_append_char str_alloc c) s).2)
      else if isalpha c then
        Res.ok (⟨some (lex_run isalpha (str_append_char str_alloc c) s).1, KEYWORD⟩,
          (lex_run isalpha (str_append_char str_alloc c) s).2)
      else Res.fatal (Fatal.unexpected_character c) := by
  have h1 : skip_whitespace c s = (some c, s) := by
    rw [skip_whitespace_eq]
    simp [List.dropWhile_cons, h, he]
  simp only [get_next_token, h1]

/-- The byte 255 reads as end-of-stream: the lexer returns the EOF token and
the byte is consumed. -/
theorem get_next_token_EOF_char (s : List Char) :
    get_next_token (EOF_char :: s) = Res.ok (single_type_token TOKEN_EOF, s) := by
  have h1 : skip_whitespace EOF_char s = (none, s) := by
    rw [skip_whitespace_eq]
    simp [List.dropWhile_cons, isspace_EOF_char]
  simp only [get_next_token, h1]

theorem get_next_token_skip (s : List Char) :
    get_next_token s = get_next_token (s.dropWhile isspace) := by
  cases s with
  | nil => rfl
  | cons c0 s0 =>
    by_cases h : isspace c0 = true
    · have h1 := skip_whitespace_eq c0 s0
      cases hd : (c0 :: s0).dropWhile isspace with
      | nil =>
        rw [hd] at h1
        simp only [get_next_token, h1]
      | cons c1 r =>
        rw [hd] at h1
        have hc1 : isspace c1 = false := by
          have := List.head_dropWhile_not isspace (c0 :: s0) (by rw [hd]; simp)
          simpa [hd] using this
        have h2 : skip_whitespace c1 r = if c1 = EOF_char then (none, r) else (some c1, r) := by
          rw [skip_whitespace_eq]; simp [List.dropWhile_cons, hc1]
        simp only [get_next_token, h1, h2]
    · have : (c0 :: s0).dropWhile isspace = c0 :: s0 := by
        simp [List.dropWhile_cons, h]
      rw [this]

theorem lex_string_cons (t : string_t) (c : Char) (s : List Char) :
    lex_string t (c :: s) =
      if c = EOF_char then (t, s)
      else if c = '"' then (t, s)
      else if c = '\\' then
        match s with
        | [] => (str_append_char t EOF_char, [])
        | c2 :: s2 => lex_string (str_append_char t c2) s2
      else lex_string (str_append_char t c) s := by
  rw [lex_string.eq_def]

/-- C8 as stated fails: the vertical tab is none of space, tab, newline and
carriage-return and starts no token, yet `get_next_token` skips it and returns
the NUMBER token behind it instead of the unexpected-character error. -/
theorem get_next_token_spec_whitespace_counterexample :
    ¬ (∀ (s : List Char) (c : Char) (r : List Char),
        s.dropWhile spec_whitespace = c :: r →
        c ∉ token_start_chars → isdigit c = false → isalpha c = false →
        get_next_token s = Res.fatal (Fatal.unexpected_character c)) := by
  intro h
  have h1 := h [Char.ofNat 11, '1'] (Char.ofNat 11) ['1'] (by decide) (by decide) (by decide)
    (by decide)
  exact absurd h1 (by decide)

/-- C8, amended: `get_next_token` skips exactly the leading characters for
which `isspace` holds (space, tab, newline, vertical tab, form feed and
carriage-return); if the first character after them is not end-of-stream, not
the byte 255 (which a `char` holds as `EOF`, so that the lexer returns the EOF
token for it), none of the seven token-start characters, not a digit and not a
letter, the call ends in the unexpected-character error, and so does the whole
program, which then writes no tree. -/
theorem get_next_token_unexpected_character (s : List Char) :
    get_next_token s = get_next_token (s.dropWhile isspace) ∧
    (∀ r : List Char, s.dropWhile isspace = EOF_char :: r →
      get_next_token s = Res.ok (single_type_token TOKEN_EOF, r)) ∧
    ∀ (c : Char) (r : List Char), s.dropWhile isspace = c :: r → c ≠ EOF_char →
      c ∉ token_start_chars → isdigit c = false → isalpha c = false →
      get_next_token s = Res.fatal (Fatal.unexpected_character c) ∧
      ∀ fuel, main fuel s = Res.fatal (Fatal.unexpected_character c) := by
  refine ⟨get_next_token_skip s, ?_, ?_⟩
  · intro r hs
    rw [get_next_token_skip, hs, get_next_token_EOF_char]
  intro c r hs he hc hd ha
  have hsp : isspace c = false := by
    have := List.head_dropWhile_not isspace s (by rw [hs]; simp)
    simpa [hs] using this
  have h1 : get_next_token s = Res.fatal (Fatal.unexpected_character c) := by
    rw [get_next_token_skip, hs, get_next_token_cons c r hsp he]
    simp only [token_start_chars, List.mem_cons, List.mem_singleton, List.not_mem_nil,
      not_or, or_false] at hc
    obtain ⟨h1, h2, h3, h4, h5, h6, h7⟩ := hc
    simp [h1, h2, h3, h4, h5, h6, h7, hd, ha]
  refine ⟨h1, fun fuel => ?_⟩
  simp [main, new_parser_t, h1, Res.bind]

/-- Witness for C8 amended: after a space and a form feed, the `@` of
`{@:"x"}` is the first character that is not skipped. -/
theorem get_next_token_unexpected_character_witness :
    ([' ', Char.ofNat 12, '@', ':', '"', 'x', '"', '}'].dropWhile isspace
        = '@' :: [':', '"', 'x', '"', '}'] ∧ '@' ≠ EOF_char ∧
      '@' ∉ token_start_chars ∧ isdigit '@' = false ∧ isalpha '@' = false) ∧
    get_next_token [' ', Char.ofNat 12, '@', ':', '"', 'x', '"', '}']
      = Res.fatal (Fatal.unexpected_character '@') ∧
    ∀ fuel, main fuel [' ', Char.ofNat 12, '@', ':', '"', 'x', '"', '}']
      = Res.fatal (Fatal.unexpected_character '@') :=
  ⟨⟨by decide, by decide, by decide, by decide, by decide⟩,
    (get_next_token_unexpected_character
      [' ', Char.ofNat 12, '@', ':', '"', 'x', '"', '}']).2.2 '@' [':', '"', 'x', '"', '}']
      (by decide) (by decide) (by decide) (by decide) (by decide)⟩

/-- C10 at its failing input: on the stream `"ab\` (no closing quote, a
backslash right before end-of-stream) `get_next_token` returns a STRING token
and the next call returns the EOF token, but the lexeme is `ab` followed by
the byte 255 (`EOF` stored into a `char`), not the content `ab` read before
end-of-stream. -/
theorem get_next_token_unterminated_backslash :
    get_next_token ['"', 'a', 'b', '\\']
      = Res.ok (⟨some ⟨['a', 'b', Char.ofNat 255], 4⟩, STRING⟩, []) ∧
    get_next_token [] = Res.ok (single_type_token TOKEN_EOF, []) ∧
    drop_backslashes ['a', 'b', '\\'] = ['a', 'b'] ∧
    ['a', 'b', Char.ofNat 255] ≠ drop_backslashes ['a', 'b', '\\'] := by
  refine ⟨by decide, by decide, by decide, by decide⟩

/-! ## Parser: unfolding, fuel, and the token view -/

theorem parse_single_object_member_succ (fuel : Nat) (p : parser_t)
    (parent : hash_map_t json_value_t) :
    parse_single_object_member (fuel + 1) p parent =
      if p.lookahead.type ≠ STRING then Res.fatal (Fatal.unexpected_token p.lookahead)
      else
        (match_token p STRING).bind fun p1 =>
        (match_token p1 COLON).bind fun p2 =>
        (parse_value fuel p2).bind fun r =>
        Res.ok (ht_set parent p.lookahead.lexeme_str r.1, r.2) := by
  rw [parse_single_object_member]

theorem parse_rest_object_members_succ (fuel : Nat) (p : parser_t)
    (parent : hash_map_t json_value_t) :
    parse_rest_object_members (fuel + 1) p parent =
      if p.lookahead.type = COMMA then
        (match_token p COMMA).bind fun p1 =>
        (parse_single_object_member fuel p1 parent).bind fun r =>
        parse_rest_object_members fuel r.2 r.1
      else Res.ok (parent, p) := by
  rw [parse_rest_object_members]

theorem parse_json_object_members_succ (fuel : Nat) (p : parser_t)
    (parent : hash_map_t json_value_t) :
    parse_json_object_members (fuel + 1) p parent =
      (parse_single_object_member fuel p parent).bind fun r =>
      parse_rest_object_members fuel r.2 r.1 := by
  rw [parse_json_object_members]

theorem parse_json_object_succ (fuel : Nat) (p : parser_t) :
    parse_json_object (fuel + 1) p =
      (match_token p BRACKET_OPEN).bind fun p1 =>
      if p1.lookahead.type = BRACKET_CLOSE then
        (match_token p1 BRACKET_CLOSE).bind fun p2 =>
          Res.ok (JSON_OBJECT (hash_map_alloc 4), p2)
      else
        (parse_json_object_members fuel p1 (hash_map_alloc 4)).bind fun r =>
        (match_token r.2 BRACKET_CLOSE).bind fun p3 => Res.ok (JSON_OBJECT r.1, p3) := by
  rw [parse_json_object]

theorem parse_json_array_members_succ (fuel : Nat) (p : parser_t)
    (parent : as_array_t json_value_t) :
    parse_json_array_members (fuel + 1) p parent =
      (parse_value fuel p).bind fun r =>
      if r.2.lookahead.type = COMMA then
        (match_token { r.2 with out := r.2.out ++ (__json_value_array_append parent r.1).2 }
          COMMA).bind fun p2 =>
          parse_json_array_members fuel p2 (__json_value_array_append parent r.1).1
      else Res.ok ((__json_value_array_append parent r.1).1,
        { r.2 with out := r.2.out ++ (__json_value_array_append parent r.1).2 }) := by
  rw [parse_json_array_members]

theorem parse_json_array_succ (fuel : Nat) (p : parser_t) :
    parse_json_array (fuel + 1) p =
      (match_token p ARRAY_OPEN).bind fun p1 =>
      if p1.lookahead.type = ARRAY_CLOSE then
        (match_token p1 ARRAY_CLOSE).bind fun p2 => Res.ok (JSON_ARRAY ⟨[], 2⟩, p2)
      else
        (parse_json_array_members fuel p1 ⟨[], 2⟩).bind fun r =>
        (match_token r.2 ARRAY_CLOSE).bind fun p3 => Res.ok (JSON_ARRAY r.1, p3) := by
  rw [parse_json_array]

theorem parse_value_succ (fuel : Nat) (p : parser_t) :
    parse_value (fuel + 1) p =
      if p.lookahead.type = BRACKET_OPEN then parse_json_object fuel p
      else if p.lookahead.type = KEYWORD then
        (parse_keyword p.lookahead).bind fun v =>
        (match_token p KEYWORD).bind fun p1 => Res.ok (v, p1)
      else if p.lookahead.type = NUMBER then
        (match_token p NUMBER).bind fun p1 =>
          Res.ok (JSON_NUMBER (atoi p.lookahead.lexeme_str), p1)
      else if p.lookahead.type = STRING then
        (match_token p STRING).bind fun p1 =>
          Res.ok (JSON_STRING (p.lookahead.lexeme.getD ⟨[], 0⟩), p1)
      else if p.lookahead.type = ARRAY_OPEN then parse_json_array fuel p
      else Res.fatal (Fatal.unexpected_token p.lookahead) := by
  rw [parse_value]

theorem parse_single_object_member_zero (p : parser_t) (parent : hash_map_t json_value_t) :
    parse_single_object_member 0 p parent = Res.out_of_fuel := by
  rw [parse_single_object_member]

theorem parse_rest_object_members_zero (p : parser_t) (parent : hash_map_t json_value_t) :
    parse_rest_object_members 0 p parent = Res.out_of_fuel := by
  rw [parse_rest_object_members]

theorem parse_json_object_members_zero (p : parser_t) (parent : hash_map_t json_value_t) :
    parse_json_object_members 0 p parent = Res.out_of_fuel := by
  rw [parse_json_object_members]

theorem parse_json_object_zero (p : parser_t) : parse_json_object 0 p = Res.out_of_fuel := by
  rw [parse_json_object]

theorem parse_json_array_members_zero (p : parser_t) (parent : as_array_t json_value_t) :
    parse_json_array_members 0 p parent = Res.out_of_fuel := by
  rw [parse_json_array_members]

theorem parse_json_array_zero (p : parser_t) : parse_json_array 0 p = Res.out_of_fuel := by
  rw [parse_json_array]

theorem parse_value_zero (p : parser_t) : parse_value 0 p = Res.out_of_fuel := by
  rw [parse_value]

section res
variable {α β : Type}

theorem Res.bind_ok (a : α) (f : α → Res β) : (Res.ok a).bind f = f a := rfl

theorem Res.bind_fatal (e : Fatal) (f : α → Res β) :
    (Res.fatal e : Res α).bind f = Res.fatal e := rfl

theorem Res.bind_out_of_fuel (f : α → Res β) :
    (Res.out_of_fuel : Res α).bind f = Res.out_of_fuel := rfl

theorem Res.le_refl (r : Res α) : r.le r := Or.inr rfl

theorem Res.le_of_out_of_fuel (r : Res α) : (Res.out_of_fuel : Res α).le r := Or.inl rfl

theorem Res.le_bind {a a' : Res α} {k k' : α → Res β} (ha : a.le a')
    (hk : ∀ x, (k x).le (k' x)) : (a.bind k).le (a'.bind k') := by
  rcases ha with ha | ha
  · subst ha; exact Or.inl rfl
  · subst ha
    cases a' with
    | ok x => exact hk x
    | fatal e => exact Or.inr rfl
    | out_of_fuel => exact Or.inl rfl

theorem Res.le_ite (c : Prop) [Decidable c] {x x' y y' : Res α} (hx : x.le x')
    (hy : y.le y') : (if c then x else y).le (if c then x' else y') := by
  by_cases h : c
  · rw [if_pos h, if_pos h]; exact hx
  · rw [if_neg h, if_neg h]; exact hy

/-- A computation that only gains from fuel keeps a result it has reached. -/
theorem Res.le_stable (f : Nat → Res α) (hf : ∀ n, (f n).le (f (n + 1))) (n : Nat) (r : Res α)
    (h : f n = r) (hr : r ≠ Res.out_of_fuel) : ∀ m, n ≤ m → f m = r := by
  intro m hm
  induction m with
  | zero =>
    have : n = 0 := Nat.le_zero.1 hm
    subst this; exact h
  | succ m ih =>
    rcases Nat.eq_or_lt_of_le hm with h1 | h1
    · subst h1; exact h
    · have h2 := ih (Nat.lt_succ_iff.1 h1)
      rcases hf m with h3 | h3
      · rw [h2] at h3; exact absurd h3 hr
      · rw [h3, h2]

theorem Returns_of_eq (f : Nat → Res α) (hf : ∀ n, (f n).le (f (n + 1))) (n : Nat) (a : α)
    (h : f n = Res.ok a) : Returns f a :=
  ⟨n, Res.le_stable f hf n _ h (by simp)⟩

theorem Aborts_of_eq (f : Nat → Res α) (hf : ∀ n, (f n).le (f (n + 1))) (n : Nat) (e : Fatal)
    (h : f n = Res.fatal e) : Aborts f e :=
  ⟨n, Res.le_stable f hf n _ h (by simp)⟩

theorem Returns_unique (f : Nat → Res α) (a b : α) (ha : Returns f a) (hb : Returns f b) :
    a = b := by
  obtain ⟨n, hn⟩ := ha
  obtain ⟨m, hm⟩ := hb
  have h1 := hn (max n m) (le_max_left _ _)
  have h2 := hm (max n m) (le_max_right _ _)
  rw [h1] at h2
  exact Res.ok.inj h2

theorem Returns_not_aborts (f : Nat → Res α) (a : α) (e : Fatal) (ha : Returns f a)
    (hb : Aborts f e) : False := by
  obtain ⟨n, hn⟩ := ha
  obtain ⟨m, hm⟩ := hb
  have h1 := hn (max n m) (le_max_left _ _)
  have h2 := hm (max n m) (le_max_right _ _)
  rw [h1] at h2
  simp at h2

end res

/-- All seven parser functions only gain from fuel. -/
theorem parse_mono (fuel : Nat) :
    (∀ p parent, (parse_single_object_member fuel p parent).le
      (parse_single_object_member (fuel + 1) p parent)) ∧
    (∀ p parent, (parse_rest_object_members fuel p parent).le
      (parse_rest_object_members (fuel + 1) p parent)) ∧
    (∀ p parent, (parse_json_object_members fuel p parent).le
      (parse_json_object_members (fuel + 1) p parent)) ∧
    (∀ p, (parse_json_object fuel p).le (parse_json_object (fuel + 1) p)) ∧
    (∀ p parent, (parse_json_array_members fuel p parent).le
      (parse_json_array_members (fuel + 1) p parent)) ∧
    (∀ p, (parse_json_array fuel p).le (parse_json_array (fuel + 1) p)) ∧
    (∀ p, (parse_value fuel p).le (parse_value (fuel + 1) p)) := by
  induction fuel with
  | zero =>
    refine ⟨?_, ?_, ?_, ?_, ?_, ?_, ?_⟩
    · intro p parent; rw [parse_single_object_member_zero]; exact Res.le_of_out_of_fuel _
    · intro p parent; rw [parse_rest_object_members_zero]; exact Res.le_of_out_of_fuel _
    · intro p parent; rw [parse_json_object_members_zero]; exact Res.le_of_out_of_fuel _
    · intro p; rw [parse_json_object_zero]; exact Res.le_of_out_of_fuel _
    · intro p parent; rw [parse_json_array_members_zero]; exact Res.le_of_out_of_fuel _
    · intro p; rw [parse_json_array_zero]; exact Res.le_of_out_of_fuel _
    · intro p; rw [parse_value_zero]; exact Res.le_of_out_of_fuel _
  | succ fuel ih =>
    obtain ⟨ih1, ih2, ih3, ih4, ih5, ih6, ih7⟩ := ih
    refine ⟨?_, ?_, ?_, ?_, ?_, ?_, ?_⟩
    · intro p parent
      rw [parse_single_object_member_succ, parse_single_object_member_succ]
      exact Res.le_ite _ (Res.le_refl _)
        (Res.le_bind (Res.le_refl _) fun p1 =>
          Res.le_bind (Res.le_refl _) fun p2 =>
            Res.le_bind (ih7 p2) fun r => Res.le_refl _)
    · intro p parent
      rw [parse_rest_object_members_succ, parse_rest_object_members_succ]
      exact Res.le_ite _
        (Res.le_bind (Res.le_refl _) fun p1 =>
          Res.le_bind (ih1 p1 parent) fun r => ih2 r.2 r.1)
        (Res.le_refl _)
    · intro p parent
      rw [parse_json_object_members_succ, parse_json_object_members_succ]
      exact Res.le_bind (ih1 p parent) fun r => ih2 r.2 r.1
    · intro p
      rw [parse_json_object_succ, parse_json_object_succ]
      exact Res.le_bind (Res.le_refl _) fun p1 =>
        Res.le_ite _ (Res.le_refl _)
          (Res.le_bind (ih3 p1 _) fun r => Res.le_refl _)
    · intro p parent
      rw [parse_json_array_members_succ, parse_json_array_members_succ]
      exact Res.le_bind (ih7 p) fun r =>
        Res.le_ite _ (Res.le_bind (Res.le_refl _) fun p2 => ih5 p2 _) (Res.le_refl _)
    · intro p
      rw [parse_json_array_succ, parse_json_array_succ]
      exact Res.le_bind (Res.le_refl _) fun p1 =>
        Res.le_ite _ (Res.le_refl _)
          (Res.le_bind (ih5 p1 _) fun r => Res.le_refl _)
    · intro p
      rw [parse_value_succ, parse_value_succ]
      exact Res.le_ite _ (ih4 p) (Res.le_ite _ (Res.le_refl _) (Res.le_ite _ (Res.le_refl _)
        (Res.le_ite _ (Res.le_refl _) (Res.le_ite _ (ih6 p) (Res.le_refl _)))))

theorem parse_value_mono (p : parser_t) (n : Nat) :
    (parse_value n p).le (parse_value (n + 1) p) := (parse_mono n).2.2.2.2.2.2 p

theorem parse_json_object_mono (p : parser_t) (n : Nat) :
    (parse_json_object n p).le (parse_json_object (n + 1) p) := (parse_mono n).2.2.2.1 p

theorem parse_json_array_mono (p : parser_t) (n : Nat) :
    (parse_json_array n p).le (parse_json_array (n + 1) p) := (parse_mono n).2.2.2.2.2.1 p

theorem parse_json_array_members_mono (p : parser_t) (a : as_array_t json_value_t) (n : Nat) :
    (parse_json_array_members n p a).le (parse_json_array_members (n + 1) p a) :=
  (parse_mono n).2.2.2.2.1 p a

theorem parse_single_object_member_mono (p : parser_t) (m : hash_map_t json_value_t)
    (n : Nat) :
    (parse_single_object_member n p m).le (parse_single_object_member (n + 1) p m) :=
  (parse_mono n).1 p m

theorem parse_rest_object_members_mono (p : parser_t) (m : hash_map_t json_value_t)
    (n : Nat) :
    (parse_rest_object_members n p m).le (parse_rest_object_members (n + 1) p m) :=
  (parse_mono n).2.1 p m

theorem parse_json_object_members_mono (p : parser_t) (m : hash_map_t json_value_t)
    (n : Nat) :
    (parse_json_object_members n p m).le (parse_json_object_members (n + 1) p m) :=
  (parse_mono n).2.2.1 p m

/-! ### The token view of a parser state -/

theorem Lexes_nil (s : List Char) :
    Lexes s [] ↔ ∃ tok s1, get_next_token s = Res.ok (tok, s1) ∧ tok.type = TOKEN_EOF := by
  rw [Lexes]

theorem Lexes_cons (s : List Char) (t : token_t) (ts : List token_t) :
    Lexes s (t :: ts) ↔
      t.type ≠ TOKEN_EOF ∧ ∃ s1, get_next_token s = Res.ok (t, s1) ∧ Lexes s1 ts := by
  rw [Lexes]

theorem AtTokens_nil (p : parser_t) : AtTokens p [] ↔ p.lookahead.type = TOKEN_EOF := by
  rw [AtTokens]

theorem AtTokens_cons (p : parser_t) (t : token_t) (ts : List token_t) :
    AtTokens p (t :: ts) ↔
      p.lookahead = t ∧ t.type ≠ TOKEN_EOF ∧ lexer_token t ∧ Lexes p.stream ts := by
  rw [AtTokens]

theorem AtTokens_out (p : parser_t) (o : List Char) (ts : List token_t) :
    AtTokens { p with out := o } ts ↔ AtTokens p ts := by
  cases ts with
  | nil => rw [AtTokens_nil, AtTokens_nil]
  | cons t ts => rw [AtTokens_cons, AtTokens_cons]

/-- The lookahead of a parser before `ts` has the type `ty` only if `ts`
starts with a token of that type. -/
theorem AtTokens_type (p : parser_t) (ts : List token_t) (h : AtTokens p ts)
    (ty : token_type_t) (hty : ty ≠ TOKEN_EOF) :
    p.lookahead.type = ty ↔ ∃ t rest, ts = t :: rest ∧ t.type = ty := by
  cases ts with
  | nil =>
    rw [AtTokens_nil] at h
    constructor
    · intro h1; rw [h] at h1; exact absurd h1.symm hty
    · rintro ⟨t, rest, h1, _⟩; simp at h1
  | cons t ts =>
    rw [AtTokens_cons] at h
    constructor
    · intro h1; exact ⟨t, ts, rfl, h.1 ▸ h1⟩
    · rintro ⟨t1, rest, h1, h2⟩
      simp only [List.cons.injEq] at h1
      rw [h.1, h1.1]; exact h2

theorem match_token_ok (p : parser_t) (t : token_t) (ts : List token_t)
    (h : AtTokens p (t :: ts)) (ty : token_type_t) (hty : t.type = ty) :
    ∃ q, match_token p ty = Res.ok q ∧ AtTokens q ts ∧ q.out = p.out := by
  rw [AtTokens_cons] at h
  obtain ⟨h1, _, _, h3⟩ := h
  have hp : p.lookahead.type = ty := by rw [h1]; exact hty
  cases ts with
  | nil =>
    rw [Lexes_nil] at h3
    obtain ⟨tok, s1, h4, h5⟩ := h3
    refine ⟨{ p with lookahead := tok, stream := s1 }, ?_, ?_, rfl⟩
    · simp only [match_token, hp, if_true, h4]
    · rw [AtTokens_nil]; exact h5
  | cons t2 ts =>
    rw [Lexes_cons] at h3
    obtain ⟨h4, s1, h5, h6⟩ := h3
    refine ⟨{ p with lookahead := t2, stream := s1 }, ?_, ?_, rfl⟩
    · simp only [match_token, hp, if_true, h5]
    · rw [AtTokens_cons]; exact ⟨rfl, h4, ⟨_, _, h5⟩, h6⟩

theorem match_token_bad (p : parser_t) (ty : token_type_t) (h : p.lookahead.type ≠ ty) :
    match_token p ty = Res.fatal (Fatal.unexpected_token p.lookahead) := by
  simp only [match_token, h, if_false]

/-! ## Parser: values, arrays and objects on token sequences -/

theorem comma_separated_cons (e : List token_t) (es : List (List token_t)) :
    comma_separated (e :: es) = e ++ comma_prefixed es := by
  induction es generalizing e with
  | nil => simp [comma_separated, comma_prefixed]
  | cons e2 es ih =>
    rw [comma_separated, ih e2, comma_prefixed]

theorem single_type_token_type (ty : token_type_t) : (single_type_token ty).type = ty := rfl

/-- A parser whose `parse_value` returns stands before a token that starts a
value. -/
theorem parse_value_ok_type (fuel : Nat) (p : parser_t) (r : json_value_t × parser_t)
    (h : parse_value fuel p = Res.ok r) :
    p.lookahead.type = BRACKET_OPEN ∨ p.lookahead.type = KEYWORD ∨
    p.lookahead.type = NUMBER ∨ p.lookahead.type = STRING ∨
    p.lookahead.type = ARRAY_OPEN := by
  cases fuel with
  | zero => rw [parse_value_zero] at h; simp at h
  | succ fuel =>
    rw [parse_value_succ] at h
    by_cases h1 : p.lookahead.type = BRACKET_OPEN
    · exact Or.inl h1
    by_cases h2 : p.lookahead.type = KEYWORD
    · exact Or.inr (Or.inl h2)
    by_cases h3 : p.lookahead.type = NUMBER
    · exact Or.inr (Or.inr (Or.inl h3))
    by_cases h4 : p.lookahead.type = STRING
    · exact Or.inr (Or.inr (Or.inr (Or.inl h4)))
    by_cases h5 : p.lookahead.type = ARRAY_OPEN
    · exact Or.inr (Or.inr (Or.inr (Or.inr h5)))
    rw [if_neg h1, if_neg h2, if_neg h3, if_neg h4, if_neg h5] at h
    simp at h

theorem parse_value_number (p : parser_t) (t : token_t) (xs : List token_t)
    (h : AtTokens p (t :: xs)) (ht : t.type = NUMBER) :
    ∃ q, (∀ fuel, parse_value (fuel + 1) p = Res.ok (JSON_NUMBER (atoi t.lexeme_str), q)) ∧
      AtTokens q xs ∧ q.out = p.out := by
  obtain ⟨q, hq, hq2, hq3⟩ := match_token_ok p t xs h NUMBER ht
  have hp : p.lookahead = t := ((AtTokens_cons _ _ _).1 h).1
  refine ⟨q, fun fuel => ?_, hq2, hq3⟩
  rw [parse_value_succ, hp, ht, ← hp, hq]
  simp [Res.bind]

theorem parse_value_string (p : parser_t) (t : token_t) (xs : List token_t)
    (h : AtTokens p (t :: xs)) (ht : t.type = STRING) :
    ∃ q, (∀ fuel, parse_value (fuel + 1) p
        = Res.ok (JSON_STRING (t.lexeme.getD ⟨[], 0⟩), q)) ∧
      AtTokens q xs ∧ q.out = p.out := by
  obtain ⟨q, hq, hq2, hq3⟩ := match_token_ok p t xs h STRING ht
  have hp : p.lookahead = t := ((AtTokens_cons _ _ _).1 h).1
  refine ⟨q, fun fuel => ?_, hq2, hq3⟩
  rw [parse_value_succ, hp, ht, ← hp, hq]
  simp [Res.bind]

theorem parse_value_keyword (p : parser_t) (t : token_t) (xs : List token_t)
    (h : AtTokens p (t :: xs)) (ht : t.type = KEYWORD) (v : json_value_t)
    (hv : parse_keyword t = Res.ok v) :
    ∃ q, (∀ fuel, parse_value (fuel + 1) p = Res.ok (v, q)) ∧
      AtTokens q xs ∧ q.out = p.out := by
  obtain ⟨q, hq, hq2, hq3⟩ := match_token_ok p t xs h KEYWORD ht
  have hp : p.lookahead = t := ((AtTokens_cons _ _ _).1 h).1
  refine ⟨q, fun fuel => ?_, hq2, hq3⟩
  rw [parse_value_succ, hp, ht, ← hp, hq, hp, hv]
  simp [Res.bind]

theorem ParsesAs_number (t : token_t) (ht : t.type = NUMBER) :
    ParsesAs [t] (JSON_NUMBER (atoi t.lexeme_str)) := by
  intro p xs h
  obtain ⟨q, hq, hq2, _⟩ := parse_value_number p t xs h ht
  exact ⟨q, ⟨1, fun fuel hf => by
    obtain ⟨k, rfl⟩ : ∃ k, fuel = k + 1 := ⟨fuel - 1, by omega⟩
    exact hq k⟩, hq2⟩

theorem ParsesAs_string (t : token_t) (ht : t.type = STRING) :
    ParsesAs [t] (JSON_STRING (t.lexeme.getD ⟨[], 0⟩)) := by
  intro p xs h
  obtain ⟨q, hq, hq2, _⟩ := parse_value_string p t xs h ht
  exact ⟨q, ⟨1, fun fuel hf => by
    obtain ⟨k, rfl⟩ : ∃ k, fuel = k + 1 := ⟨fuel - 1, by omega⟩
    exact hq k⟩, hq2⟩

theorem ParsesAs_keyword (t : token_t) (ht : t.type = KEYWORD) (v : json_value_t)
    (hv : parse_keyword t = Res.ok v) : ParsesAs [t] v := by
  intro p xs h
  obtain ⟨q, hq, hq2, _⟩ := parse_value_keyword p t xs h ht v hv
  exact ⟨q, ⟨1, fun fuel hf => by
    obtain ⟨k, rfl⟩ : ∃ k, fuel = k + 1 := ⟨fuel - 1, by omega⟩
    exact hq k⟩, hq2⟩

/-! ### Arrays -/

theorem array_append_array (a : as_array_t json_value_t) (v : json_value_t) :
    (__json_value_array_append a v).1.array = a.array ++ [v] := by
  unfold __json_value_array_append
  simp only
  split <;> rfl

theorem array_append_cap (a : as_array_t json_value_t) (v : json_value_t)
    (h1 : a.array.length ≤ a.cap) (h2 : 1 ≤ a.cap) :
    (__json_value_array_append a v).1.array.length ≤ (__json_value_array_append a v).1.cap ∧
    1 ≤ (__json_value_array_append a v).1.cap := by
  unfold __json_value_array_append
  simp only [as_array_t.len]
  split
  · simp only [List.length_append, List.length_singleton]; omega
  · simp only [List.length_append, List.length_singleton]; omega

theorem array_append_all_nil (a : as_array_t json_value_t) : array_append_all a [] = a := rfl

theorem array_append_all_cons (a : as_array_t json_value_t) (v : json_value_t)
    (vs : List json_value_t) :
    array_append_all a (v :: vs) = array_append_all (__json_value_array_append a v).1 vs := rfl

theorem array_append_all_array (vs : List json_value_t) (a : as_array_t json_value_t) :
    (array_append_all a vs).array = a.array ++ vs := by
  induction vs generalizing a with
  | nil => simp [array_append_all_nil]
  | cons v vs ih => rw [array_append_all_cons, ih, array_append_array]; simp

theorem array_append_all_cap (vs : List json_value_t) (a : as_array_t json_value_t)
    (h1 : a.array.length ≤ a.cap) (h2 : 1 ≤ a.cap) :
    (array_append_all a vs).array.length ≤ (array_append_all a vs).cap ∧
    1 ≤ (array_append_all a vs).cap := by
  induction vs generalizing a with
  | nil => exact ⟨h1, h2⟩
  | cons v vs ih =>
    rw [array_append_all_cons]
    have := array_append_cap a v h1 h2
    exact ih _ this.1 this.2

/-- The effect of `parse_json_array_members` on a first element text followed
by further elements, each behind a COMMA. -/
theorem parse_json_array_members_spec (es : List (List token_t × json_value_t))
    (hes : ∀ ev ∈ es, ParsesAs ev.1 ev.2) :
    ∀ (e : List token_t) (v : json_value_t) (p : parser_t) (xs : List token_t)
      (parent : as_array_t json_value_t),
      ParsesAs e v →
      AtTokens p (e ++ (comma_prefixed (es.map Prod.fst) ++ xs)) →
      (∀ t rest, xs = t :: rest → t.type ≠ COMMA) →
      ∃ q, Returns (fun fuel => parse_json_array_members fuel p parent)
          (array_append_all parent (v :: es.map Prod.snd), q) ∧
        AtTokens q xs := by
  induction es with
  | nil =>
    intro e v p xs parent hev hp hxs
    simp only [List.map_nil, comma_prefixed, List.nil_append] at hp
    obtain ⟨q1, ⟨n1, h1⟩, hq1⟩ := hev p xs hp
    beta_reduce at h1
    have hnc : ¬ q1.lookahead.type = COMMA := by
      rw [AtTokens_type q1 xs hq1 COMMA (by decide)]
      rintro ⟨t, rest, h2, h3⟩
      exact hxs t rest h2 h3
    refine ⟨{ q1 with out := q1.out ++ (__json_value_array_append parent v).2 },
      ⟨n1 + 1, ?_⟩, ?_⟩
    · intro fuel hf
      obtain ⟨k, rfl⟩ : ∃ k, fuel = k + 1 := ⟨fuel - 1, by omega⟩
      beta_reduce
      rw [parse_json_array_members_succ, h1 k (by omega), Res.bind_ok]
      simp only [if_neg hnc]
      rfl
    · rw [AtTokens_out]; exact hq1
  | cons ev es ih =>
    intro e v p xs parent hev hp hxs
    simp only [List.map_cons, comma_prefixed, List.cons_append, List.append_assoc] at hp
    obtain ⟨q1, ⟨n1, h1⟩, hq1⟩ := hev p _ hp
    beta_reduce at h1
    have hc : q1.lookahead.type = COMMA := by
      rw [AtTokens_type q1 _ hq1 COMMA (by decide)]
      exact ⟨_, _, rfl, rfl⟩
    obtain ⟨q2, hq2, hq2t, _⟩ := match_token_ok
      { q1 with out := q1.out ++ (__json_value_array_append parent v).2 } _ _
      ((AtTokens_out _ _ _).2 hq1) COMMA rfl
    obtain ⟨q, ⟨n2, h2⟩, hq⟩ :=
      ih (fun x hx => hes x (List.mem_cons_of_mem _ hx)) ev.1 ev.2 q2 xs
        (__json_value_array_append parent v).1 (hes ev (List.mem_cons_self _ _)) hq2t hxs
    beta_reduce at h2
    refine ⟨q, ⟨max n1 n2 + 1, ?_⟩, hq⟩
    intro fuel hf
    obtain ⟨k, rfl⟩ : ∃ k, fuel = k + 1 := ⟨fuel - 1, by omega⟩
    beta_reduce
    have hk1 : n1 ≤ k := by have := le_max_left n1 n2; omega
    have hk2 : n2 ≤ k := by have := le_max_right n1 n2; omega
    rw [parse_json_array_members_succ, h1 k hk1, Res.bind_ok]
    simp only [if_pos hc]
    rw [hq2, Res.bind_ok, h2 k hk2]
    rfl

/-- The effect of `parse_json_array` on the tokens of an array text: the
payload is the result of the appends of the elements, in order. -/
theorem parse_json_array_spec (es : List (List token_t × json_value_t))
    (hes : ∀ ev ∈ es, ParsesAs ev.1 ev.2) (p : parser_t) (xs : List token_t)
    (hp : AtTokens p (array_tokens (es.map Prod.fst) ++ xs)) :
    ∃ q, Returns (fun fuel => parse_json_array fuel p)
        (JSON_ARRAY (array_append_all ⟨[], 2⟩ (es.map Prod.snd)), q) ∧
      AtTokens q xs := by
  unfold array_tokens at hp
  simp only [List.cons_append, List.append_assoc] at hp
  obtain ⟨p1, hp1, hp1t, _⟩ := match_token_ok p _ _ hp ARRAY_OPEN rfl
  cases es with
  | nil =>
    simp only [List.map_nil, comma_separated, List.nil_append, List.singleton_append] at hp1t
    have hc : p1.lookahead.type = ARRAY_CLOSE := by
      rw [AtTokens_type p1 _ hp1t ARRAY_CLOSE (by decide)]
      exact ⟨_, _, rfl, rfl⟩
    obtain ⟨p2, hp2, hp2t, _⟩ := match_token_ok p1 _ _ hp1t ARRAY_CLOSE rfl
    refine ⟨p2, ⟨1, ?_⟩, hp2t⟩
    intro fuel hf
    obtain ⟨k, rfl⟩ : ∃ k, fuel = k + 1 := ⟨fuel - 1, by omega⟩
    beta_reduce
    rw [parse_json_array_succ, hp1, Res.bind_ok, if_pos hc, hp2, Res.bind_ok]
    rfl
  | cons ev es =>
    simp only [List.map_cons, comma_separated_cons, List.append_assoc,
      List.singleton_append] at hp1t
    have hxs : ∀ t rest, single_type_token ARRAY_CLOSE :: xs = t :: rest → t.type ≠ COMMA := by
      intro t rest h1
      simp only [List.cons.injEq] at h1
      rw [← h1.1]; decide
    obtain ⟨q, ⟨n1, h1⟩, hq⟩ :=
      parse_json_array_members_spec es (fun x hx => hes x (List.mem_cons_of_mem _ hx))
        ev.1 ev.2 p1 (single_type_token ARRAY_CLOSE :: xs) ⟨[], 2⟩
        (hes ev (List.mem_cons_self _ _)) hp1t hxs
    beta_reduce at h1
    have hnc : ¬ p1.lookahead.type = ARRAY_CLOSE := by
      obtain ⟨q1, ⟨n0, h0⟩, _⟩ := hes ev (List.mem_cons_self _ _) p1 _ hp1t
      have := parse_value_ok_type n0 p1 _ (h0 n0 (le_refl _))
      intro h2
      rw [h2] at this
      simp at this
    obtain ⟨p3, hp3, hp3t, _⟩ := match_token_ok q _ _ hq ARRAY_CLOSE rfl
    refine ⟨p3, ⟨n1 + 1, ?_⟩, hp3t⟩
    intro fuel hf
    obtain ⟨k, rfl⟩ : ∃ k, fuel = k + 1 := ⟨fuel - 1, by omega⟩
    beta_reduce
    rw [parse_json_array_succ, hp1, Res.bind_ok, if_neg hnc, h1 k (by omega), Res.bind_ok]
    simp only
    rw [hp3, Res.bind_ok]
    rfl

theorem ParsesAs_array (es : List (List token_t × json_value_t))
    (hes : ∀ ev ∈ es, ParsesAs ev.1 ev.2) :
    ParsesAs (array_tokens (es.map Prod.fst))
      (JSON_ARRAY (array_append_all ⟨[], 2⟩ (es.map Prod.snd))) := by
  intro p xs hp
  have hl : p.lookahead.type = ARRAY_OPEN := by
    unfold array_tokens at hp
    rw [List.cons_append, AtTokens_cons] at hp
    rw [hp.1]; rfl
  obtain ⟨q, ⟨n, h1⟩, h2⟩ := parse_json_array_spec es hes p xs hp
  beta_reduce at h1
  refine ⟨q, ⟨n + 1, fun fuel hf => ?_⟩, h2⟩
  obtain ⟨k, rfl⟩ : ∃ k, fuel = k + 1 := ⟨fuel - 1, by omega⟩
  beta_reduce
  rw [parse_value_succ, hl]
  simp only [reduceCtorEq, if_false, if_true]
  exact h1 k (by omega)

/-! ### Objects -/

theorem ht_set_all_nil (ht : hash_map_t json_value_t) : ht_set_all ht [] = ht := rfl

theorem ht_set_all_cons (ht : hash_map_t json_value_t) (kv : List Char × json_value_t)
    (kvs : List (List Char × json_value_t)) :
    ht_set_all ht (kv :: kvs) = ht_set_all (ht_set ht kv.1 kv.2) kvs := rfl

/-- The effect of `parse_single_object_member` on the tokens of one member. -/
theorem parse_single_object_member_spec (k : token_t) (e : List token_t) (v : json_value_t)
    (hk : k.type = STRING) (hev : ParsesAs e v) (p : parser_t) (xs : List token_t)
    (parent : hash_map_t json_value_t) (hp : AtTokens p (member_tokens k e ++ xs)) :
    ∃ q, Returns (fun fuel => parse_single_object_member fuel p parent)
        (ht_set parent k.lexeme_str v, q) ∧ AtTokens q xs := by
  unfold member_tokens at hp
  simp only [List.cons_append] at hp
  have hl : p.lookahead = k := ((AtTokens_cons _ _ _).1 hp).1
  obtain ⟨p1, hp1, hp1t, _⟩ := match_token_ok p _ _ hp STRING hk
  obtain ⟨p2, hp2, hp2t, _⟩ := match_token_ok p1 _ _ hp1t COLON rfl
  obtain ⟨q, ⟨n1, h1⟩, hq⟩ := hev p2 xs hp2t
  beta_reduce at h1
  refine ⟨q, ⟨n1 + 1, ?_⟩, hq⟩
  intro fuel hf
  obtain ⟨j, rfl⟩ : ∃ j, fuel = j + 1 := ⟨fuel - 1, by omega⟩
  beta_reduce
  have hs : ¬ p.lookahead.type ≠ STRING := by rw [hl, hk]; simp
  rw [parse_single_object_member_succ, if_neg hs, hp1, Res.bind_ok, hp2, Res.bind_ok,
    h1 j (by omega), Res.bind_ok, hl]

/-- The effect of `parse_rest_object_members` on further members, each behind
a COMMA. -/
theorem parse_rest_object_members_spec (ms : List (token_t × List token_t × json_value_t))
    (hms : ∀ m ∈ ms, m.1.type = STRING ∧ ParsesAs m.2.1 m.2.2) :
    ∀ (p : parser_t) (xs : List token_t) (parent : hash_map_t json_value_t),
      AtTokens p (comma_prefixed (ms.map fun m => member_tokens m.1 m.2.1) ++ xs) →
      (∀ t rest, xs = t :: rest → t.type ≠ COMMA) →
      ∃ q, Returns (fun fuel => parse_rest_object_members fuel p parent)
          (ht_set_all parent (ms.map fun m => (m.1.lexeme_str, m.2.2)), q) ∧
        AtTokens q xs := by
  induction ms with
  | nil =>
    intro p xs parent hp hxs
    simp only [List.map_nil, comma_prefixed, List.nil_append] at hp
    have hnc : ¬ p.lookahead.type = COMMA := by
      rw [AtTokens_type p xs hp COMMA (by decide)]
      rintro ⟨t, rest, h2, h3⟩
      exact hxs t rest h2 h3
    refine ⟨p, ⟨1, ?_⟩, hp⟩
    intro fuel hf
    obtain ⟨j, rfl⟩ : ∃ j, fuel = j + 1 := ⟨fuel - 1, by omega⟩
    beta_reduce
    rw [parse_rest_object_members_succ, if_neg hnc]
    rfl
  | cons m ms ih =>
    intro p xs parent hp hxs
    simp only [List.map_cons, comma_prefixed, List.cons_append, List.append_assoc] at hp
    have hc : p.lookahead.type = COMMA := by
      rw [AtTokens_type p _ hp COMMA (by decide)]
      exact ⟨_, _, rfl, rfl⟩
    obtain ⟨p1, hp1, hp1t, _⟩ := match_token_ok p _ _ hp COMMA rfl
    obtain ⟨q1, ⟨n1, h1⟩, hq1⟩ := parse_single_object_member_spec m.1 m.2.1 m.2.2
      (hms m (List.mem_cons_self _ _)).1 (hms m (List.mem_cons_self _ _)).2 p1 _ parent hp1t
    obtain ⟨q, ⟨n2, h2⟩, hq⟩ := ih (fun x hx => hms x (List.mem_cons_of_mem _ hx)) q1 xs
      (ht_set parent m.1.lexeme_str m.2.2) hq1 hxs
    beta_reduce at h1 h2
    refine ⟨q, ⟨max n1 n2 + 1, ?_⟩, hq⟩
    intro fuel hf
    obtain ⟨j, rfl⟩ : ∃ j, fuel = j + 1 := ⟨fuel - 1, by omega⟩
    beta_reduce
    have hk1 : n1 ≤ j := by have := le_max_left n1 n2; omega
    have hk2 : n2 ≤ j := by have := le_max_right n1 n2; omega
    rw [parse_rest_object_members_succ, if_pos hc, hp1, Res.bind_ok, h1 j hk1, Res.bind_ok]
    simp only
    rw [h2 j hk2]
    rfl

/-- The effect of `parse_json_object` on the tokens of an object text: the
map is the result of the `ht_set` calls for the members, in order. -/
theorem parse_json_object_spec (ms : List (token_t × List token_t × json_value_t))
    (hms : ∀ m ∈ ms, m.1.type = STRING ∧ ParsesAs m.2.1 m.2.2) (p : parser_t)
    (xs : List token_t)
    (hp : AtTokens p (object_tokens (ms.map fun m => (m.1, m.2.1)) ++ xs)) :
    ∃ q, Returns (fun fuel => parse_json_object fuel p)
        (JSON_OBJECT (ht_set_all (hash_map_alloc 4)
          (ms.map fun m => (m.1.lexeme_str, m.2.2))), q) ∧
      AtTokens q xs := by
  unfold object_tokens at hp
  simp only [List.cons_append, List.append_assoc, List.map_map] at hp
  obtain ⟨p1, hp1, hp1t, _⟩ := match_token_ok p _ _ hp BRACKET_OPEN rfl
  cases ms with
  | nil =>
    simp only [List.map_nil, comma_separated, List.nil_append, List.singleton_append] at hp1t
    have hc : p1.lookahead.type = BRACKET_CLOSE := by
      rw [AtTokens_type p1 _ hp1t BRACKET_CLOSE (by decide)]
      exact ⟨_, _, rfl, rfl⟩
    obtain ⟨p2, hp2, hp2t, _⟩ := match_token_ok p1 _ _ hp1t BRACKET_CLOSE rfl
    refine ⟨p2, ⟨1, ?_⟩, hp2t⟩
    intro fuel hf
    obtain ⟨j, rfl⟩ : ∃ j, fuel = j + 1 := ⟨fuel - 1, by omega⟩
    beta_reduce
    rw [parse_json_object_succ, hp1, Res.bind_ok, if_pos hc, hp2, Res.bind_ok]
    rfl
  | cons m ms =>
    simp only [List.map_cons, comma_separated_cons, List.append_assoc,
      List.singleton_append, Function.comp] at hp1t
    have hxs : ∀ t rest, single_type_token BRACKET_CLOSE :: xs = t :: rest →
        t.type ≠ COMMA := by
      intro t rest h1
      simp only [List.cons.injEq] at h1
      rw [← h1.1]; decide
    obtain ⟨q1, ⟨n1, h1⟩, hq1⟩ := parse_single_object_member_spec m.1 m.2.1 m.2.2
      (hms m (List.mem_cons_self _ _)).1 (hms m (List.mem_cons_self _ _)).2 p1 _
      (hash_map_alloc 4) hp1t
    have hq1' : AtTokens q1 (comma_prefixed (ms.map fun m => member_tokens m.1 m.2.1)
        ++ single_type_token BRACKET_CLOSE :: xs) := by
      simpa [List.map_map, Function.comp] using hq1
    obtain ⟨q2, ⟨n2, h2⟩, hq2⟩ := parse_rest_object_members_spec ms
      (fun x hx => hms x (List.mem_cons_of_mem _ hx)) q1 _
      (ht_set (hash_map_alloc 4) m.1.lexeme_str m.2.2) hq1' hxs
    beta_reduce at h1 h2
    have hnc : ¬ p1.lookahead.type = BRACKET_CLOSE := by
      have hl : p1.lookahead = m.1 := by
        unfold member_tokens at hp1t
        exact ((AtTokens_cons _ _ _).1 hp1t).1
      rw [hl, (hms m (List.mem_cons_self _ _)).1]; decide
    obtain ⟨p3, hp3, hp3t, _⟩ := match_token_ok q2 _ _ hq2 BRACKET_CLOSE rfl
    refine ⟨p3, ⟨max n1 n2 + 2, ?_⟩, hp3t⟩
    intro fuel hf
    obtain ⟨j, rfl⟩ : ∃ j, fuel = j + 2 := ⟨fuel - 2, by omega⟩
    beta_reduce
    have hk1 : n1 ≤ j := by have := le_max_left n1 n2; omega
    have hk2 : n2 ≤ j := by have := le_max_right n1 n2; omega
    rw [parse_json_object_succ, hp1, Res.bind_ok, if_neg hnc, parse_json_object_members_succ,
      h1 j hk1, Res.bind_ok]
    simp only
    rw [h2 j hk2, Res.bind_ok]
    simp only
    rw [hp3, Res.bind_ok]
    rfl

theorem ParsesAs_object (ms : List (token_t × List token_t × json_value_t))
    (hms : ∀ m ∈ ms, m.1.type = STRING ∧ ParsesAs m.2.1 m.2.2) :
    ParsesAs (object_tokens (ms.map fun m => (m.1, m.2.1)))
      (JSON_OBJECT (ht_set_all (hash_map_alloc 4)
        (ms.map fun m => (m.1.lexeme_str, m.2.2)))) := by
  intro p xs hp
  have hl : p.lookahead.type = BRACKET_OPEN := by
    unfold object_tokens at hp
    rw [List.cons_append, AtTokens_cons] at hp
    rw [hp.1]; rfl
  obtain ⟨q, ⟨n, h1⟩, h2⟩ := parse_json_object_spec ms hms p xs hp
  beta_reduce at h1
  refine ⟨q, ⟨n + 1, fun fuel hf => ?_⟩, h2⟩
  obtain ⟨k, rfl⟩ : ∃ k, fuel = k + 1 := ⟨fuel - 1, by omega⟩
  beta_reduce
  rw [parse_value_succ, hl]
  simp only [if_true]
  exact h1 k (by omega)

/-! ## Parser: objects and arrays, the stated properties -/

theorem ht_set_all_distinct (kvs : List (List Char × json_value_t)) :
    ∀ ht : hash_map_t json_value_t, ht_wf ht →
      ((ht_entries ht).map (fun e => e.key) ++ kvs.map Prod.fst).Nodup →
      ht_wf (ht_set_all ht kvs) ∧
      (ht_entries (ht_set_all ht kvs)).Perm
        (ht_entries ht ++ kvs.map fun kv => (⟨kv.1, kv.2⟩ : ht_entry_t json_value_t)) := by
  induction kvs with
  | nil => intro ht hwf _; exact ⟨hwf, by simp [ht_set_all_nil]⟩
  | cons kv kvs ih =>
    intro ht hwf hnd
    rw [ht_set_all_cons]
    obtain ⟨hwf1, hnew, _⟩ := ht_set_wf ht kv.1 kv.2 hwf
    have hfresh : ∀ e ∈ ht_entries ht, e.key ≠ kv.1 := by
      intro e he hk
      have := (List.nodup_append.1 hnd).2.2
      exact this (List.mem_map_of_mem (fun e => e.key) he)
        (hk ▸ List.mem_map_of_mem Prod.fst (List.mem_cons_self kv kvs))
    have hperm := hnew hfresh
    have hnd1 : ((ht_entries (ht_set ht kv.1 kv.2)).map (fun e => e.key)
        ++ kvs.map Prod.fst).Nodup := by
      have h1 : ((ht_entries (ht_set ht kv.1 kv.2)).map (fun e => e.key)
          ++ kvs.map Prod.fst).Perm
          ((ht_entries ht).map (fun e => e.key) ++ (kv :: kvs).map Prod.fst) := by
        have h2 := (hperm.map (fun e => e.key)).append_right (kvs.map Prod.fst)
        refine h2.trans ?_
        simp only [List.map_cons, List.cons_append]
        exact List.perm_middle.symm
      exact h1.nodup_iff.2 hnd
    obtain ⟨hwf2, hperm2⟩ := ih _ hwf1 hnd1
    refine ⟨hwf2, hperm2.trans ?_⟩
    have h3 := hperm.append_right
      (kvs.map fun kv => (⟨kv.1, kv.2⟩ : ht_entry_t json_value_t))
    refine h3.trans ?_
    simp only [List.map_cons, List.cons_append]
    exact List.perm_middle.symm

/-- The map built from distinct keys by `ht_set` calls on a fresh map. -/
theorem ht_set_all_alloc_distinct (c : Nat) (hc : 1 ≤ c)
    (kvs : List (List Char × json_value_t)) (hnd : (kvs.map Prod.fst).Nodup) :
    ht_wf (ht_set_all (hash_map_alloc c) kvs) ∧
    (ht_entries (ht_set_all (hash_map_alloc c) kvs)).Perm
      (kvs.map fun kv => (⟨kv.1, kv.2⟩ : ht_entry_t json_value_t)) ∧
    (ht_entries (ht_set_all (hash_map_alloc c) kvs)).length = kvs.length ∧
    (∀ kv ∈ kvs, ht_get (ht_set_all (hash_map_alloc c) kvs) kv.1 = some kv.2) ∧
    (∀ k, k ∉ kvs.map Prod.fst → ht_get (ht_set_all (hash_map_alloc c) kvs) k = none) := by
  obtain ⟨hwf, hperm⟩ := ht_set_all_distinct kvs (hash_map_alloc c) (ht_wf_alloc c hc)
    (by rw [ht_entries_alloc]; simpa using hnd)
  rw [ht_entries_alloc, List.nil_append] at hperm
  refine ⟨hwf, hperm, by rw [hperm.length_eq, List.length_map], ?_, ?_⟩
  · intro kv hkv
    rw [ht_get_eq_some_iff _ hwf]
    exact hperm.symm.subset (List.mem_map_of_mem _ hkv)
  · intro k hk
    rw [ht_get_eq_none_iff _ hwf]
    intro e he hek
    have := hperm.subset he
    obtain ⟨kv, hkv, rfl⟩ := List.mem_map.1 this
    exact hk (List.mem_map.2 ⟨kv, hkv, hek⟩)

theorem Lexes_of_lex_all (fuel : Nat) : ∀ (s : List Char) (ts : List token_t),
    lex_all fuel s = some ts → Lexes s ts := by
  induction fuel with
  | zero => intro s ts h; simp [lex_all] at h
  | succ fuel ih =>
    intro s ts h
    rw [lex_all] at h
    cases hg : get_next_token s with
    | ok r =>
      obtain ⟨tok, s1⟩ := r
      rw [hg] at h
      simp only at h
      by_cases he : tok.type = TOKEN_EOF
      · rw [if_pos he] at h
        simp only [Option.some.injEq] at h
        subst h
        rw [Lexes_nil]
        exact ⟨tok, s1, hg, he⟩
      · rw [if_neg he] at h
        cases hl : lex_all fuel s1 with
        | none => rw [hl] at h; simp at h
        | some ts1 =>
          rw [hl] at h
          simp only [Option.some.injEq] at h
          subst h
          rw [Lexes_cons]
          exact ⟨he, s1, hg, ih s1 ts1 hl⟩
    | fatal e => rw [hg] at h; simp at h
    | out_of_fuel => rw [hg] at h; simp at h

theorem AtTokens_of_lex_all (fuel : Nat) (p : parser_t) (t : token_t) (ts : List token_t)
    (s0 : List Char) (h0 : get_next_token s0 = Res.ok (t, p.stream))
    (h1 : p.lookahead = t) (h2 : t.type ≠ TOKEN_EOF) (h3 : lex_all fuel p.stream = some ts) :
    AtTokens p (t :: ts) := by
  rw [AtTokens_cons]
  exact ⟨h1, h2, ⟨_, _, h0⟩, Lexes_of_lex_all fuel _ _ h3⟩

/-- C6: for an array text with `n ≥ 0` element values, `parse_json_array`
returns a JSON_ARRAY value with `len = n`, `cap ≥ n` and the trees parsed from
the elements in source order. -/
theorem parse_json_array_elements (es : List (List token_t × json_value_t))
    (hes : ∀ ev ∈ es, ParsesAs ev.1 ev.2) (p : parser_t) (xs : List token_t)
    (hp : AtTokens p (array_tokens (es.map Prod.fst) ++ xs)) :
    ∃ a q, Returns (fun fuel => parse_json_array fuel p) (JSON_ARRAY a, q) ∧
      AtTokens q xs ∧
      a.len = es.length ∧ es.length ≤ a.cap ∧
      ∀ i (h : i < es.length), a.array.get? i = some (es.get ⟨i, h⟩).2 := by
  obtain ⟨q, h1, h2⟩ := parse_json_array_spec es hes p xs hp
  have harr := array_append_all_array (es.map Prod.snd) ⟨[], 2⟩
  have hcap := array_append_all_cap (es.map Prod.snd) ⟨[], 2⟩ (by simp) (by simp)
  simp only [List.nil_append] at harr
  refine ⟨_, q, h1, h2, ?_, ?_, ?_⟩
  · simp [as_array_t.len, harr]
  · have := hcap.1
    rw [harr, List.length_map] at this
    exact this
  · intro i h
    rw [harr]
    simp [List.getElem?_eq_getElem h]

/-- Witness for C6: the text `[1,2,3,4,5]` yields length 5, capacity at least
5 and the elements NUMBER(1) to NUMBER(5) in order. -/
theorem parse_json_array_elements_witness :
    (∀ ev ∈ example_array_elements, ParsesAs ev.1 ev.2) ∧
    AtTokens example_array_state
      (array_tokens (example_array_elements.map Prod.fst) ++ []) ∧
    example_array_elements.map Prod.snd
      = [JSON_NUMBER 1, JSON_NUMBER 2, JSON_NUMBER 3, JSON_NUMBER 4, JSON_NUMBER 5] ∧
    ∃ a q, Returns (fun fuel => parse_json_array fuel example_array_state) (JSON_ARRAY a, q) ∧
      AtTokens q [] ∧
      a.len = example_array_elements.length ∧ example_array_elements.length ≤ a.cap ∧
      ∀ i (h : i < example_array_elements.length),
        a.array.get? i = some (example_array_elements.get ⟨i, h⟩).2 := by
  have h1 : ∀ ev ∈ example_array_elements, ParsesAs ev.1 ev.2 := by
    intro ev hev
    simp only [example_array_elements, List.mem_cons, List.mem_singleton, List.not_mem_nil,
      or_false] at hev
    rcases hev with rfl | rfl | rfl | rfl | rfl
    · exact ParsesAs_number (number_token_1 '1') rfl
    · exact ParsesAs_number (number_token_1 '2') rfl
    · exact ParsesAs_number (number_token_1 '3') rfl
    · exact ParsesAs_number (number_token_1 '4') rfl
    · exact ParsesAs_number (number_token_1 '5') rfl
  have h2 : AtTokens example_array_state
      (array_tokens (example_array_elements.map Prod.fst) ++ []) :=
    AtTokens_of_lex_all 40 _ _ _ ('[' :: example_array_state.stream) (by decide) rfl
      (by decide) (by decide)
  exact ⟨h1, h2, rfl,
    parse_json_array_elements example_array_elements h1 example_array_state [] h2⟩

/-! ## Parser: totality and soundness on token sequences -/

/-- The shape of the tokens `get_next_token` returns. -/
theorem get_next_token_shape (s s1 : List Char) (t : token_t)
    (h : get_next_token s = Res.ok (t, s1)) :
    (t.lexeme = none ∧ t.type ≠ STRING ∧ t.type ≠ NUMBER ∧ t.type ≠ KEYWORD) ∨
    (∃ l, t.lexeme = some l ∧ (t.type = STRING ∨ t.type = NUMBER ∨ t.type = KEYWORD)) := by
  rw [get_next_token_skip] at h
  cases hd : s.dropWhile isspace with
  | nil =>
    rw [hd] at h
    simp only [get_next_token, Res.ok.injEq, Prod.mk.injEq] at h
    rw [← h.1]
    exact Or.inl ⟨rfl, by decide, by decide, by decide⟩
  | cons c r =>
    rw [hd] at h
    have hsp : isspace c = false := by
      have := List.head_dropWhile_not isspace s (by rw [hd]; simp)
      simpa [hd] using this
    by_cases hce : c = EOF_char
    · rw [hce, get_next_token_EOF_char] at h
      simp only [Res.ok.injEq, Prod.mk.injEq] at h
      rw [← h.1]
      exact Or.inl ⟨rfl, by decide, by decide, by decide⟩
    rw [get_next_token_cons c r hsp hce] at h
    split_ifs at h <;> simp only [Res.ok.injEq, Prod.mk.injEq, reduceCtorEq] at h
    all_goals first
      | (rw [← h.1]; exact Or.inl ⟨rfl, by decide, by decide, by decide⟩)
      | (rw [← h.1]; exact Or.inr ⟨_, rfl, Or.inl rfl⟩)
      | (rw [← h.1]; exact Or.inr ⟨_, rfl, Or.inr (Or.inl rfl)⟩)
      | (rw [← h.1]; exact Or.inr ⟨_, rfl, Or.inr (Or.inr rfl)⟩)

theorem lexer_token_keyword (t : token_t) (h : lexer_token t) (ht : t.type = KEYWORD) :
    ∃ l, t.lexeme = some l := by
  obtain ⟨s, s1, hg⟩ := h
  rcases get_next_token_shape s s1 t hg with h1 | ⟨l, h1, _⟩
  · exact absurd ht h1.2.2.2
  · exact ⟨l, h1⟩

theorem parser_error_unexpected_token (t : token_t) :
    parser_error (Fatal.unexpected_token t) := Or.inl ⟨t, rfl⟩

/-- The two ways a `match` can go for a parser on a token sequence. -/
theorem match_token_cases (p : parser_t) (ts : List token_t) (h : AtTokens p ts)
    (ty : token_type_t) (hty : ty ≠ TOKEN_EOF) :
    (∃ t ts1 q, ts = t :: ts1 ∧ t.type = ty ∧ p.lookahead = t ∧
      match_token p ty = Res.ok q ∧ AtTokens q ts1 ∧ q.out = p.out) ∨
    (p.lookahead.type ≠ ty ∧
      match_token p ty = Res.fatal (Fatal.unexpected_token p.lookahead)) := by
  by_cases hl : p.lookahead.type = ty
  · obtain ⟨t, ts1, rfl, ht⟩ := (AtTokens_type p ts h ty hty).1 hl
    obtain ⟨q, hq, hq2, hq3⟩ := match_token_ok p t ts1 h ty ht
    exact Or.inl ⟨t, ts1, q, rfl, ht, ((AtTokens_cons _ _ _).1 h).1, hq, hq2, hq3⟩
  · exact Or.inr ⟨hl, match_token_bad p ty hl⟩

theorem parse_outcome_fatal {α : Type} (ts : List token_t) (D : List token_t → Prop)
    (err : Fatal) (h : parser_error err) :
    parse_outcome (Res.fatal err : Res (α × parser_t)) ts D :=
  Or.inl ⟨err, rfl, h⟩

theorem Derives_ne_nil (nt : Nonterminal) (e : List token_t) (h : Derives nt e) : e ≠ [] := by
  induction h with
  | value_object e _ ih => exact ih
  | value_array e _ ih => exact ih
  | value_string t _ => simp
  | value_number t _ => simp
  | value_true t _ _ => simp
  | value_false t _ _ => simp
  | value_null t _ _ => simp
  | object_empty o c _ _ => simp
  | object_members o c ms _ _ _ _ => simp
  | member k col v _ _ _ _ => simp
  | members_one m _ ih => exact ih
  | members_more m comma ms _ _ _ ih1 _ => simp [ih1]
  | array_empty o c _ _ => simp
  | array_elements o c es _ _ _ _ => simp
  | elements_one v _ ih => exact ih
  | elements_more v comma es _ _ _ ih1 _ => simp [ih1]

theorem Derives_length_pos (nt : Nonterminal) (e : List token_t) (h : Derives nt e) :
    1 ≤ e.length := by
  have := Derives_ne_nil nt e h
  cases e with
  | nil => exact absurd rfl this
  | cons t ts => simp

theorem members_of_rest (m e : List token_t) (hm : Derives Nonterminal.member m)
    (he : derives_rest e) : Derives Nonterminal.members (m ++ e) := by
  rcases he with rfl | ⟨comma, ms, rfl, hc, hms⟩
  · rw [List.append_nil]; exact Derives.members_one m hm
  · exact Derives.members_more m comma ms hm hc hms

theorem parse_single_step (fuel : Nat)
    (hV : ∀ p ts, AtTokens p ts → 4 * ts.length + 2 ≤ fuel →
      parse_outcome (parse_value fuel p) ts (Derives Nonterminal.value))
    (p : parser_t) (ts : List token_t) (parent : hash_map_t json_value_t)
    (h : AtTokens p ts) (hf : 4 * ts.length + 3 ≤ fuel + 1) :
    parse_outcome (parse_single_object_member (fuel + 1) p parent) ts
      (Derives Nonterminal.member) := by
  rw [parse_single_object_member_succ]
  rcases match_token_cases p ts h STRING (by decide) with
    ⟨k, ts1, q1, rfl, hk, _, hm1, hq1, _⟩ | ⟨hl, _⟩
  · have hs : ¬ p.lookahead.type ≠ STRING := by
      rw [((AtTokens_cons _ _ _).1 h).1, hk]; simp
    rw [if_neg hs, hm1, Res.bind_ok]
    rcases match_token_cases q1 ts1 hq1 COLON (by decide) with
      ⟨col, ts2, q2, rfl, hcol, _, hm2, hq2, _⟩ | ⟨_, hm2⟩
    · rw [hm2, Res.bind_ok]
      simp only [List.length_cons] at hf
      rcases hV q2 ts2 hq2 (by omega) with ⟨err, he, hpe⟩ | ⟨v, q, e, xs, he, rfl, hd, hq⟩
      · rw [he, Res.bind_fatal]; exact parse_outcome_fatal _ _ err hpe
      · rw [he, Res.bind_ok]
        exact Or.inr ⟨_, q, k :: col :: e, xs, rfl, by simp,
          Derives.member k col e hk hcol hd, hq⟩
    · rw [hm2, Res.bind_fatal]
      exact parse_outcome_fatal _ _ _ (parser_error_unexpected_token _)
  · rw [if_pos hl]
    exact parse_outcome_fatal _ _ _ (parser_error_unexpected_token _)

theorem parse_rest_step (fuel : Nat)
    (hS : ∀ p ts parent, AtTokens p ts → 4 * ts.length + 3 ≤ fuel →
      parse_outcome (parse_single_object_member fuel p parent) ts
        (Derives Nonterminal.member))
    (hR : ∀ p ts parent, AtTokens p ts → 4 * ts.length + 3 ≤ fuel →
      parse_outcome (parse_rest_object_members fuel p parent) ts derives_rest)
    (p : parser_t) (ts : List token_t) (parent : hash_map_t json_value_t)
    (h : AtTokens p ts) (hf : 4 * ts.length + 3 ≤ fuel + 1) :
    parse_outcome (parse_rest_object_members (fuel + 1) p parent) ts derives_rest := by
  rw [parse_rest_object_members_succ]
  rcases match_token_cases p ts h COMMA (by decide) with
    ⟨c, ts1, q1, rfl, hc, hpl, hm1, hq1, _⟩ | ⟨hl, _⟩
  · have hcl : p.lookahead.type = COMMA := by rw [hpl, hc]
    rw [if_pos hcl, hm1, Res.bind_ok]
    simp only [List.length_cons] at hf
    rcases hS q1 ts1 parent hq1 (by omega) with ⟨err, he, hpe⟩ | ⟨m, q2, e, xs, he, rfl, hd, hq2⟩
    · rw [he, Res.bind_fatal]; exact parse_outcome_fatal _ _ err hpe
    · rw [he, Res.bind_ok]
      simp only [List.length_append] at hf
      rcases hR q2 xs m hq2 (by omega) with ⟨err, he2, hpe⟩ | ⟨m2, q3, e2, xs2, he2, rfl, hd2, hq3⟩
      · simp only; rw [he2]; exact parse_outcome_fatal _ _ err hpe
      · simp only; rw [he2]
        exact Or.inr ⟨m2, q3, c :: (e ++ e2), xs2, rfl, by simp,
          Or.inr ⟨c, e ++ e2, rfl, hc, members_of_rest e e2 hd hd2⟩, hq3⟩
  · rw [if_neg hl]
    exact Or.inr ⟨parent, p, [], ts, rfl, rfl, Or.inl rfl, h⟩

theorem parse_members_step (fuel : Nat)
    (hS : ∀ p ts parent, AtTokens p ts → 4 * ts.length + 3 ≤ fuel →
      parse_outcome (parse_single_object_member fuel p parent) ts
        (Derives Nonterminal.member))
    (hR : ∀ p ts parent, AtTokens p ts → 4 * ts.length + 3 ≤ fuel →
      parse_outcome (parse_rest_object_members fuel p parent) ts derives_rest)
    (p : parser_t) (ts : List token_t) (parent : hash_map_t json_value_t)
    (h : AtTokens p ts) (hf : 4 * ts.length + 4 ≤ fuel + 1) :
    parse_outcome (parse_json_object_members (fuel + 1) p parent) ts
      (Derives Nonterminal.members) := by
  rw [parse_json_object_members_succ]
  rcases hS p ts parent h (by omega) with ⟨err, he, hpe⟩ | ⟨m, q2, e, xs, he, rfl, hd, hq2⟩
  · rw [he, Res.bind_fatal]; exact parse_outcome_fatal _ _ err hpe
  · rw [he, Res.bind_ok]
    simp only [List.length_append] at hf
    rcases hR q2 xs m hq2 (by omega) with ⟨err, he2, hpe⟩ | ⟨m2, q3, e2, xs2, he2, rfl, hd2, hq3⟩
    · simp only; rw [he2]; exact parse_outcome_fatal _ _ err hpe
    · simp only; rw [he2]
      exact Or.inr ⟨m2, q3, e ++ e2, xs2, rfl, by simp, members_of_rest e e2 hd hd2, hq3⟩

theorem parse_object_step (fuel : Nat)
    (hM : ∀ p ts parent, AtTokens p ts → 4 * ts.length + 4 ≤ fuel →
      parse_outcome (parse_json_object_members fuel p parent) ts
        (Derives Nonterminal.members))
    (p : parser_t) (ts : List token_t)
    (h : AtTokens p ts) (hf : 4 * ts.length + 1 ≤ fuel + 1) :
    parse_outcome (parse_json_object (fuel + 1) p) ts (Derives Nonterminal.object) := by
  rw [parse_json_object_succ]
  rcases match_token_cases p ts h BRACKET_OPEN (by decide) with
    ⟨o, ts1, q1, rfl, ho, _, hm1, hq1, _⟩ | ⟨_, hm1⟩
  · rw [hm1, Res.bind_ok]
    simp only [List.length_cons] at hf
    rcases match_token_cases q1 ts1 hq1 BRACKET_CLOSE (by decide) with
      ⟨c, ts2, q2, rfl, hc, hpl, hm2, hq2, _⟩ | ⟨hl, _⟩
    · have hcl : q1.lookahead.type = BRACKET_CLOSE := by rw [hpl, hc]
      rw [if_pos hcl, hm2, Res.bind_ok]
      exact Or.inr ⟨_, q2, [o, c], ts2, rfl, rfl, Derives.object_empty o c ho hc, hq2⟩
    · rw [if_neg hl]
      rcases hM q1 ts1 (hash_map_alloc 4) hq1 (by omega) with
        ⟨err, he, hpe⟩ | ⟨m, q2, e, xs, he, rfl, hd, hq2⟩
      · rw [he, Res.bind_fatal]; exact parse_outcome_fatal _ _ err hpe
      · rw [he, Res.bind_ok]
        simp only
        rcases match_token_cases q2 xs hq2 BRACKET_CLOSE (by decide) with
          ⟨c, xs2, q3, rfl, hc, _, hm3, hq3, _⟩ | ⟨_, hm3⟩
        · rw [hm3, Res.bind_ok]
          exact Or.inr ⟨_, q3, o :: (e ++ [c]), xs2, rfl, by simp,
            Derives.object_members o c e ho hd hc, hq3⟩
        · rw [hm3, Res.bind_fatal]
          exact parse_outcome_fatal _ _ _ (parser_error_unexpected_token _)
  · rw [hm1, Res.bind_fatal]
    exact parse_outcome_fatal _ _ _ (parser_error_unexpected_token _)

theorem parse_array_members_step (fuel : Nat)
    (hV : ∀ p ts, AtTokens p ts → 4 * ts.length + 2 ≤ fuel →
      parse_outcome (parse_value fuel p) ts (Derives Nonterminal.value))
    (hAM : ∀ p ts parent, AtTokens p ts → 4 * ts.length + 3 ≤ fuel →
      parse_outcome (parse_json_array_members fuel p parent) ts
        (Derives Nonterminal.elements))
    (p : parser_t) (ts : List token_t) (parent : as_array_t json_value_t)
    (h : AtTokens p ts) (hf : 4 * ts.length + 3 ≤ fuel + 1) :
    parse_outcome (parse_json_array_members (fuel + 1) p parent) ts
      (Derives Nonterminal.elements) := by
  rw [parse_json_array_members_succ]
  rcases hV p ts h (by omega) with ⟨err, he, hpe⟩ | ⟨v, q, e, xs, he, rfl, hd, hq⟩
  · rw [he, Res.bind_fatal]; exact parse_outcome_fatal _ _ err hpe
  · rw [he, Res.bind_ok]
    simp only
    have hlen := Derives_length_pos _ e hd
    simp only [List.length_append] at hf
    have hq' := (AtTokens_out q (q.out ++ (__json_value_array_append parent v).2) xs).2 hq
    rcases match_token_cases _ xs hq' COMMA (by decide) with
      ⟨c, xs1, q2, rfl, hc, hpl, hm2, hq2, _⟩ | ⟨hl, _⟩
    · have hcl : q.lookahead.type = COMMA := by
        have : q.lookahead = c := hpl
        rw [this, hc]
      rw [if_pos hcl, hm2, Res.bind_ok]
      simp only [List.length_cons] at hf
      rcases hAM q2 xs1 (__json_value_array_append parent v).1 hq2 (by omega) with
        ⟨err, he2, hpe⟩ | ⟨a, q3, e2, xs2, he2, rfl, hd2, hq3⟩
      · rw [he2]; exact parse_outcome_fatal _ _ err hpe
      · rw [he2]
        exact Or.inr ⟨a, q3, e ++ c :: e2, xs2, rfl, by simp,
          Derives.elements_more e c e2 hd hc hd2, hq3⟩
    · have hcl : ¬ q.lookahead.type = COMMA := hl
      rw [if_neg hcl]
      exact Or.inr ⟨_, _, e, xs, rfl, rfl, Derives.elements_one e hd, hq'⟩

theorem parse_array_step (fuel : Nat)
    (hAM : ∀ p ts parent, AtTokens p ts → 4 * ts.length + 3 ≤ fuel →
      parse_outcome (parse_json_array_members fuel p parent) ts
        (Derives Nonterminal.elements))
    (p : parser_t) (ts : List token_t)
    (h : AtTokens p ts) (hf : 4 * ts.length + 1 ≤ fuel + 1) :
    parse_outcome (parse_json_array (fuel + 1) p) ts (Derives Nonterminal.array) := by
  rw [parse_json_array_succ]
  rcases match_token_cases p ts h ARRAY_OPEN (by decide) with
    ⟨o, ts1, q1, rfl, ho, _, hm1, hq1, _⟩ | ⟨_, hm1⟩
  · rw [hm1, Res.bind_ok]
    simp only [List.length_cons] at hf
    rcases match_token_cases q1 ts1 hq1 ARRAY_CLOSE (by decide) with
      ⟨c, ts2, q2, rfl, hc, hpl, hm2, hq2, _⟩ | ⟨hl, _⟩
    · have hcl : q1.lookahead.type = ARRAY_CLOSE := by rw [hpl, hc]
      rw [if_pos hcl, hm2, Res.bind_ok]
      exact Or.inr ⟨_, q2, [o, c], ts2, rfl, rfl, Derives.array_empty o c ho hc, hq2⟩
    · rw [if_neg hl]
      rcases hAM q1 ts1 ⟨[], 2⟩ hq1 (by omega) with
        ⟨err, he, hpe⟩ | ⟨m, q2, e, xs, he, rfl, hd, hq2⟩
      · rw [he, Res.bind_fatal]; exact parse_outcome_fatal _ _ err hpe
      · rw [he, Res.bind_ok]
        simp only
        rcases match_token_cases q2 xs hq2 ARRAY_CLOSE (by decide) with
          ⟨c, xs2, q3, rfl, hc, _, hm3, hq3, _⟩ | ⟨_, hm3⟩
        · rw [hm3, Res.bind_ok]
          exact Or.inr ⟨_, q3, o :: (e ++ [c]), xs2, rfl, by simp,
            Derives.array_elements o c e ho hd hc, hq3⟩
        · rw [hm3, Res.bind_fatal]
          exact parse_outcome_fatal _ _ _ (parser_error_unexpected_token _)
  · rw [hm1, Res.bind_fatal]
    exact parse_outcome_fatal _ _ _ (parser_error_unexpected_token _)

theorem parse_keyword_cases (t : token_t) (l : string_t) (hl : t.lexeme = some l) :
    (parse_keyword t = Res.ok (JSON_TRUE 1) ∧ t.lexeme_str = ['t', 'r', 'u', 'e']) ∨
    (parse_keyword t = Res.ok (JSON_FALSE 0) ∧ t.lexeme_str = ['f', 'a', 'l', 's', 'e']) ∨
    (parse_keyword t = Res.ok JSON_NULL ∧ t.lexeme_str = ['n', 'u', 'l', 'l']) ∨
    (parse_keyword t = Res.fatal (Fatal.invalid_keyword t.lexeme_str) ∧
      t.lexeme_str ≠ ['t', 'r', 'u', 'e'] ∧ t.lexeme_str ≠ ['f', 'a', 'l', 's', 'e'] ∧
      t.lexeme_str ≠ ['n', 'u', 'l', 'l']) := by
  have hs : t.lexeme_str = c_str l.char_ptr := by simp [token_t.lexeme_str, hl]
  unfold parse_keyword
  rw [hl, hs]
  simp only
  by_cases h1 : c_str l.char_ptr = ['t', 'r', 'u', 'e']
  · rw [if_pos h1]; exact Or.inl ⟨rfl, h1⟩
  · rw [if_neg h1]
    by_cases h2 : c_str l.char_ptr = ['f', 'a', 'l', 's', 'e']
    · rw [if_pos h2]; exact Or.inr (Or.inl ⟨rfl, h2⟩)
    · rw [if_neg h2]
      by_cases h3 : c_str l.char_ptr = ['n', 'u', 'l', 'l']
      · rw [if_pos h3]; exact Or.inr (Or.inr (Or.inl ⟨rfl, h3⟩))
      · rw [if_neg h3]; exact Or.inr (Or.inr (Or.inr ⟨rfl, h1, h2, h3⟩))

theorem parse_value_step (fuel : Nat)
    (hO : ∀ p ts, AtTokens p ts → 4 * ts.length + 1 ≤ fuel →
      parse_outcome (parse_json_object fuel p) ts (Derives Nonterminal.object))
    (hA : ∀ p ts, AtTokens p ts → 4 * ts.length + 1 ≤ fuel →
      parse_outcome (parse_json_array fuel p) ts (Derives Nonterminal.array))
    (p : parser_t) (ts : List token_t)
    (h : AtTokens p ts) (hf : 4 * ts.length + 2 ≤ fuel + 1) :
    parse_outcome (parse_value (fuel + 1) p) ts (Derives Nonterminal.value) := by
  rw [parse_value_succ]
  by_cases h1 : p.lookahead.type = BRACKET_OPEN
  · rw [if_pos h1]
    rcases hO p ts h (by omega) with ⟨err, he, hpe⟩ | ⟨v, q, e, xs, he, rfl, hd, hq⟩
    · exact Or.inl ⟨err, he, hpe⟩
    · exact Or.inr ⟨v, q, e, xs, he, rfl, Derives.value_object e hd, hq⟩
  rw [if_neg h1]
  by_cases h2 : p.lookahead.type = KEYWORD
  · rw [if_pos h2]
    obtain ⟨t, ts1, rfl, ht⟩ := (AtTokens_type p ts h KEYWORD (by decide)).1 h2
    have hpl : p.lookahead = t := ((AtTokens_cons _ _ _).1 h).1
    subst hpl
    obtain ⟨l, hl⟩ := lexer_token_keyword p.lookahead ((AtTokens_cons _ _ _).1 h).2.2.1 ht
    obtain ⟨q, hq, hq2, _⟩ := match_token_ok p p.lookahead ts1 h KEYWORD ht
    rcases parse_keyword_cases p.lookahead l hl with
      ⟨hk, hs⟩ | ⟨hk, hs⟩ | ⟨hk, hs⟩ | ⟨hk, hs⟩
    · rw [hk, Res.bind_ok, hq, Res.bind_ok]
      exact Or.inr ⟨_, q, [p.lookahead], ts1, rfl, rfl, Derives.value_true _ ht hs, hq2⟩
    · rw [hk, Res.bind_ok, hq, Res.bind_ok]
      exact Or.inr ⟨_, q, [p.lookahead], ts1, rfl, rfl, Derives.value_false _ ht hs, hq2⟩
    · rw [hk, Res.bind_ok, hq, Res.bind_ok]
      exact Or.inr ⟨_, q, [p.lookahead], ts1, rfl, rfl, Derives.value_null _ ht hs, hq2⟩
    · rw [hk, Res.bind_fatal]
      exact Or.inl ⟨_, rfl, Or.inr ⟨p.lookahead, rfl, ht, hs⟩⟩
  rw [if_neg h2]
  by_cases h3 : p.lookahead.type = NUMBER
  · rw [if_pos h3]
    obtain ⟨t, ts1, rfl, ht⟩ := (AtTokens_type p ts h NUMBER (by decide)).1 h3
    obtain ⟨q, hq, hq2, _⟩ := match_token_ok p t ts1 h NUMBER ht
    rw [hq, Res.bind_ok]
    exact Or.inr ⟨_, q, [t], ts1, rfl, rfl, Derives.value_number t ht, hq2⟩
  rw [if_neg h3]
  by_cases h4 : p.lookahead.type = STRING
  · rw [if_pos h4]
    obtain ⟨t, ts1, rfl, ht⟩ := (AtTokens_type p ts h STRING (by decide)).1 h4
    obtain ⟨q, hq, hq2, _⟩ := match_token_ok p t ts1 h STRING ht
    rw [hq, Res.bind_ok]
    exact Or.inr ⟨_, q, [t], ts1, rfl, rfl, Derives.value_string t ht, hq2⟩
  rw [if_neg h4]
  by_cases h5 : p.lookahead.type = ARRAY_OPEN
  · rw [if_pos h5]
    rcases hA p ts h (by omega) with ⟨err, he, hpe⟩ | ⟨v, q, e, xs, he, rfl, hd, hq⟩
    · exact Or.inl ⟨err, he, hpe⟩
    · exact Or.inr ⟨v, q, e, xs, he, rfl, Derives.value_array e hd, hq⟩
  rw [if_neg h5]
  exact parse_outcome_fatal _ _ _ (parser_error_unexpected_token _)

/-- With fuel proportional to the number of tokens, every parser function
ends in a parser error or returns after consuming a prefix derivable from its
nonterminal. -/
theorem parse_total (fuel : Nat) :
    (∀ p ts parent, AtTokens p ts → 4 * ts.length + 3 ≤ fuel →
      parse_outcome (parse_single_object_member fuel p parent) ts
        (Derives Nonterminal.member)) ∧
    (∀ p ts parent, AtTokens p ts → 4 * ts.length + 3 ≤ fuel →
      parse_outcome (parse_rest_object_members fuel p parent) ts derives_rest) ∧
    (∀ p ts parent, AtTokens p ts → 4 * ts.length + 4 ≤ fuel →
      parse_outcome (parse_json_object_members fuel p parent) ts
        (Derives Nonterminal.members)) ∧
    (∀ p ts, AtTokens p ts → 4 * ts.length + 1 ≤ fuel →
      parse_outcome (parse_json_object fuel p) ts (Derives Nonterminal.object)) ∧
    (∀ p ts parent, AtTokens p ts → 4 * ts.length + 3 ≤ fuel →
      parse_outcome (parse_json_array_members fuel p parent) ts
        (Derives Nonterminal.elements)) ∧
    (∀ p ts, AtTokens p ts → 4 * ts.length + 1 ≤ fuel →
      parse_outcome (parse_json_array fuel p) ts (Derives Nonterminal.array)) ∧
    (∀ p ts, AtTokens p ts → 4 * ts.length + 2 ≤ fuel →
      parse_outcome (parse_value fuel p) ts (Derives Nonterminal.value)) := by
  induction fuel with
  | zero =>
    refine ⟨?_, ?_, ?_, ?_, ?_, ?_, ?_⟩ <;> intros <;> omega
  | succ fuel ih =>
    obtain ⟨ih1, ih2, ih3, ih4, ih5, ih6, ih7⟩ := ih
    exact ⟨parse_single_step fuel ih7, parse_rest_step fuel ih1 ih2,
      parse_members_step fuel ih1 ih2, parse_object_step fuel ih3,
      parse_array_members_step fuel ih7 ih5, parse_array_step fuel ih5,
      parse_value_step fuel ih4 ih6⟩

/-! ## Parser: rejection of token sequences that start no value -/

/-- The first token of a derivable token sequence. -/
theorem Derives_head (nt : Nonterminal) (e : List token_t) (h : Derives nt e) :
    ∃ t rest, e = t :: rest ∧
      (nt = Nonterminal.value →
        t.type = BRACKET_OPEN ∨ t.type = ARRAY_OPEN ∨ t.type = STRING ∨ t.type = NUMBER ∨
        (t.type = KEYWORD ∧ (t.lexeme_str = ['t', 'r', 'u', 'e'] ∨
          t.lexeme_str = ['f', 'a', 'l', 's', 'e'] ∨ t.lexeme_str = ['n', 'u', 'l', 'l']))) ∧
      (nt = Nonterminal.object → t.type = BRACKET_OPEN) ∧
      (nt = Nonterminal.array → t.type = ARRAY_OPEN) := by
  induction h with
  | value_object e _ ih =>
    obtain ⟨t, rest, he, _, h2, _⟩ := ih
    exact ⟨t, rest, he, fun _ => Or.inl (h2 rfl), by simp, by simp⟩
  | value_array e _ ih =>
    obtain ⟨t, rest, he, _, _, h3⟩ := ih
    exact ⟨t, rest, he, fun _ => Or.inr (Or.inl (h3 rfl)), by simp, by simp⟩
  | value_string t ht =>
    exact ⟨t, [], rfl, fun _ => Or.inr (Or.inr (Or.inl ht)), by simp, by simp⟩
  | value_number t ht =>
    exact ⟨t, [], rfl, fun _ => Or.inr (Or.inr (Or.inr (Or.inl ht))), by simp, by simp⟩
  | value_true t ht hs =>
    exact ⟨t, [], rfl, fun _ => Or.inr (Or.inr (Or.inr (Or.inr ⟨ht, Or.inl hs⟩))),
      by simp, by simp⟩
  | value_false t ht hs =>
    exact ⟨t, [], rfl, fun _ => Or.inr (Or.inr (Or.inr (Or.inr ⟨ht, Or.inr (Or.inl hs)⟩))),
      by simp, by simp⟩
  | value_null t ht hs =>
    exact ⟨t, [], rfl, fun _ => Or.inr (Or.inr (Or.inr (Or.inr ⟨ht, Or.inr (Or.inr hs)⟩))),
      by simp, by simp⟩
  | object_empty o c ho _ => exact ⟨o, [c], rfl, by simp, fun _ => ho, by simp⟩
  | object_members o c ms ho _ _ _ => exact ⟨o, ms ++ [c], rfl, by simp, fun _ => ho, by simp⟩
  | member k col v _ _ _ _ => exact ⟨k, col :: v, rfl, by simp, by simp, by simp⟩
  | members_one m _ ih =>
    obtain ⟨t, rest, he, _⟩ := ih
    exact ⟨t, rest, he, by simp, by simp, by simp⟩
  | members_more m comma ms _ _ _ ih1 _ =>
    obtain ⟨t, rest, he, _⟩ := ih1
    exact ⟨t, rest ++ comma :: ms, by simp [he], by simp, by simp, by simp⟩
  | array_empty o c ho _ => exact ⟨o, [c], rfl, by simp, by simp, fun _ => ho⟩
  | array_elements o c es ho _ _ _ => exact ⟨o, es ++ [c], rfl, by simp, by simp, fun _ => ho⟩
  | elements_one v _ ih =>
    obtain ⟨t, rest, he, _⟩ := ih
    exact ⟨t, rest, he, by simp, by simp, by simp⟩
  | elements_more v comma es _ _ _ ih1 _ =>
    obtain ⟨t, rest, he, _⟩ := ih1
    exact ⟨t, rest ++ comma :: es, by simp [he], by simp, by simp, by simp⟩

/-- No prefix of a token sequence is derivable from `value` when its first
token starts no value. -/
theorem not_derivable_of_head (t : token_t) (ts : List token_t)
    (h1 : t.type ≠ BRACKET_OPEN) (h2 : t.type ≠ ARRAY_OPEN) (h3 : t.type ≠ STRING)
    (h4 : t.type ≠ NUMBER)
    (h5 : t.type = KEYWORD → t.lexeme_str ≠ ['t', 'r', 'u', 'e'] ∧
      t.lexeme_str ≠ ['f', 'a', 'l', 's', 'e'] ∧ t.lexeme_str ≠ ['n', 'u', 'l', 'l']) :
    ∀ e xs, t :: ts = e ++ xs → ¬ Derives Nonterminal.value e := by
  intro e xs he hd
  obtain ⟨t1, rest, rfl, hv, _, _⟩ := Derives_head _ e hd
  simp only [List.cons_append, List.cons.injEq] at he
  obtain ⟨rfl, _⟩ := he
  rcases hv rfl with h | h | h | h | ⟨h, h6⟩
  · exact h1 h
  · exact h2 h
  · exact h3 h
  · exact h4 h
  · obtain ⟨a, b, c⟩ := h5 h
    rcases h6 with h6 | h6 | h6
    · exact a h6
    · exact b h6
    · exact c h6

theorem parse_value_unexpected (p : parser_t)
    (h : p.lookahead.type = BRACKET_CLOSE ∨ p.lookahead.type = ARRAY_CLOSE ∨
      p.lookahead.type = COLON ∨ p.lookahead.type = COMMA ∨ p.lookahead.type = TOKEN_EOF)
    (fuel : Nat) :
    parse_value (fuel + 1) p = Res.fatal (Fatal.unexpected_token p.lookahead) := by
  rw [parse_value_succ]
  rcases h with h | h | h | h | h <;> rw [h] <;> simp

theorem Aborts_unique {α : Type} (f : Nat → Res α) (e1 e2 : Fatal) (h1 : Aborts f e1)
    (h2 : Aborts f e2) : e1 = e2 := by
  obtain ⟨n, hn⟩ := h1
  obtain ⟨m, hm⟩ := h2
  have a := hn (max n m) (le_max_left _ _)
  have b := hm (max n m) (le_max_right _ _)
  rw [a] at b
  exact Res.fatal.inj b

/-- The invalid-keyword state: the parser on the one-token stream `nul`. -/
theorem parse_value_nul :
    AtTokens ⟨⟨some ⟨['n', 'u', 'l'], 4⟩, KEYWORD⟩, [], []⟩ [⟨some ⟨['n', 'u', 'l'], 4⟩, KEYWORD⟩] ∧
    (∀ e xs, [(⟨some ⟨['n', 'u', 'l'], 4⟩, KEYWORD⟩ : token_t)] = e ++ xs →
      ¬ Derives Nonterminal.value e) ∧
    Aborts (fun fuel => parse_value fuel ⟨⟨some ⟨['n', 'u', 'l'], 4⟩, KEYWORD⟩, [], []⟩)
      (Fatal.invalid_keyword ['n', 'u', 'l']) := by
  refine ⟨?_, ?_, ?_⟩
  · rw [AtTokens_cons]
    refine ⟨rfl, by decide, ⟨['n', 'u', 'l'], [], by decide⟩, ?_⟩
    rw [Lexes_nil]
    exact ⟨single_type_token TOKEN_EOF, [], rfl, rfl⟩
  · exact not_derivable_of_head _ _ (by decide) (by decide) (by decide) (by decide)
      (fun _ => by decide)
  · refine ⟨1, fun fuel hf => ?_⟩
    obtain ⟨k, rfl⟩ : ∃ k, fuel = k + 1 := ⟨fuel - 1, by omega⟩
    beta_reduce
    rw [parse_value_succ]
    rfl

/-- C7 as stated fails: the one-token sequence KEYWORD `nul` begins with no
sentence derivable from `value`, yet `parse_value` does not end in the
unexpected-token error on it (it ends in the invalid-keyword error of
`parse_keyword`). -/
theorem parse_value_unexpected_token_counterexample :
    ¬ (∀ (p : parser_t) (ts : List token_t), AtTokens p ts →
        (∀ e xs, ts = e ++ xs → ¬ Derives Nonterminal.value e) →
        ∃ t, Aborts (fun fuel => parse_value fuel p) (Fatal.unexpected_token t)) := by
  intro h
  obtain ⟨h1, h2, h3⟩ := parse_value_nul
  obtain ⟨t, ht⟩ := h _ _ h1 h2
  have := Aborts_unique _ _ _ ht h3
  simp at this

/-- C7, amended: on a token sequence that does not begin with a sentence
derivable from `value`, `parse_value` ends in a fatal error and returns no
tree; the error is the unexpected-token error, or the invalid-keyword error
of `parse_keyword` for a KEYWORD token whose lexeme is none of `true`,
`false` and `null`. Whenever the lookahead is `}`, `]`, `:`, `,` or
end-of-stream it is the unexpected-token error for that lookahead. -/
theorem parse_value_not_derivable (p : parser_t) (ts : List token_t) (h : AtTokens p ts)
    (hnd : ∀ e xs, ts = e ++ xs → ¬ Derives Nonterminal.value e) :
    (∃ err, Aborts (fun fuel => parse_value fuel p) err ∧ parser_error err) ∧
    (∀ fuel r, parse_value fuel p ≠ Res.ok r) ∧
    (p.lookahead.type = BRACKET_CLOSE ∨ p.lookahead.type = ARRAY_CLOSE ∨
      p.lookahead.type = COLON ∨ p.lookahead.type = COMMA ∨
      p.lookahead.type = TOKEN_EOF →
      Aborts (fun fuel => parse_value fuel p) (Fatal.unexpected_token p.lookahead)) := by
  have hab : ∃ err, Aborts (fun fuel => parse_value fuel p) err ∧ parser_error err := by
    rcases (parse_total (4 * ts.length + 2)).2.2.2.2.2.2 p ts h (le_refl _) with
      ⟨err, he, hpe⟩ | ⟨v, q, e, xs, _, he, hd, _⟩
    · exact ⟨err, Aborts_of_eq _ (parse_value_mono p) _ err he, hpe⟩
    · exact absurd hd (hnd e xs he)
  refine ⟨hab, ?_, ?_⟩
  · intro fuel r hr
    obtain ⟨err, ha, _⟩ := hab
    exact Returns_not_aborts _ _ _ (Returns_of_eq _ (parse_value_mono p) fuel r hr) ha
  · intro hl
    refine ⟨1, fun fuel hf => ?_⟩
    obtain ⟨k, rfl⟩ : ∃ k, fuel = k + 1 := ⟨fuel - 1, by omega⟩
    exact parse_value_unexpected p hl k

/-- Witness for C7 amended: the value position of `{"a":}`, where the
lookahead after `:` is `}`; the whole text is rejected with the
unexpected-token error for `}`. -/
theorem parse_value_not_derivable_witness :
    (AtTokens ⟨single_type_token BRACKET_CLOSE, [], []⟩ [single_type_token BRACKET_CLOSE] ∧
      ∀ e xs, [single_type_token BRACKET_CLOSE] = e ++ xs → ¬ Derives Nonterminal.value e) ∧
    main 10 ['{', '"', 'a', '"', ':', '}']
      = Res.fatal (Fatal.unexpected_token (single_type_token BRACKET_CLOSE)) ∧
    (∃ err, Aborts (fun fuel => parse_value fuel ⟨single_type_token BRACKET_CLOSE, [], []⟩) err ∧
      parser_error err) ∧
    (∀ fuel r, parse_value fuel ⟨single_type_token BRACKET_CLOSE, [], []⟩ ≠ Res.ok r) ∧
    ((single_type_token BRACKET_CLOSE).type = BRACKET_CLOSE ∨
      (single_type_token BRACKET_CLOSE).type = ARRAY_CLOSE ∨
      (single_type_token BRACKET_CLOSE).type = COLON ∨
      (single_type_token BRACKET_CLOSE).type = COMMA ∨
      (single_type_token BRACKET_CLOSE).type = TOKEN_EOF →
      Aborts (fun fuel => parse_value fuel ⟨single_type_token BRACKET_CLOSE, [], []⟩)
        (Fatal.unexpected_token (single_type_token BRACKET_CLOSE))) := by
  have h1 : AtTokens ⟨single_type_token BRACKET_CLOSE, [], []⟩
      [single_type_token BRACKET_CLOSE] := by
    rw [AtTokens_cons]
    refine ⟨rfl, by decide, ⟨['}'], [], by decide⟩, ?_⟩
    rw [Lexes_nil]
    exact ⟨single_type_token TOKEN_EOF, [], rfl, rfl⟩
  have h2 : ∀ e xs, [single_type_token BRACKET_CLOSE] = e ++ xs →
      ¬ Derives Nonterminal.value e :=
    not_derivable_of_head _ _ (by decide) (by decide) (by decide) (by decide)
      (fun h => by simp [single_type_token] at h)
  exact ⟨⟨h1, h2⟩, by rfl,
    parse_value_not_derivable ⟨single_type_token BRACKET_CLOSE, [], []⟩
      [single_type_token BRACKET_CLOSE] h1 h2⟩

/-! ## Hash map: iteration -/

section iter
variable {α : Type}

theorem flatten_drop (B : List (List (ht_entry_t α))) (n : Nat) :
    (B.drop n).flatten = bucket_at B n ++ (B.drop (n + 1)).flatten := by
  induction B generalizing n with
  | nil => simp [bucket_at_nil]
  | cons x xs ih =>
    cases n with
    | zero => simp [bucket_at_cons_zero]
    | succ n => simpa [bucket_at_cons_succ] using ih n

theorem ht_scan_zero (ht : hash_map_t α) (b : Nat) : ht_scan ht 0 b = b := rfl

theorem ht_scan_succ (ht : hash_map_t α) (fuel b : Nat) :
    ht_scan ht (fuel + 1) b =
      if (bucket_at ht.buckets b).isEmpty ∧ b < ht.cap then ht_scan ht fuel (b + 1) else b :=
  rfl

theorem ht_scan_spec (ht : hash_map_t α) (fuel : Nat) : ∀ b, ht.cap - b ≤ fuel →
    b ≤ ht_scan ht fuel b ∧
    (ht.buckets.drop b).flatten = (ht.buckets.drop (ht_scan ht fuel b)).flatten ∧
    ((bucket_at ht.buckets (ht_scan ht fuel b)).isEmpty = false ∨
      ht.cap ≤ ht_scan ht fuel b) := by
  induction fuel with
  | zero =>
    intro b hb
    rw [ht_scan_zero]
    exact ⟨le_refl _, rfl, Or.inr (by omega)⟩
  | succ fuel ih =>
    intro b hb
    rw [ht_scan_succ]
    by_cases hc : (bucket_at ht.buckets b).isEmpty ∧ b < ht.cap
    · rw [if_pos hc]
      obtain ⟨h1, h2, h3⟩ := ih (b + 1) (by omega)
      refine ⟨by omega, ?_, h3⟩
      rw [flatten_drop, ← h2]
      have : bucket_at ht.buckets b = [] := List.isEmpty_iff.1 hc.1
      rw [this, List.nil_append]
    · rw [if_neg hc]
      refine ⟨le_refl _, rfl, ?_⟩
      by_cases he : (bucket_at ht.buckets b).isEmpty = true
      · right
        have : ¬ b < ht.cap := fun h => hc ⟨he, h⟩
        omega
      · left; simpa using he

theorem iter_rest_start (ht : hash_map_t α) : iter_rest ht ht_get_iter = ht_entries ht := by
  unfold iter_rest ht_get_iter ht_entries
  simp only [List.drop_zero]
  rw [← flatten_drop, List.drop_zero]

theorem iter_valid_start (ht : hash_map_t α) : iter_valid ht ht_get_iter := Or.inl rfl

/-- One call of `ht_get_next` on a valid iterator: it returns `NULL` when no
entry is left, and otherwise the first of the entries left. -/
theorem ht_get_next_spec (ht : hash_map_t α) (hlen : ht.buckets.length = ht.cap)
    (it : ht_iterator_t) (hv : iter_valid ht it) :
    ((ht_get_next ht it).1 = none ∧ iter_rest ht it = []) ∨
    (∃ e it1, ht_get_next ht it = (some e, it1) ∧ iter_rest ht it = e :: iter_rest ht it1 ∧
      iter_valid ht it1) := by
  by_cases hi : it.curr_idx = 0
  · -- at the start of a bucket: scan for the next non-empty one
    obtain ⟨h1, h2, h3⟩ := ht_scan_spec ht (ht.cap - it.curr_bucket) it.curr_bucket (le_refl _)
    have hrest : iter_rest ht it = (ht.buckets.drop it.curr_bucket).flatten := by
      unfold iter_rest
      rw [hi, List.drop_zero, ← flatten_drop]
    have hnext : ht_get_next ht it =
        match bucket_at ht.buckets (ht_scan ht (ht.cap - it.curr_bucket) it.curr_bucket) with
        | [] => (none, { it with
            curr_bucket := ht_scan ht (ht.cap - it.curr_bucket) it.curr_bucket })
        | bucket :: next =>
          if !next.isEmpty then
            (some bucket, ⟨ht_scan ht (ht.cap - it.curr_bucket) it.curr_bucket,
              it.curr_idx + 1⟩)
          else (some bucket, ⟨ht_scan ht (ht.cap - it.curr_bucket) it.curr_bucket + 1,
              it.curr_idx⟩) := by
      unfold ht_get_next
      rw [if_neg (by simp [hi])]
    rw [hnext, hrest, h2]
    generalize ht_scan ht (ht.cap - it.curr_bucket) it.curr_bucket = b at *
    cases hb : bucket_at ht.buckets b with
    | nil =>
      left
      refine ⟨rfl, ?_⟩
      rcases h3 with h3 | h3
      · rw [hb] at h3; simp at h3
      · rw [List.drop_eq_nil_of_le (by omega)]; rfl
    | cons e next =>
      right
      rw [flatten_drop, hb]
      by_cases hn : next.isEmpty = true
      · have hnil : next = [] := List.isEmpty_iff.1 hn
        refine ⟨e, ⟨b + 1, it.curr_idx⟩, by simp [hn], ?_, Or.inl hi⟩
        unfold iter_rest
        simp only [hi, List.drop_zero]
        rw [← flatten_drop, hnil]
        rfl
      · refine ⟨e, ⟨b, it.curr_idx + 1⟩, by simp [hn], ?_, Or.inr ?_⟩
        · unfold iter_rest
          simp only [hi, hb]
          rfl
        · simp only [hi, hb, List.length_cons]
          cases next with
          | nil => simp at hn
          | cons x xs => simp
  · -- inside a chain
    have hlt : it.curr_idx < (bucket_at ht.buckets it.curr_bucket).length := by
      rcases hv with h | h
      · exact absurd h hi
      · exact h
    right
    cases hd : (bucket_at ht.buckets it.curr_bucket).drop it.curr_idx with
    | nil =>
      have := List.drop_eq_nil_iff.1 hd
      omega
    | cons e next =>
      have hnext : ht_get_next ht it =
          if !next.isEmpty then (some e, { it with curr_idx := it.curr_idx + 1 })
          else (some e, ⟨it.curr_bucket + 1, 0⟩) := by
        unfold ht_get_next
        simp only [ne_eq, hi, not_false_eq_true, if_true, hd]
      have hdrop : (bucket_at ht.buckets it.curr_bucket).drop (it.curr_idx + 1) = next := by
        rw [← List.drop_drop, hd]
        rfl
      by_cases hn : next.isEmpty = true
      · have hnil : next = [] := List.isEmpty_iff.1 hn
        refine ⟨e, ⟨it.curr_bucket + 1, 0⟩, by rw [hnext]; simp [hn], ?_, Or.inl rfl⟩
        unfold iter_rest
        simp only [hd, List.drop_zero]
        rw [← flatten_drop, hnil]
        rfl
      · refine ⟨e, { it with curr_idx := it.curr_idx + 1 }, by rw [hnext]; simp [hn], ?_,
          Or.inr ?_⟩
        · unfold iter_rest
          simp only [hd, hdrop]
          rfl
        · simp only
          have hl := congrArg List.length hdrop
          rw [List.length_drop] at hl
          cases next with
          | nil => simp at hn
          | cons x xs => simp at hl; omega

end iter

/-! ## Printer: unfolding, fuel, and the two loops -/

theorem print_object_loop_zero (map : hash_map_t json_value_t) (it : ht_iterator_t) (i : Nat) :
    print_object_loop 0 map it i = Res.out_of_fuel := by
  rw [print_object_loop]

theorem print_object_loop_succ (fuel : Nat) (map : hash_map_t json_value_t)
    (it : ht_iterator_t) (i : Nat) :
    print_object_loop (fuel + 1) map it i =
      match ht_get_next map it with
      | (none, _) => Res.ok []
      | (some n, it1) =>
        (print_json_value fuel n.value).bind fun v =>
        (print_object_loop fuel map it1 (i + 1)).bind fun rest =>
        Res.ok (['"'] ++ n.key ++ ['"', ':', ' '] ++ v
          ++ (if i + 1 ≠ map.len then [','] else []) ++ rest) := by
  rw [print_object_loop]

theorem print_array_loop_zero (a : as_array_t json_value_t) (i : Nat) :
    print_array_loop 0 a i = Res.out_of_fuel := by
  rw [print_array_loop]

theorem print_array_loop_succ (fuel : Nat) (a : as_array_t json_value_t) (i : Nat) :
    print_array_loop (fuel + 1) a i =
      match a.array.get? i with
      | none => Res.ok []
      | some x =>
        (print_json_value fuel x).bind fun v =>
        (print_array_loop fuel a (i + 1)).bind fun rest =>
        Res.ok (v ++ (if i ≠ a.len - 1 then [',', ' '] else []) ++ rest) := by
  rw [print_array_loop]

theorem print_json_value_zero (tree : json_value_t) :
    print_json_value 0 tree = Res.out_of_fuel := by
  rw [print_json_value]

theorem print_json_value_number (fuel : Nat) (n : Int) :
    print_json_value (fuel + 1) (JSON_NUMBER n) = Res.ok (print_int n) := by
  rw [print_json_value]

theorem print_json_value_string (fuel : Nat) (s : string_t) :
    print_json_value (fuel + 1) (JSON_STRING s) = Res.ok (['"'] ++ c_str s.char_ptr ++ ['"']) := by
  rw [print_json_value]

theorem print_json_value_true (fuel : Nat) (b : Int) :
    print_json_value (fuel + 1) (JSON_TRUE b) = Res.ok ['t', 'r', 'u', 'e'] := by
  rw [print_json_value]

theorem print_json_value_false (fuel : Nat) (b : Int) :
    print_json_value (fuel + 1) (JSON_FALSE b) = Res.ok ['f', 'a', 'l', 's', 'e'] := by
  rw [print_json_value]

theorem print_json_value_null (fuel : Nat) :
    print_json_value (fuel + 1) JSON_NULL = Res.ok ['n', 'u', 'l', 'l'] := by
  rw [print_json_value]

theorem print_json_value_object (fuel : Nat) (map : hash_map_t json_value_t) :
    print_json_value (fuel + 1) (JSON_OBJECT map) =
      (print_object_loop fuel map ht_get_iter 0).bind fun body =>
        Res.ok (['{', ' '] ++ body ++ [' ', '}']) := by
  rw [print_json_value]

theorem print_json_value_array (fuel : Nat) (a : as_array_t json_value_t) :
    print_json_value (fuel + 1) (JSON_ARRAY a) =
      (print_array_loop fuel a 0).bind fun body =>
        Res.ok (['[', ' '] ++ body ++ [' ', ']']) := by
  rw [print_json_value]

/-- The printer only gains from fuel. -/
theorem print_mono (fuel : Nat) :
    (∀ map it i, (print_object_loop fuel map it i).le (print_object_loop (fuel + 1) map it i)) ∧
    (∀ a i, (print_array_loop fuel a i).le (print_array_loop (fuel + 1) a i)) ∧
    (∀ tree, (print_json_value fuel tree).le (print_json_value (fuel + 1) tree)) := by
  induction fuel with
  | zero =>
    refine ⟨?_, ?_, ?_⟩
    · intro map it i; rw [print_object_loop_zero]; exact Res.le_of_out_of_fuel _
    · intro a i; rw [print_array_loop_zero]; exact Res.le_of_out_of_fuel _
    · intro tree; rw [print_json_value_zero]; exact Res.le_of_out_of_fuel _
  | succ fuel ih =>
    obtain ⟨ih1, ih2, ih3⟩ := ih
    refine ⟨?_, ?_, ?_⟩
    · intro map it i
      rw [print_object_loop_succ, print_object_loop_succ]
      rcases hn : ht_get_next map it with ⟨_ | n, it1⟩
      · exact Res.le_refl _
      · exact Res.le_bind (ih3 _) fun v => Res.le_bind (ih1 _ _ _) fun rest => Res.le_refl _
    · intro a i
      rw [print_array_loop_succ, print_array_loop_succ]
      cases a.array.get? i with
      | none => exact Res.le_refl _
      | some x =>
        exact Res.le_bind (ih3 _) fun v => Res.le_bind (ih2 _ _) fun rest => Res.le_refl _
    · intro tree
      cases tree with
      | JSON_OBJECT map =>
        rw [print_json_value_object, print_json_value_object]
        exact Res.le_bind (ih1 _ _ _) fun body => Res.le_refl _
      | JSON_ARRAY a =>
        rw [print_json_value_array, print_json_value_array]
        exact Res.le_bind (ih2 _ _) fun body => Res.le_refl _
      | JSON_STRING s => rw [print_json_value_string, print_json_value_string]; exact Res.le_refl _
      | JSON_NUMBER n => rw [print_json_value_number, print_json_value_number]; exact Res.le_refl _
      | JSON_TRUE b => rw [print_json_value_true, print_json_value_true]; exact Res.le_refl _
      | JSON_FALSE b => rw [print_json_value_false, print_json_value_false]; exact Res.le_refl _
      | JSON_NULL => rw [print_json_value_null, print_json_value_null]; exact Res.le_refl _

theorem print_json_value_mono (tree : json_value_t) (n : Nat) :
    (print_json_value n tree).le (print_json_value (n + 1) tree) := (print_mono n).2.2 tree

/-- Finitely many computations that return have a common fuel bound. -/
theorem Returns_uniform {β : Type} (l : List β) (f : β → Nat → Res (List Char))
    (T : β → List Char) (h : ∀ x ∈ l, Returns (f x) (T x)) :
    ∃ n, ∀ x ∈ l, ∀ fuel, n ≤ fuel → f x fuel = Res.ok (T x) := by
  induction l with
  | nil => exact ⟨0, fun x hx => by simp at hx⟩
  | cons y ys ih =>
    obtain ⟨n1, h1⟩ := ih (fun x hx => h x (List.mem_cons_of_mem _ hx))
    obtain ⟨n2, h2⟩ := h y (List.mem_cons_self _ _)
    refine ⟨max n1 n2, fun x hx fuel hf => ?_⟩
    rcases List.mem_cons.1 hx with rfl | hx
    · exact h2 fuel (le_trans (le_max_right _ _) hf)
    · exact h1 x hx fuel (le_trans (le_max_left _ _) hf)

/-- The array loop prints the elements from position `i` on. -/
theorem print_array_loop_spec (a : as_array_t json_value_t) (T : json_value_t → List Char)
    (n : Nat) (hn : ∀ x ∈ a.array, ∀ fuel, n ≤ fuel → print_json_value fuel x = Res.ok (T x)) :
    ∀ (k i : Nat), i + k = a.array.length → ∀ fuel, n + k + 1 ≤ fuel →
      print_array_loop fuel a i = Res.ok (array_body a.array.length ((a.array.drop i).map T) i) := by
  intro k
  induction k with
  | zero =>
    intro i hi fuel hf
    obtain ⟨j, rfl⟩ : ∃ j, fuel = j + 1 := ⟨fuel - 1, by omega⟩
    rw [print_array_loop_succ]
    have h1 : a.array.get? i = none := by
      rw [List.get?_eq_none]; omega
    have h2 : a.array.drop i = [] := List.drop_eq_nil_of_le (by omega)
    rw [h1, h2]
    rfl
  | succ k ih =>
    intro i hi fuel hf
    obtain ⟨j, rfl⟩ : ∃ j, fuel = j + 1 := ⟨fuel - 1, by omega⟩
    rw [print_array_loop_succ]
    have hlt : i < a.array.length := by omega
    have h1 : a.array.get? i = some (a.array.get ⟨i, hlt⟩) := List.get?_eq_get hlt
    have h2 : a.array.drop i = a.array.get ⟨i, hlt⟩ :: a.array.drop (i + 1) :=
      (List.drop_eq_getElem_cons hlt)
    rw [h1, h2]
    simp only
    rw [hn _ (List.get_mem _ _ _) j (by omega), Res.bind_ok,
      ih (i + 1) (by omega) j (by omega), Res.bind_ok]
    simp only [List.map_cons, array_body, as_array_t.len]

/-- The object loop prints the entries the iterator has still to return. -/
theorem print_object_loop_spec (m : hash_map_t json_value_t) (hlen : m.buckets.length = m.cap)
    (T : json_value_t → List Char) (n : Nat)
    (hn : ∀ e ∈ ht_entries m, ∀ fuel, n ≤ fuel → print_json_value fuel e.value = Res.ok (T e.value)) :
    ∀ (k : Nat) (it : ht_iterator_t) (i : Nat), iter_valid m it →
      (iter_rest m it).length = k → (∀ e ∈ iter_rest m it, e ∈ ht_entries m) →
      ∀ fuel, n + k + 1 ≤ fuel →
      print_object_loop fuel m it i
        = Res.ok (object_body m.len ((iter_rest m it).map fun e => (e.key, T e.value)) i) := by
  intro k
  induction k with
  | zero =>
    intro it i hv hk hsub fuel hf
    obtain ⟨j, rfl⟩ : ∃ j, fuel = j + 1 := ⟨fuel - 1, by omega⟩
    rw [print_object_loop_succ]
    have hnil : iter_rest m it = [] := List.length_eq_zero.1 hk
    rcases ht_get_next_spec m hlen it hv with ⟨h1, _⟩ | ⟨e, it1, _, h2, _⟩
    · rcases hg : ht_get_next m it with ⟨o, it1⟩
      rw [hg] at h1
      simp only at h1
      subst h1
      rw [hnil]
      rfl
    · rw [hnil] at h2; simp at h2
  | succ k ih =>
    intro it i hv hk hsub fuel hf
    obtain ⟨j, rfl⟩ : ∃ j, fuel = j + 1 := ⟨fuel - 1, by omega⟩
    rw [print_object_loop_succ]
    rcases ht_get_next_spec m hlen it hv with ⟨_, h1⟩ | ⟨e, it1, h1, h2, h3⟩
    · rw [h1] at hk; simp at hk
    · rw [h1]
      simp only
      have he : e ∈ ht_entries m := hsub e (by rw [h2]; exact List.mem_cons_self _ _)
      have hk1 : (iter_rest m it1).length = k := by
        rw [h2, List.length_cons] at hk; omega
      have hsub1 : ∀ x ∈ iter_rest m it1, x ∈ ht_entries m := by
        intro x hx; exact hsub x (by rw [h2]; exact List.mem_cons_of_mem _ hx)
      rw [hn e he j (by omega), Res.bind_ok, ih it1 (i + 1) h3 hk1 hsub1 j (by omega),
        Res.bind_ok, h2]
      simp only [List.map_cons, object_body]

/-! ## Lexer: reading back printed text -/

theorem str_append_all_nil (t : string_t) : str_append_all t [] = t := rfl

theorem str_append_all_cons (t : string_t) (c : Char) (cs : List Char) :
    str_append_all t (c :: cs) = str_append_all (str_append_char t c) cs := rfl

theorem str_append_all_ptr (cs : List Char) (t : string_t) :
    (str_append_all t cs).char_ptr = t.char_ptr ++ cs := by
  induction cs generalizing t with
  | nil => simp [str_append_all_nil]
  | cons c cs ih => rw [str_append_all_cons, ih, str_append_char_ptr]; simp

theorem c_str_of_no_nul (s : List Char) (h : ∀ c ∈ s, 0 < c.toNat) : c_str s = s := by
  unfold c_str
  rw [List.takeWhile_eq_self_iff]
  intro c hc
  have := h c hc
  simp only [ne_eq, decide_not, Bool.not_eq_eq_eq_not, Bool.not_true, decide_eq_false_iff_not]
  intro h0
  rw [h0] at this
  exact absurd this (by decide)

theorem lexed_token_lexeme_str (ty : token_type_t) (cs : List Char)
    (h : ∀ c ∈ cs, 0 < c.toNat) : (lexed_token ty cs).lexeme_str = cs := by
  simp only [token_t.lexeme_str, lexed_token, str_append_all_ptr, str_alloc, List.nil_append]
  exact c_str_of_no_nul cs h

theorem ne_EOF_char_of_lt (c : Char) (h : c.toNat < 255) : c ≠ EOF_char := by
  intro he
  rw [he] at h
  exact absurd h (by decide)

theorem isdigit_ne_EOF_char (c : Char) (h : isdigit c = true) : c ≠ EOF_char := by
  intro he
  rw [he] at h
  exact absurd h (by decide)

theorem isalpha_ne_EOF_char (c : Char) (h : isalpha c = true) : c ≠ EOF_char := by
  intro he
  rw [he] at h
  exact absurd h (by decide)

theorem lex_string_plain (k : List Char) (hk : ∀ c ∈ k, c ≠ '"' ∧ c ≠ '\\')
    (he : ∀ c ∈ k, c ≠ EOF_char) :
    ∀ (t : string_t) (rest : List Char),
      lex_string t (k ++ '"' :: rest) = (str_append_all t k, rest) := by
  induction k with
  | nil =>
    intro t rest
    rw [List.nil_append, lex_string_cons, if_neg (by decide), if_pos rfl]
    rfl
  | cons c k ih =>
    intro t rest
    have hc := hk c (List.mem_cons_self _ _)
    rw [List.cons_append, lex_string_cons, if_neg (he c (List.mem_cons_self _ _)), if_neg hc.1,
      if_neg hc.2,
      ih (fun x hx => hk x (List.mem_cons_of_mem _ hx))
        (fun x hx => he x (List.mem_cons_of_mem _ hx)), str_append_all_cons]

theorem lex_run_cons (f : Char → Bool) (t : string_t) (c : Char) (s : List Char) :
    lex_run f t (c :: s) =
      if c = EOF_char then (t, s)
      else if f c then lex_run f (str_append_char t c) s else (t, c :: s) := by
  rw [lex_run]

theorem lex_run_nil (f : Char → Bool) (t : string_t) : lex_run f t [] = (t, []) := by
  rw [lex_run]

theorem lex_run_spec (f : Char → Bool) (hf : f EOF_char = false) (ds : List Char)
    (hds : ∀ c ∈ ds, f c = true)
    (rest : List Char) (hrest : ∀ c r, rest = c :: r → f c = false ∧ c ≠ EOF_char) :
    ∀ t : string_t, lex_run f t (ds ++ rest) = (str_append_all t ds, rest) := by
  induction ds with
  | nil =>
    intro t
    rw [List.nil_append, str_append_all_nil]
    cases rest with
    | nil => exact lex_run_nil f t
    | cons c r => rw [lex_run_cons, if_neg (hrest c r rfl).2, (hrest c r rfl).1]; rfl
  | cons d ds ih =>
    intro t
    have hd := hds d (List.mem_cons_self _ _)
    have hde : d ≠ EOF_char := by
      intro he
      rw [he, hf] at hd
      exact absurd hd (by decide)
    rw [List.cons_append, lex_run_cons, if_neg hde, hd]
    simp only [if_true]
    rw [ih (fun x hx => hds x (List.mem_cons_of_mem _ hx)), str_append_all_cons]

theorem get_next_token_space (s : List Char) : get_next_token (' ' :: s) = get_next_token s := by
  rw [get_next_token_skip (' ' :: s), get_next_token_skip s]
  rfl

theorem Lexes_space (s : List Char) (ts : List token_t) : Lexes (' ' :: s) ts ↔ Lexes s ts := by
  cases ts with
  | nil => rw [Lexes_nil, Lexes_nil, get_next_token_space]
  | cons t ts => rw [Lexes_cons, Lexes_cons, get_next_token_space]

theorem Lexes_single (c : Char) (ty : token_type_t) (s : List Char) (ts : List token_t)
    (hty : ty ≠ TOKEN_EOF)
    (hg : ∀ r, get_next_token (c :: r) = Res.ok (single_type_token ty, r))
    (h : Lexes s ts) : Lexes (c :: s) (single_type_token ty :: ts) := by
  rw [Lexes_cons]
  exact ⟨hty, s, hg s, h⟩

theorem Lexes_bracket_open (s : List Char) (ts : List token_t) (h : Lexes s ts) :
    Lexes ('{' :: s) (single_type_token BRACKET_OPEN :: ts) :=
  Lexes_single _ _ s ts (by decide) (fun r => by rw [get_next_token_cons _ _ (by decide) (by decide)]; rfl) h

theorem Lexes_bracket_close (s : List Char) (ts : List token_t) (h : Lexes s ts) :
    Lexes ('}' :: s) (single_type_token BRACKET_CLOSE :: ts) :=
  Lexes_single _ _ s ts (by decide) (fun r => by rw [get_next_token_cons _ _ (by decide) (by decide)]; rfl) h

theorem Lexes_array_open (s : List Char) (ts : List token_t) (h : Lexes s ts) :
    Lexes ('[' :: s) (single_type_token ARRAY_OPEN :: ts) :=
  Lexes_single _ _ s ts (by decide) (fun r => by rw [get_next_token_cons _ _ (by decide) (by decide)]; rfl) h

theorem Lexes_array_close (s : List Char) (ts : List token_t) (h : Lexes s ts) :
    Lexes (']' :: s) (single_type_token ARRAY_CLOSE :: ts) :=
  Lexes_single _ _ s ts (by decide) (fun r => by rw [get_next_token_cons _ _ (by decide) (by decide)]; rfl) h

theorem Lexes_colon (s : List Char) (ts : List token_t) (h : Lexes s ts) :
    Lexes (':' :: s) (single_type_token COLON :: ts) :=
  Lexes_single _ _ s ts (by decide) (fun r => by rw [get_next_token_cons _ _ (by decide) (by decide)]; rfl) h

theorem Lexes_comma (s : List Char) (ts : List token_t) (h : Lexes s ts) :
    Lexes (',' :: s) (single_type_token COMMA :: ts) :=
  Lexes_single _ _ s ts (by decide) (fun r => by rw [get_next_token_cons _ _ (by decide) (by decide)]; rfl) h

theorem Lexes_eof : Lexes [] [] := by
  rw [Lexes_nil]
  exact ⟨single_type_token TOKEN_EOF, [], rfl, rfl⟩

/-- A quoted text without quote, backslash and byte 255 lexes to its STRING
token. -/
theorem Lexes_string (k : List Char) (hk : ∀ c ∈ k, c ≠ '"' ∧ c ≠ '\\')
    (he : ∀ c ∈ k, c ≠ EOF_char) (s : List Char)
    (ts : List token_t) (h : Lexes s ts) :
    Lexes ('"' :: (k ++ '"' :: s)) (lexed_token STRING k :: ts) := by
  rw [Lexes_cons]
  refine ⟨by simp [lexed_token], s, ?_, h⟩
  rw [get_next_token_cons _ _ (by decide) (by decide)]
  simp only [show ¬ ('"' : Char) = '{' by decide, show ¬ ('"' : Char) = '}' by decide,
    show ¬ ('"' : Char) = ':' by decide, show ¬ ('"' : Char) = ',' by decide,
    show ¬ ('"' : Char) = '[' by decide, show ¬ ('"' : Char) = ']' by decide,
    if_false, if_true]
  rw [lex_string_plain k hk he]
  rfl

theorem isdigit_not_token_start (c : Char) (h : isdigit c = true) :
    isspace c = false ∧ c ≠ '{' ∧ c ≠ '}' ∧ c ≠ ':' ∧ c ≠ ',' ∧ c ≠ '[' ∧ c ≠ ']' ∧ c ≠ '"' := by
  refine ⟨?_, ?_, ?_, ?_, ?_, ?_, ?_, ?_⟩
  · simp only [isdigit, Bool.and_eq_true, decide_eq_true_eq] at h
    simp only [isspace, Bool.or_eq_false_iff, decide_eq_false_iff_not, Bool.and_eq_false_imp,
      decide_eq_true_eq]
    omega
  all_goals (rintro rfl; exact absurd h (by decide))

theorem isalpha_not_token_start (c : Char) (h : isalpha c = true) :
    isspace c = false ∧ c ≠ '{' ∧ c ≠ '}' ∧ c ≠ ':' ∧ c ≠ ',' ∧ c ≠ '[' ∧ c ≠ ']' ∧ c ≠ '"' ∧
    isdigit c = false := by
  refine ⟨?_, ?_, ?_, ?_, ?_, ?_, ?_, ?_, ?_⟩
  · simp only [isalpha, Bool.or_eq_true, Bool.and_eq_true, decide_eq_true_eq] at h
    simp only [isspace, Bool.or_eq_false_iff, decide_eq_false_iff_not, Bool.and_eq_false_imp,
      decide_eq_true_eq]
    omega
  · rintro rfl; exact absurd h (by decide)
  · rintro rfl; exact absurd h (by decide)
  · rintro rfl; exact absurd h (by decide)
  · rintro rfl; exact absurd h (by decide)
  · rintro rfl; exact absurd h (by decide)
  · rintro rfl; exact absurd h (by decide)
  · rintro rfl; exact absurd h (by decide)
  · simp only [isalpha, Bool.or_eq_true, Bool.and_eq_true, decide_eq_true_eq] at h
    simp only [isdigit, Bool.and_eq_false_imp, decide_eq_true_eq, decide_eq_false_iff_not]
    omega

/-- A run of digits followed by no digit and no byte 255 lexes to its NUMBER
token. -/
theorem Lexes_number (d : Char) (ds : List Char) (hds : ∀ c ∈ d :: ds, isdigit c = true)
    (s : List Char) (hs : ∀ c r, s = c :: r → isdigit c = false ∧ c ≠ EOF_char)
    (ts : List token_t)
    (h : Lexes s ts) : Lexes (d :: ds ++ s) (lexed_token NUMBER (d :: ds) :: ts) := by
  rw [Lexes_cons]
  refine ⟨by simp [lexed_token], s, ?_, h⟩
  have hd := hds d (List.mem_cons_self _ _)
  obtain ⟨h0, h1, h2, h3, h4, h5, h6, h7⟩ := isdigit_not_token_start d hd
  rw [List.cons_append, get_next_token_cons _ _ h0 (isdigit_ne_EOF_char d hd)]
  simp only [h1, h2, h3, h4, h5, h6, h7, hd, if_false, if_true]
  rw [lex_run_spec isdigit isdigit_EOF_char ds (fun x hx => hds x (List.mem_cons_of_mem _ hx))
    s hs]
  rfl

/-- A run of letters followed by no letter and no byte 255 lexes to its
KEYWORD token. -/
theorem Lexes_keyword (d : Char) (ds : List Char) (hds : ∀ c ∈ d :: ds, isalpha c = true)
    (s : List Char) (hs : ∀ c r, s = c :: r → isalpha c = false ∧ c ≠ EOF_char)
    (ts : List token_t)
    (h : Lexes s ts) : Lexes (d :: ds ++ s) (lexed_token KEYWORD (d :: ds) :: ts) := by
  rw [Lexes_cons]
  refine ⟨by simp [lexed_token], s, ?_, h⟩
  have hd := hds d (List.mem_cons_self _ _)
  obtain ⟨h0, h1, h2, h3, h4, h5, h6, h7, h8⟩ := isalpha_not_token_start d hd
  rw [List.cons_append, get_next_token_cons _ _ h0 (isalpha_ne_EOF_char d hd)]
  simp only [h1, h2, h3, h4, h5, h6, h7, h8, hd, if_false, if_true]
  rw [lex_run_spec isalpha isalpha_EOF_char ds (fun x hx => hds x (List.mem_cons_of_mem _ hx))
    s hs]
  rfl

/-! ## Numbers: `printf("%d")` and `atoi` -/

theorem digitChar_lt_ten (k : Nat) (h : k < 10) :
    isdigit (Nat.digitChar k) = true ∧ (Nat.digitChar k).toNat - 48 = k := by
  interval_cases k <;> exact ⟨by decide, by decide⟩

theorem toDigitsCore_spec (fuel : Nat) : ∀ (n : Nat) (ds : List Char), n < fuel →
    ∃ X, Nat.toDigitsCore 10 fuel n ds = X ++ ds ∧ X ≠ [] ∧
      (∀ c ∈ X, isdigit c = true) ∧
      X.foldl (fun acc c => acc * 10 + (c.toNat - 48)) 0 = n := by
  induction fuel with
  | zero => intro n ds h; omega
  | succ fuel ih =>
    intro n ds h
    have hd := digitChar_lt_ten (n % 10) (Nat.mod_lt _ (by decide))
    rw [Nat.toDigitsCore]
    by_cases h0 : n / 10 = 0
    · rw [if_pos h0]
      refine ⟨[Nat.digitChar (n % 10)], rfl, by simp, ?_, ?_⟩
      · intro c hc
        rw [List.mem_singleton] at hc
        rw [hc]; exact hd.1
      · simp only [List.foldl_cons, List.foldl_nil, Nat.zero_mul, Nat.zero_add]
        rw [hd.2]
        have : n < 10 := by omega
        omega
    · rw [if_neg h0]
      obtain ⟨X, hX, _, hdig, hval⟩ := ih (n / 10) (Nat.digitChar (n % 10) :: ds) (by omega)
      refine ⟨X ++ [Nat.digitChar (n % 10)], by rw [hX]; simp, by simp, ?_, ?_⟩
      · intro c hc
        rcases List.mem_append.1 hc with hc | hc
        · exact hdig c hc
        · rw [List.mem_singleton] at hc
          rw [hc]; exact hd.1
      · rw [List.foldl_append, hval]
        simp only [List.foldl_cons, List.foldl_nil]
        rw [hd.2]
        omega

/-- The decimal digits `printf` writes for a number that is not negative. -/
theorem print_int_spec (n : Int) (h : 0 ≤ n) :
    ∃ d ds, print_int n = d :: ds ∧ (∀ c ∈ d :: ds, isdigit c = true) ∧
      (d :: ds).foldl (fun acc c => acc * 10 + (c.toNat - 48)) 0 = n.toNat := by
  have h1 : print_int n = Nat.toDigits 10 n.toNat := by
    unfold print_int
    rw [if_neg (by omega)]
  obtain ⟨X, hX, hne, hdig, hval⟩ := toDigitsCore_spec (n.toNat + 1) n.toNat [] (by omega)
  rw [List.append_nil] at hX
  cases X with
  | nil => exact absurd rfl hne
  | cons d ds =>
    refine ⟨d, ds, ?_, hdig, hval⟩
    rw [h1]
    exact hX

theorem atoi_digits (X : List Char) (hX : ∀ c ∈ X, isdigit c = true) (n : Nat)
    (hval : X.foldl (fun acc c => acc * 10 + (c.toNat - 48)) 0 = n) (hn : n < 2 ^ 31) :
    atoi X = (n : Int) := by
  unfold atoi
  have h1 : X.takeWhile isdigit = X := by
    rw [List.takeWhile_eq_self_iff]; exact hX
  simp only [h1, hval]
  have h2 : min n (2 ^ 63 - 1) = n := by
    apply min_eq_left
    have : (2 : Nat) ^ 31 ≤ 2 ^ 63 - 1 := by norm_num
    omega
  have h3 : n % 2 ^ 32 = n := Nat.mod_eq_of_lt (by
    have : (2 : Nat) ^ 31 < 2 ^ 32 := by norm_num
    omega)
  rw [h2, h3, if_pos hn]

theorem atoi_range (s : List Char) : -(2 ^ 31) ≤ atoi s ∧ atoi s < 2 ^ 31 := by
  unfold atoi
  simp only
  generalize (min (List.foldl (fun acc c => acc * 10 + (c.toNat - 48)) 0
    (List.takeWhile isdigit s)) (2 ^ 63 - 1)) = n
  have hm : n % 2 ^ 32 < 2 ^ 32 := Nat.mod_lt _ (by norm_num)
  by_cases h : n % 2 ^ 32 < 2 ^ 31
  · rw [if_pos h]
    constructor
    · have : (0 : Int) ≤ ((n % 2 ^ 32 : Nat) : Int) := Int.natCast_nonneg _
      omega
    · exact_mod_cast h
  · rw [if_neg h]
    have h1 : ((n % 2 ^ 32 : Nat) : Int) < 2 ^ 32 := by exact_mod_cast hm
    have h2 : (2 : Int) ^ 31 ≤ ((n % 2 ^ 32 : Nat) : Int) := by
      have : 2 ^ 31 ≤ n % 2 ^ 32 := Nat.le_of_not_lt h
      exact_mod_cast this
    constructor <;> omega

theorem isdigit_toNat_pos (c : Char) (h : isdigit c = true) : 0 < c.toNat := by
  simp only [isdigit, Bool.and_eq_true, decide_eq_true_eq] at h
  omega

/-! ## Parser: what holds of every tree it builds -/

theorem Res.bind_eq_ok {α β : Type} (a : Res α) (f : α → Res β) (r : β) :
    a.bind f = Res.ok r ↔ ∃ x, a = Res.ok x ∧ f x = Res.ok r := by
  cases a with
  | ok x => simp [Res.bind]
  | fatal e => simp [Res.bind]
  | out_of_fuel => simp [Res.bind]

theorem ht_set_entries_subset (m : hash_map_t json_value_t) (k : List Char)
    (v : json_value_t) (hwf : ht_wf m) :
    ∀ e ∈ ht_entries (ht_set m k v), e ∈ ht_entries m ∨ e = ⟨k, v⟩ := by
  obtain ⟨_, hnew, hold⟩ := ht_set_wf m k v hwf
  intro e he
  by_cases hex : ∃ x ∈ ht_entries m, x.key = k
  · exact Or.inl ((hold hex).subset he)
  · have hfresh : ∀ x ∈ ht_entries m, x.key ≠ k := fun x hx hk => hex ⟨x, hx, hk⟩
    rcases List.mem_cons.1 ((hnew hfresh).subset he) with h | h
    · exact Or.inr h
    · exact Or.inl h

theorem ht_set_tree_wf (m : hash_map_t json_value_t) (k : List Char) (v : json_value_t)
    (hwf : ht_wf m) (hm : ∀ e ∈ ht_entries m, TreeWF e.value) (hv : TreeWF v) :
    ht_wf (ht_set m k v) ∧ ∀ e ∈ ht_entries (ht_set m k v), TreeWF e.value := by
  refine ⟨(ht_set_wf m k v hwf).1, fun e he => ?_⟩
  rcases ht_set_entries_subset m k v hwf e he with h | h
  · exact hm e h
  · rw [h]; exact hv

theorem parse_keyword_tree_wf (t : token_t) (v : json_value_t)
    (h : parse_keyword t = Res.ok v) : TreeWF v := by
  unfold parse_keyword at h
  cases hl : t.lexeme with
  | none => rw [hl] at h; simp at h
  | some l =>
    rw [hl] at h
    simp only at h
    split_ifs at h
    · simp only [Res.ok.injEq] at h; rw [← h]; exact TreeWF.tru
    · simp only [Res.ok.injEq] at h; rw [← h]; exact TreeWF.fls
    · simp only [Res.ok.injEq] at h; rw [← h]; exact TreeWF.null

/-- Every tree the parser returns is well-formed. -/
theorem parse_tree_wf (fuel : Nat) :
    (∀ p parent r, parse_single_object_member fuel p parent = Res.ok r →
      ht_wf parent → (∀ e ∈ ht_entries parent, TreeWF e.value) →
      ht_wf r.1 ∧ ∀ e ∈ ht_entries r.1, TreeWF e.value) ∧
    (∀ p parent r, parse_rest_object_members fuel p parent = Res.ok r →
      ht_wf parent → (∀ e ∈ ht_entries parent, TreeWF e.value) →
      ht_wf r.1 ∧ ∀ e ∈ ht_entries r.1, TreeWF e.value) ∧
    (∀ p parent r, parse_json_object_members fuel p parent = Res.ok r →
      ht_wf parent → (∀ e ∈ ht_entries parent, TreeWF e.value) →
      ht_wf r.1 ∧ ∀ e ∈ ht_entries r.1, TreeWF e.value) ∧
    (∀ p r, parse_json_object fuel p = Res.ok r → TreeWF r.1) ∧
    (∀ p parent r, parse_json_array_members fuel p parent = Res.ok r →
      (∀ x ∈ parent.array, TreeWF x) → ∀ x ∈ r.1.array, TreeWF x) ∧
    (∀ p r, parse_json_array fuel p = Res.ok r → TreeWF r.1) ∧
    (∀ p r, parse_value fuel p = Res.ok r → TreeWF r.1) := by
  induction fuel with
  | zero =>
    refine ⟨?_, ?_, ?_, ?_, ?_, ?_, ?_⟩
    · intro p parent r h; rw [parse_single_object_member_zero] at h; simp at h
    · intro p parent r h; rw [parse_rest_object_members_zero] at h; simp at h
    · intro p parent r h; rw [parse_json_object_members_zero] at h; simp at h
    · intro p r h; rw [parse_json_object_zero] at h; simp at h
    · intro p parent r h; rw [parse_json_array_members_zero] at h; simp at h
    · intro p r h; rw [parse_json_array_zero] at h; simp at h
    · intro p r h; rw [parse_value_zero] at h; simp at h
  | succ fuel ih =>
    obtain ⟨ih1, ih2, ih3, ih4, ih5, ih6, ih7⟩ := ih
    refine ⟨?_, ?_, ?_, ?_, ?_, ?_, ?_⟩
    · intro p parent r h hwf hm
      rw [parse_single_object_member_succ] at h
      split_ifs at h
      obtain ⟨p1, _, h⟩ := (Res.bind_eq_ok _ _ _).1 h
      obtain ⟨p2, _, h⟩ := (Res.bind_eq_ok _ _ _).1 h
      obtain ⟨r1, h1, h⟩ := (Res.bind_eq_ok _ _ _).1 h
      simp only [Res.ok.injEq] at h
      rw [← h]
      exact ht_set_tree_wf parent _ r1.1 hwf hm (ih7 p2 r1 h1)
    · intro p parent r h hwf hm
      rw [parse_rest_object_members_succ] at h
      split_ifs at h
      · obtain ⟨p1, _, h⟩ := (Res.bind_eq_ok _ _ _).1 h
        obtain ⟨r1, h1, h⟩ := (Res.bind_eq_ok _ _ _).1 h
        obtain ⟨hw1, hm1⟩ := ih1 p1 parent r1 h1 hwf hm
        exact ih2 r1.2 r1.1 r h hw1 hm1
      · simp only [Res.ok.injEq] at h
        rw [← h]; exact ⟨hwf, hm⟩
    · intro p parent r h hwf hm
      rw [parse_json_object_members_succ] at h
      obtain ⟨r1, h1, h⟩ := (Res.bind_eq_ok _ _ _).1 h
      obtain ⟨hw1, hm1⟩ := ih1 p parent r1 h1 hwf hm
      exact ih2 r1.2 r1.1 r h hw1 hm1
    · intro p r h
      rw [parse_json_object_succ] at h
      obtain ⟨p1, _, h⟩ := (Res.bind_eq_ok _ _ _).1 h
      have hwf0 : ht_wf (hash_map_alloc 4 : hash_map_t json_value_t) :=
        ht_wf_alloc 4 (by decide)
      have hm0 : ∀ e ∈ ht_entries (hash_map_alloc 4 : hash_map_t json_value_t),
          TreeWF e.value := by
        intro e he; rw [ht_entries_alloc] at he; simp at he
      split_ifs at h
      · obtain ⟨p2, _, h⟩ := (Res.bind_eq_ok _ _ _).1 h
        simp only [Res.ok.injEq] at h
        rw [← h]
        exact TreeWF.object _ hwf0 hm0
      · obtain ⟨r1, h1, h⟩ := (Res.bind_eq_ok _ _ _).1 h
        obtain ⟨p3, _, h⟩ := (Res.bind_eq_ok _ _ _).1 h
        simp only [Res.ok.injEq] at h
        rw [← h]
        obtain ⟨hw1, hm1⟩ := ih3 p1 _ r1 h1 hwf0 hm0
        exact TreeWF.object _ hw1 hm1
    · intro p parent r h hp
      rw [parse_json_array_members_succ] at h
      obtain ⟨r1, h1, h⟩ := (Res.bind_eq_ok _ _ _).1 h
      have hv := ih7 p r1 h1
      have happ : ∀ x ∈ (__json_value_array_append parent r1.1).1.array, TreeWF x := by
        intro x hx
        rw [array_append_array] at hx
        rcases List.mem_append.1 hx with hx | hx
        · exact hp x hx
        · rw [List.mem_singleton] at hx; rw [hx]; exact hv
      split_ifs at h
      · obtain ⟨p2, _, h⟩ := (Res.bind_eq_ok _ _ _).1 h
        exact ih5 p2 _ r h happ
      · simp only [Res.ok.injEq] at h
        rw [← h]; exact happ
    · intro p r h
      rw [parse_json_array_succ] at h
      obtain ⟨p1, _, h⟩ := (Res.bind_eq_ok _ _ _).1 h
      split_ifs at h
      · obtain ⟨p2, _, h⟩ := (Res.bind_eq_ok _ _ _).1 h
        simp only [Res.ok.injEq] at h
        rw [← h]
        exact TreeWF.array _ (by intro x hx; simp at hx)
      · obtain ⟨r1, h1, h⟩ := (Res.bind_eq_ok _ _ _).1 h
        obtain ⟨p3, _, h⟩ := (Res.bind_eq_ok _ _ _).1 h
        simp only [Res.ok.injEq] at h
        rw [← h]
        exact TreeWF.array _ (ih5 p1 _ r1 h1 (by intro x hx; simp at hx))
    · intro p r h
      rw [parse_value_succ] at h
      split_ifs at h
      · exact ih4 p r h
      · obtain ⟨v, hv, h⟩ := (Res.bind_eq_ok _ _ _).1 h
        obtain ⟨p1, _, h⟩ := (Res.bind_eq_ok _ _ _).1 h
        simp only [Res.ok.injEq] at h
        rw [← h]
        exact parse_keyword_tree_wf _ v hv
      · obtain ⟨p1, _, h⟩ := (Res.bind_eq_ok _ _ _).1 h
        simp only [Res.ok.injEq] at h
        rw [← h]
        exact TreeWF.number _ (atoi_range _).1 (atoi_range _).2
      · obtain ⟨p1, _, h⟩ := (Res.bind_eq_ok _ _ _).1 h
        simp only [Res.ok.injEq] at h
        rw [← h]
        exact TreeWF.string _
      · exact ih6 p r h

/-! ## Printing and parsing again -/

theorem comma_separated_two (e e2 : List token_t) (es : List (List token_t)) :
    comma_separated (e :: e2 :: es)
      = e ++ single_type_token COMMA :: comma_separated (e2 :: es) := by
  rw [comma_separated]

theorem comma_separated_one (e : List token_t) : comma_separated [e] = e := by
  rw [comma_separated]

theorem starts_clear_space (r : List Char) : starts_clear (' ' :: r) := by
  intro c r1 h
  simp only [List.cons.injEq] at h
  rw [← h.1]
  exact ⟨by decide, by decide⟩

theorem starts_clear_comma (r : List Char) : starts_clear (',' :: r) := by
  intro c r1 h
  simp only [List.cons.injEq] at h
  rw [← h.1]
  exact ⟨by decide, by decide⟩

theorem starts_clear_nil : starts_clear [] := by
  intro c r h
  simp at h

/-- The text of the array loop lexes to the element tokens joined by
commas. -/
theorem array_body_lex (len : Nat) (T : json_value_t → List Char)
    (K : json_value_t → List token_t) :
    ∀ (vs : List json_value_t) (i : Nat), (∀ x ∈ vs, LexesTo (T x) (K x)) →
      i + vs.length = len → ∀ tail tstail, Lexes (' ' :: tail) tstail →
      Lexes (array_body len (vs.map T) i ++ ' ' :: tail)
        (comma_separated (vs.map K) ++ tstail) := by
  intro vs
  induction vs with
  | nil =>
    intro i _ _ tail tstail h
    simpa [array_body, comma_separated] using h
  | cons x vs ih =>
    intro i hx hi tail tstail h
    simp only [List.length_cons] at hi
    cases vs with
    | nil =>
      have h1 : ¬ i ≠ len - 1 := by simp at hi; omega
      simp only [List.map_cons, List.map_nil, array_body, if_neg h1, List.append_nil,
        comma_separated_one]
      exact hx x (List.mem_cons_self _ _) (' ' :: tail) tstail (starts_clear_space _) h
    | cons y vs =>
      have h1 : i ≠ len - 1 := by simp at hi; omega
      have hrec := ih (i + 1) (fun z hz => hx z (List.mem_cons_of_mem _ hz))
        (by simp only [List.length_cons] at hi ⊢; omega) tail tstail h
      simp only [List.map_cons] at hrec ⊢
      rw [comma_separated_two]
      simp only [array_body, if_pos h1, List.append_assoc, List.cons_append, List.nil_append]
        at hrec ⊢
      refine hx x (List.mem_cons_self _ _) _ _ (starts_clear_comma _) ?_
      exact Lexes_comma _ _ ((Lexes_space _ _).2 hrec)

/-- The text of the object loop lexes to the member tokens joined by
commas. -/
theorem object_body_lex (len : Nat) (T : json_value_t → List Char)
    (K : json_value_t → List token_t) :
    ∀ (E : List (ht_entry_t json_value_t)) (i : Nat),
      (∀ e ∈ E, (∀ c ∈ e.key, c ≠ '"' ∧ c ≠ '\\' ∧ c ≠ EOF_char) ∧
        LexesTo (T e.value) (K e.value)) →
      i + E.length = len → ∀ tail tstail, Lexes (' ' :: tail) tstail →
      Lexes (object_body len (E.map fun e => (e.key, T e.value)) i ++ ' ' :: tail)
        (comma_separated (E.map fun e => member_tokens (lexed_token STRING e.key) (K e.value))
          ++ tstail) := by
  intro E
  induction E with
  | nil =>
    intro i _ _ tail tstail h
    simpa [object_body, comma_separated] using h
  | cons e E ih =>
    intro i he hi tail tstail h
    simp only [List.length_cons] at hi
    obtain ⟨hk, hlex⟩ := he e (List.mem_cons_self _ _)
    cases E with
    | nil =>
      have h1 : ¬ i + 1 ≠ len := by simp at hi; omega
      simp only [List.map_cons, List.map_nil, object_body, if_neg h1, List.append_nil,
        comma_separated_one, member_tokens, List.append_assoc, List.cons_append,
        List.nil_append]
      refine Lexes_string e.key (fun c hc => ⟨(hk c hc).1, (hk c hc).2.1⟩)
        (fun c hc => (hk c hc).2.2) _ _ (Lexes_colon _ _ ((Lexes_space _ _).2 ?_))
      exact hlex (' ' :: tail) tstail (starts_clear_space _) h
    | cons y E =>
      have h1 : i + 1 ≠ len := by simp at hi; omega
      have hrec := ih (i + 1) (fun z hz => he z (List.mem_cons_of_mem _ hz))
        (by simp only [List.length_cons] at hi ⊢; omega) tail tstail h
      simp only [List.map_cons] at hrec ⊢
      rw [comma_separated_two]
      simp only [object_body, if_pos h1, member_tokens, List.append_assoc, List.cons_append,
        List.nil_append] at hrec ⊢
      refine Lexes_string e.key (fun c hc => ⟨(hk c hc).1, (hk c hc).2.1⟩)
        (fun c hc => (hk c hc).2.2) _ _ (Lexes_colon _ _ ((Lexes_space _ _).2 ?_))
      refine hlex _ _ (starts_clear_comma _) ?_
      exact Lexes_comma _ _ hrec

/-! ### Values without children -/

theorem reads_back_number (n : Int) (h0 : 0 ≤ n) (h1 : n < 2 ^ 31) :
    ∃ text ts w, reads_back (JSON_NUMBER n) text ts w := by
  obtain ⟨d, ds, hp, hdig, hval⟩ := print_int_spec n h0
  have hstr : (lexed_token NUMBER (d :: ds)).lexeme_str = d :: ds :=
    lexed_token_lexeme_str NUMBER (d :: ds) (fun c hc => isdigit_toNat_pos c (hdig c hc))
  have hat : atoi (d :: ds) = n := by
    rw [atoi_digits (d :: ds) hdig n.toNat hval (by omega)]
    exact Int.toNat_of_nonneg h0
  refine ⟨print_int n, [lexed_token NUMBER (d :: ds)],
    JSON_NUMBER (atoi (lexed_token NUMBER (d :: ds)).lexeme_str), ?_, ?_, ?_, ?_⟩
  · refine ⟨1, fun fuel hf => ?_⟩
    obtain ⟨k, rfl⟩ : ∃ k, fuel = k + 1 := ⟨fuel - 1, by omega⟩
    beta_reduce
    rw [print_json_value_number]
  · intro rest tsr hc hr
    rw [hp]
    exact Lexes_number d ds hdig rest (fun c r h => ⟨(hc c r h).1, (hc c r h).2.2⟩) tsr hr
  · exact ParsesAs_number _ rfl
  · rw [hstr, hat]
    exact JEq.number n

theorem reads_back_string (s : string_t) (hs : clean_text s.char_ptr) :
    ∃ text ts w, reads_back (JSON_STRING s) text ts w := by
  have hnul : c_str s.char_ptr = s.char_ptr :=
    c_str_of_no_nul _ (fun c hc => (hs.2 c hc).1)
  refine ⟨['"'] ++ s.char_ptr ++ ['"'], [lexed_token STRING s.char_ptr],
    JSON_STRING ((lexed_token STRING s.char_ptr).lexeme.getD ⟨[], 0⟩), ?_, ?_, ?_, ?_⟩
  · refine ⟨1, fun fuel hf => ?_⟩
    obtain ⟨k, rfl⟩ : ∃ k, fuel = k + 1 := ⟨fuel - 1, by omega⟩
    beta_reduce
    rw [print_json_value_string, hnul]
  · intro rest tsr _ hr
    have := Lexes_string s.char_ptr (fun c hc => ⟨(hs.2 c hc).2.2.1, (hs.2 c hc).2.2.2⟩)
      (fun c hc => ne_EOF_char_of_lt c (by have := (hs.2 c hc).2.1; omega)) rest tsr hr
    simpa using this
  · exact ParsesAs_string _ rfl
  · refine JEq.string _ _ ?_
    simp [lexed_token, str_append_all_ptr, str_alloc]

theorem reads_back_keyword (v : json_value_t) (d : Char) (ds : List Char)
    (hal : ∀ c ∈ d :: ds, isalpha c = true) (hnul : ∀ c ∈ d :: ds, 0 < c.toNat)
    (hpr : ∀ fuel, print_json_value (fuel + 1) v = Res.ok (d :: ds))
    (hkw : ∀ t : token_t, t.lexeme_str = d :: ds → t.lexeme ≠ none → parse_keyword t = Res.ok v)
    (heq : JEq v v) :
    ∃ text ts w, reads_back v text ts w := by
  have hstr : (lexed_token KEYWORD (d :: ds)).lexeme_str = d :: ds :=
    lexed_token_lexeme_str KEYWORD (d :: ds) hnul
  refine ⟨d :: ds, [lexed_token KEYWORD (d :: ds)], v, ?_, ?_, ?_, heq⟩
  · refine ⟨1, fun fuel hf => ?_⟩
    obtain ⟨k, rfl⟩ : ∃ k, fuel = k + 1 := ⟨fuel - 1, by omega⟩
    exact hpr k
  · intro rest tsr hc hr
    exact Lexes_keyword d ds hal rest (fun c r h => ⟨(hc c r h).2.1, (hc c r h).2.2⟩) tsr hr
  · exact ParsesAs_keyword _ rfl v (hkw _ hstr (by simp [lexed_token]))

theorem parse_keyword_of_str (t : token_t) (h : t.lexeme ≠ none) :
    (t.lexeme_str = ['t', 'r', 'u', 'e'] → parse_keyword t = Res.ok (JSON_TRUE 1)) ∧
    (t.lexeme_str = ['f', 'a', 'l', 's', 'e'] → parse_keyword t = Res.ok (JSON_FALSE 0)) ∧
    (t.lexeme_str = ['n', 'u', 'l', 'l'] → parse_keyword t = Res.ok JSON_NULL) := by
  unfold parse_keyword token_t.lexeme_str
  cases hl : t.lexeme with
  | none => exact absurd hl h
  | some l =>
    simp only
    refine ⟨fun h1 => ?_, fun h1 => ?_, fun h1 => ?_⟩
    · rw [if_pos h1]
    · rw [h1]; rfl
    · rw [h1]; rfl

theorem reads_back_true : ∃ text ts w, reads_back (JSON_TRUE 1) text ts w :=
  reads_back_keyword (JSON_TRUE 1) 't' ['r', 'u', 'e'] (by decide) (by decide)
    (fun fuel => print_json_value_true fuel 1)
    (fun t h1 h2 => (parse_keyword_of_str t h2).1 h1) (JEq.tru 1)

theorem reads_back_false : ∃ text ts w, reads_back (JSON_FALSE 0) text ts w :=
  reads_back_keyword (JSON_FALSE 0) 'f' ['a', 'l', 's', 'e'] (by decide) (by decide)
    (fun fuel => print_json_value_false fuel 0)
    (fun t h1 h2 => (parse_keyword_of_str t h2).2.1 h1) (JEq.fls 0)

theorem reads_back_null : ∃ text ts w, reads_back JSON_NULL text ts w :=
  reads_back_keyword JSON_NULL 'n' ['u', 'l', 'l'] (by decide) (by decide)
    (fun fuel => print_json_value_null fuel)
    (fun t h1 h2 => (parse_keyword_of_str t h2).2.2 h1) JEq.null

/-! ### Arrays and objects -/

theorem reads_back_array (a : as_array_t json_value_t) (T : json_value_t → List Char)
    (K : json_value_t → List token_t) (W : json_value_t → json_value_t)
    (h : ∀ x ∈ a.array, reads_back x (T x) (K x) (W x)) :
    ∃ text ts w, reads_back (JSON_ARRAY a) text ts w := by
  obtain ⟨n, hn⟩ := Returns_uniform a.array (fun x fuel => print_json_value fuel x) T
    (fun x hx => (h x hx).1)
  refine ⟨['[', ' '] ++ array_body a.array.length (a.array.map T) 0 ++ [' ', ']'],
    array_tokens (a.array.map K),
    JSON_ARRAY (array_append_all ⟨[], 2⟩ (a.array.map W)), ?_, ?_, ?_, ?_⟩
  · refine ⟨n + a.array.length + 2, fun fuel hf => ?_⟩
    obtain ⟨j, rfl⟩ : ∃ j, fuel = j + 1 := ⟨fuel - 1, by omega⟩
    beta_reduce
    rw [print_json_value_array,
      print_array_loop_spec a T n (fun x hx fuel hf => hn x hx fuel hf) a.array.length 0
        (by omega) j (by omega), Res.bind_ok]
    rfl
  · intro rest tsr _ hr
    have hb := array_body_lex a.array.length T K a.array 0 (fun x hx => (h x hx).2.1)
      (by omega) (']' :: rest) (single_type_token ARRAY_CLOSE :: tsr)
      ((Lexes_space _ _).2 (Lexes_array_close rest tsr hr))
    simp only [array_tokens, List.append_assoc, List.cons_append, List.nil_append]
    exact Lexes_array_open _ _ ((Lexes_space _ _).2 hb)
  · have hp := ParsesAs_array (a.array.map fun x => (K x, W x)) (by
      intro ev hev
      obtain ⟨x, hx, rfl⟩ := List.mem_map.1 hev
      exact (h x hx).2.2.1)
    rw [List.map_map, List.map_map] at hp
    exact hp
  · refine JEq.array _ _ ?_ ?_
    · rw [array_append_all_array]
      simp
    · intro i x1 x2 h1 h2
      rw [array_append_all_array] at h2
      rw [List.get?_eq_getElem?] at h1 h2
      rw [List.nil_append, List.getElem?_map, h1] at h2
      have h3 : W x1 = x2 := Option.some.inj h2
      rw [← h3]
      exact (h x1 (List.mem_iff_getElem?.2 ⟨i, h1⟩)).2.2.2

theorem reads_back_object (m : hash_map_t json_value_t) (hwf : ht_wf m)
    (hlen : m.len = (ht_entries m).length) (hclean : ∀ e ∈ ht_entries m, clean_text e.key)
    (T : json_value_t → List Char) (K : json_value_t → List token_t)
    (W : json_value_t → json_value_t)
    (h : ∀ e ∈ ht_entries m, reads_back e.value (T e.value) (K e.value) (W e.value)) :
    ∃ text ts w, reads_back (JSON_OBJECT m) text ts w := by
  obtain ⟨n, hn⟩ := Returns_uniform (ht_entries m) (fun e fuel => print_json_value fuel e.value)
    (fun e => T e.value) (fun e he => (h e he).1)
  have hkey : ∀ e ∈ ht_entries m, (lexed_token STRING e.key).lexeme_str = e.key :=
    fun e he => lexed_token_lexeme_str STRING e.key (fun c hc => ((hclean e he).2 c hc).1)
  have hnd : ((ht_entries m).map fun e => e.key).Nodup := hwf.2.2.2
  have hset := ht_set_all_alloc_distinct 4 (by decide)
    ((ht_entries m).map fun e => (e.key, W e.value)) (by
      rw [List.map_map]
      exact hnd)
  obtain ⟨hwf2, _, _, hget, hnone⟩ := hset
  refine ⟨['{', ' '] ++ object_body m.len ((ht_entries m).map fun e => (e.key, T e.value)) 0
      ++ [' ', '}'],
    object_tokens ((ht_entries m).map fun e => (lexed_token STRING e.key, K e.value)),
    JSON_OBJECT (ht_set_all (hash_map_alloc 4) ((ht_entries m).map fun e => (e.key, W e.value))),
    ?_, ?_, ?_, ?_⟩
  · refine ⟨n + (ht_entries m).length + 2, fun fuel hf => ?_⟩
    obtain ⟨j, rfl⟩ : ∃ j, fuel = j + 1 := ⟨fuel - 1, by omega⟩
    beta_reduce
    rw [print_json_value_object,
      print_object_loop_spec m hwf.1 T n (fun e he fuel hf => hn e he fuel hf)
        (ht_entries m).length ht_get_iter 0 (iter_valid_start m)
        (by rw [iter_rest_start]) (by rw [iter_rest_start]; exact fun e he => he)
        j (by omega), Res.bind_ok, iter_rest_start]
  · intro rest tsr _ hr
    have hb := object_body_lex m.len T K (ht_entries m) 0
      (fun e he => ⟨fun c hc => ⟨((hclean e he).2 c hc).2.2.1, ((hclean e he).2 c hc).2.2.2,
          ne_EOF_char_of_lt c (by have := ((hclean e he).2 c hc).2.1; omega)⟩,
        (h e he).2.1⟩)
      (by omega) ('}' :: rest) (single_type_token BRACKET_CLOSE :: tsr)
      ((Lexes_space _ _).2 (Lexes_bracket_close rest tsr hr))
    simp only [object_tokens, List.append_assoc, List.cons_append, List.nil_append,
      List.map_map]
    exact Lexes_bracket_open _ _ ((Lexes_space _ _).2 hb)
  · have hp := ParsesAs_object
      ((ht_entries m).map fun e => (lexed_token STRING e.key, K e.value, W e.value)) (by
      intro x hx
      obtain ⟨e, _, rfl⟩ := List.mem_map.1 hx
      exact ⟨rfl, (h e ‹_›).2.2.1⟩)
    rw [List.map_map, List.map_map] at hp
    have hmap : (ht_entries m).map
          ((fun x : token_t × List token_t × json_value_t => (x.1.lexeme_str, x.2.2)) ∘
            fun e => (lexed_token STRING e.key, K e.value, W e.value))
        = (ht_entries m).map fun e => (e.key, W e.value) := by
      apply List.map_congr_left
      intro e he
      simp only [Function.comp, hkey e he]
    rw [hmap] at hp
    exact hp
  · refine JEq.object _ _ ?_ ?_
    · intro k
      by_cases hk : ∃ e ∈ ht_entries m, e.key = k
      · obtain ⟨e, he, rfl⟩ := hk
        have h1 : ht_get m e.key = some e.value := (ht_get_eq_some_iff m hwf _ _).2 he
        have h2 := hget (e.key, W e.value) (List.mem_map.2 ⟨e, he, rfl⟩)
        simp only at h2
        rw [h1, h2]
        rfl
      · have h1 : ht_get m k = none := (ht_get_eq_none_iff m hwf k).2
          (fun e he hek => hk ⟨e, he, hek⟩)
        have h2 := hnone k (by
          rw [List.map_map]
          intro hmem
          obtain ⟨e, he, hek⟩ := List.mem_map.1 hmem
          exact hk ⟨e, he, hek⟩)
        rw [h1, h2]
    · intro k x1 x2 h1 h2
      have he : (⟨k, x1⟩ : ht_entry_t json_value_t) ∈ ht_entries m :=
        (ht_get_eq_some_iff m hwf k x1).1 h1
      have h3 := hget (k, W x1) (List.mem_map.2 ⟨⟨k, x1⟩, he, rfl⟩)
      simp only at h3
      rw [h3] at h2
      simp only [Option.some.injEq] at h2
      rw [← h2]
      exact (h _ he).2.2.2

/-! ### The round trip -/

/-- On a stream that holds the tokens `ts`, `new_parser` returns a parser that
stands before `ts`. -/
theorem AtTokens_of_Lexes (s : List Char) (ts : List token_t) (h : Lexes s ts) :
    ∃ p, new_parser_t s = Res.ok p ∧ AtTokens p ts := by
  cases ts with
  | nil =>
    rw [Lexes_nil] at h
    obtain ⟨tok, s1, hg, ht⟩ := h
    refine ⟨⟨tok, s1, []⟩, ?_, ?_⟩
    · unfold new_parser_t; rw [hg]
    · rw [AtTokens_nil]; exact ht
  | cons t ts =>
    rw [Lexes_cons] at h
    obtain ⟨hne, s1, hg, hl⟩ := h
    refine ⟨⟨t, s1, []⟩, ?_, ?_⟩
    · unfold new_parser_t; rw [hg]
    · rw [AtTokens_cons]; exact ⟨rfl, hne, ⟨s, s1, hg⟩, hl⟩

/-- A well-formed tree of clean texts and numbers that are not negative prints
as a text that lexes and parses to an equal tree. -/
theorem good_reads_back (v : json_value_t) (hg : Good v) :
    TreeWF v → ∃ text ts w, reads_back v text ts w := by
  induction hg with
  | number n hn =>
    intro hw
    cases hw with
    | number _ _ h2 => exact reads_back_number n hn h2
  | string s hs => exact fun _ => reads_back_string s hs
  | tru b =>
    intro hw
    cases hw
    exact reads_back_true
  | fls b =>
    intro hw
    cases hw
    exact reads_back_false
  | null => exact fun _ => reads_back_null
  | array a _ ih =>
    intro hw
    cases hw with
    | array _ hwx =>
      have key : ∀ x, ∃ text ts w, x ∈ a.array → reads_back x text ts w := by
        intro x
        by_cases hx : x ∈ a.array
        · obtain ⟨t, k, w, h⟩ := ih x hx (hwx x hx)
          exact ⟨t, k, w, fun _ => h⟩
        · exact ⟨[], [], JSON_NULL, fun h => absurd h hx⟩
      choose T K W hTKW using key
      exact reads_back_array a T K W hTKW
  | object m hlen hclean _ ih =>
    intro hw
    cases hw with
    | object _ hwf hwx =>
      have key : ∀ x, ∃ text ts w,
          (∃ e ∈ ht_entries m, e.value = x) → reads_back x text ts w := by
        intro x
        by_cases hx : ∃ e ∈ ht_entries m, e.value = x
        · obtain ⟨e, he, rfl⟩ := hx
          obtain ⟨t, k, w, h⟩ := ih e he (hwx e he)
          exact ⟨t, k, w, fun _ => h⟩
        · exact ⟨[], [], JSON_NULL, fun h => absurd h hx⟩
      choose T K W hTKW using key
      exact reads_back_object m hwf hlen hclean T K W
        (fun e he => hTKW e.value ⟨e, he, rfl⟩)

/-- The round trip of `escaped_text`: it lexes to one STRING token and is a
sentence of the grammar, it parses to the string `\`, which prints as `"\"`,
and that text parses to the string `"`. -/
theorem escaped_text_round :
    Lexes escaped_text [⟨some ⟨['\\'], 2⟩, STRING⟩] ∧
    Derives Nonterminal.value [⟨some ⟨['\\'], 2⟩, STRING⟩] ∧
    new_parser_t escaped_text = Res.ok ⟨⟨some ⟨['\\'], 2⟩, STRING⟩, [], []⟩ ∧
    Returns (fun fuel => parse_value fuel ⟨⟨some ⟨['\\'], 2⟩, STRING⟩, [], []⟩)
      (JSON_STRING ⟨['\\'], 2⟩, ⟨single_type_token TOKEN_EOF, [], []⟩) ∧
    Returns (fun fuel => print_json_value fuel (JSON_STRING ⟨['\\'], 2⟩)) ['"', '\\', '"'] ∧
    new_parser_t ['"', '\\', '"'] = Res.ok ⟨⟨some ⟨['"'], 2⟩, STRING⟩, [], []⟩ ∧
    Returns (fun fuel => parse_value fuel ⟨⟨some ⟨['"'], 2⟩, STRING⟩, [], []⟩)
      (JSON_STRING ⟨['"'], 2⟩, ⟨single_type_token TOKEN_EOF, [], []⟩) := by
  refine ⟨?_, Derives.value_string _ rfl, by decide, ?_, ?_, by decide, ?_⟩
  · rw [Lexes_cons]
    exact ⟨by decide, [], by decide, Lexes_eof⟩
  · exact Returns_of_eq _ (parse_value_mono _) 1 _ rfl
  · exact Returns_of_eq _ (print_json_value_mono _) 1 _ rfl
  · exact Returns_of_eq _ (parse_value_mono _) 1 _ rfl

/-- C1 as stated fails: the well-formed text `"\\"` parses to the string `\`,
the printer writes it as `"\"` without escaping it, and that text parses to
the string `"`, which is not the first tree. -/
theorem parse_print_parse_counterexample :
    ¬ (∀ (t : List Char) (ts : List token_t) (p0 : parser_t) (v : json_value_t) (q : parser_t),
        Lexes t ts → Derives Nonterminal.value ts → new_parser_t t = Res.ok p0 →
        Returns (fun fuel => parse_value fuel p0) (v, q) →
        ∃ r p1 w q1, Returns (fun fuel => print_json_value fuel v) r ∧
          new_parser_t r = Res.ok p1 ∧ Returns (fun fuel => parse_value fuel p1) (w, q1) ∧
          JEq v w) := by
  intro h
  obtain ⟨h1, h2, h3, h4, h5, h6, h7⟩ := escaped_text_round
  obtain ⟨r, p1, w, q1, hr, hp1, hw, heq⟩ := h _ _ _ _ _ h1 h2 h3 h4
  have e1 := Returns_unique _ _ _ hr h5
  subst e1
  rw [h6] at hp1
  have e2 : p1 = ⟨⟨some ⟨['"'], 2⟩, STRING⟩, [], []⟩ := (Res.ok.inj hp1).symm
  subst e2
  have e3 := Returns_unique _ _ _ hw h7
  simp only [Prod.mk.injEq] at e3
  obtain ⟨e3, _⟩ := e3
  subst e3
  cases heq with
  | string _ _ hs => exact absurd hs (by decide)

/-- C1, amended: whenever parsing a text (`new_parser`, then `parse_value`)
returns a tree whose strings and object keys are non-empty texts of ASCII
characters other than NUL, the quote and the backslash, whose numbers are not
negative, and in whose maps `len` is the number of entries, then
`print_json_value` renders the tree, and parsing the rendered text again
succeeds and yields a tree structurally equal to the first tree, ignoring the
order of object keys. -/
theorem parse_print_parse (t : List Char) (p0 : parser_t) (fuel : Nat) (v : json_value_t)
    (q : parser_t) :
    new_parser_t t = Res.ok p0 → parse_value fuel p0 = Res.ok (v, q) → Good v →
    ∃ r, Returns (fun fuel => print_json_value fuel v) r ∧
      ∃ p1 w q1, new_parser_t r = Res.ok p1 ∧
        Returns (fun fuel => parse_value fuel p1) (w, q1) ∧ JEq v w := by
  intro _ h1 hg
  have hw : TreeWF v := (parse_tree_wf fuel).2.2.2.2.2.2 p0 (v, q) h1
  obtain ⟨text, ts, w, hpr, hlex, hpa, heq⟩ := good_reads_back v hg hw
  have hl := hlex [] [] starts_clear_nil Lexes_eof
  rw [List.append_nil, List.append_nil] at hl
  obtain ⟨p1, hp1, hat⟩ := AtTokens_of_Lexes text ts hl
  obtain ⟨q1, hq1, _⟩ := hpa p1 [] (by rw [List.append_nil]; exact hat)
  exact ⟨text, hpr, p1, w, q1, hp1, hq1, heq⟩

/-- Witness for C1: the text `{"a":[1,true]}` parses to the object with the
one key `a` that holds the array of 1 and TRUE; the tree prints, and the
printed text parses to an equal tree. -/
theorem parse_print_parse_witness :
    new_parser_t example_text = Res.ok example_text_state ∧
    parse_value 12 example_text_state
      = Res.ok (example_text_tree, ⟨single_type_token TOKEN_EOF, [], []⟩) ∧
    Good example_text_tree ∧
    ∃ r, Returns (fun fuel => print_json_value fuel example_text_tree) r ∧
      ∃ p1 w q1, new_parser_t r = Res.ok p1 ∧
        Returns (fun fuel => parse_value fuel p1) (w, q1) ∧ JEq example_text_tree w := by
  have h0 : new_parser_t example_text = Res.ok example_text_state := by decide
  have h1 : parse_value 12 example_text_state
      = Res.ok (example_text_tree, ⟨single_type_token TOKEN_EOF, [], []⟩) := rfl
  have he : ht_entries (ht_set (hash_map_alloc 4) ['a']
      (JSON_ARRAY ⟨[JSON_NUMBER 1, JSON_TRUE 1], 2⟩))
        = [⟨['a'], JSON_ARRAY ⟨[JSON_NUMBER 1, JSON_TRUE 1], 2⟩⟩] := rfl
  have hg : Good example_text_tree := by
    refine Good.object _ (by rw [he]; rfl) ?_ ?_
    · intro e hm
      rw [he, List.mem_singleton] at hm
      subst hm
      unfold clean_text
      decide
    · intro e hm
      rw [he, List.mem_singleton] at hm
      subst hm
      refine Good.array _ ?_
      intro x hx
      simp only [List.mem_cons, List.mem_singleton, List.not_mem_nil, or_false] at hx
      rcases hx with rfl | rfl
      · exact Good.number 1 (by decide)
      · exact Good.tru 1
  exact ⟨h0, h1, hg, parse_print_parse example_text example_text_state 12 example_text_tree
    ⟨single_type_token TOKEN_EOF, [], []⟩ h0 h1 hg⟩

/-! ## Hash map: load factor, frame and `len` -/

section hash_frame
variable {α : Type}

/-- On well-formed maps `ht_get` depends only on the set of stored entries. -/
theorem ht_get_congr (m1 m2 : hash_map_t α) (h1 : ht_wf m1) (h2 : ht_wf m2)
    (h : ∀ e, e ∈ ht_entries m1 ↔ e ∈ ht_entries m2) (k : List Char) :
    ht_get m1 k = ht_get m2 k := by
  cases hg : ht_get m2 k with
  | none =>
    rw [ht_get_eq_none_iff _ h2] at hg
    rw [ht_get_eq_none_iff _ h1]
    exact fun e he => hg e ((h e).1 he)
  | some x =>
    rw [ht_get_eq_some_iff _ h2] at hg
    rw [ht_get_eq_some_iff _ h1]
    exact (h _).2 hg

/-- A call of `ht_set` with the key `k` changes no entry with another key. -/
theorem ht_set_entries_other (m : hash_map_t α) (hwf : ht_wf m) (k : List Char) (v : α)
    (e : ht_entry_t α) (hek : e.key ≠ k) :
    e ∈ ht_entries (ht_set m k v) ↔ e ∈ ht_entries m := by
  obtain ⟨_, hnew, hold⟩ := ht_set_wf m k v hwf
  by_cases hex : ∃ x ∈ ht_entries m, x.key = k
  · exact (hold hex).mem_iff
  · have hfresh : ∀ x ∈ ht_entries m, x.key ≠ k := fun x hx hk => hex ⟨x, hx, hk⟩
    rw [(hnew hfresh).mem_iff, List.mem_cons]
    constructor
    · rintro (h | h)
      · rw [h] at hek; exact absurd rfl hek
      · exact h
    · exact Or.inr

theorem ht_get_set_other (m : hash_map_t α) (hwf : ht_wf m) (k k2 : List Char) (v : α)
    (hk : k2 ≠ k) : ht_get (ht_set m k v) k2 = ht_get m k2 := by
  have hwf2 := (ht_set_wf m k v hwf).1
  cases hg : ht_get m k2 with
  | none =>
    rw [ht_get_eq_none_iff _ hwf] at hg
    rw [ht_get_eq_none_iff _ hwf2]
    intro e he hek
    have : e.key ≠ k := by rw [hek]; exact hk
    exact hg e ((ht_set_entries_other m hwf k v e this).1 he) hek
  | some x =>
    rw [ht_get_eq_some_iff _ hwf] at hg
    rw [ht_get_eq_some_iff _ hwf2]
    exact (ht_set_entries_other m hwf k v ⟨k2, x⟩ hk).2 hg

/-- The load-factor invariant of the maps built by `ht_set`, for sizes at which
the conversions to `float` are exact. -/
theorem ht_set_all_load (c : Nat) (hc : 1 ≤ c) (hcb : c < 2 ^ 24) (ops : List (List Char × α))
    (hn : 8 * ops.length < 3 * 2 ^ 24) :
    1 ≤ (ht_set_all (hash_map_alloc c) ops).cap ∧
    4 * (ht_set_all (hash_map_alloc c) ops).len < 3 * (ht_set_all (hash_map_alloc c) ops).cap ∧
    (ht_set_all (hash_map_alloc c) ops).cap < 2 ^ 24 ∧
    (ht_set_all (hash_map_alloc c) ops).len = ops.length := by
  obtain ⟨k, hcap, hlt, hmin⟩ := ht_set_all_cap c hc hcb ops hn
  have hlen : (ht_set_all (hash_map_alloc c : hash_map_t α) ops).len = ops.length := by
    rw [ht_set_all_len]; simp [hash_map_alloc]
  rw [hcap, hlen]
  refine ⟨?_, hlt, ?_, rfl⟩
  · exact Nat.one_le_iff_ne_zero.2 (Nat.mul_ne_zero (by omega) (by positivity))
  · cases k with
    | zero => simpa using hcb
    | succ k0 =>
      have hnot : ¬ 4 * ops.length < 3 * (c * 2 ^ k0) := fun hlt0 => by
        have := hmin k0 hlt0
        omega
      have : c * 2 ^ (k0 + 1) = 2 * (c * 2 ^ k0) := by rw [pow_succ]; ring
      rw [this]
      omega

/-- In the second binade of `float` the conversion moves a value at most to
the next even number. -/
theorem float_of_int_le_even (j b : Nat) (hb : b % 2 = 0) (hj : j ≤ b) (hb2 : b < 2 ^ 25) :
    float_of_int j ≤ b := by
  by_cases hs : j < 2 ^ 24
  · rw [float_of_int_small j hs]; exact hj
  · have hu : float_ulp j = 2 := by
      unfold float_ulp
      rw [float_ulp_loop, if_neg (by omega), float_ulp_loop, if_pos (by omega)]
    unfold float_of_int
    simp only [hu]
    split_ifs <;> omega

/-- The state `ht_set` converts to `float` wrongly for C16: the capacity
2^25 + 6 is held as 2^25 + 8, and the test fails up to `len = 25165828`,
where `(len + 1) / cap` is above 0.75. -/
theorem load_factor_reached_late :
    (∀ j, j ≤ 25165828 → load_factor_reached j (2 ^ 25 + 6) = false) ∧
    3 * (2 ^ 25 + 6) ≤ 4 * (25165828 + 1) := by
  have hF : float_of_int (2 ^ 25 + 6) = 2 ^ 25 + 8 := by decide
  refine ⟨?_, by decide⟩
  intro j hj
  unfold load_factor_reached
  rw [hF, decide_eq_false_iff_not]
  have := float_of_int_le_even j 25165828 (by decide) hj (by decide)
  omega

/-- The keys stored after a sequence of `ht_set` calls are the keys stored
before and the keys set. -/
theorem ht_set_all_keys (ops : List (List Char × α)) : ∀ (m : hash_map_t α), ht_wf m →
    ∀ k, (∃ e ∈ ht_entries (ht_set_all m ops), e.key = k) ↔
      ((∃ e ∈ ht_entries m, e.key = k) ∨ k ∈ ops.map Prod.fst) := by
  induction ops with
  | nil => intro m _ k; simp [ht_set_all]
  | cons kv ops ih =>
    intro m hwf k
    obtain ⟨hwf2, hnew, hold⟩ := ht_set_wf m kv.1 kv.2 hwf
    have hstep : (∃ e ∈ ht_entries (ht_set m kv.1 kv.2), e.key = k) ↔
        ((∃ e ∈ ht_entries m, e.key = k) ∨ k = kv.1) := by
      by_cases hex : ∃ x ∈ ht_entries m, x.key = kv.1
      · constructor
        · rintro ⟨e, he, hek⟩
          exact Or.inl ⟨e, (hold hex).mem_iff.1 he, hek⟩
        · rintro (⟨e, he, hek⟩ | h)
          · exact ⟨e, (hold hex).mem_iff.2 he, hek⟩
          · obtain ⟨x, hx, hxk⟩ := hex
            exact ⟨x, (hold ⟨x, hx, hxk⟩).mem_iff.2 hx, by rw [hxk, h]⟩
      · have hfresh : ∀ x ∈ ht_entries m, x.key ≠ kv.1 := fun x hx hk => hex ⟨x, hx, hk⟩
        constructor
        · rintro ⟨e, he, hek⟩
          rcases List.mem_cons.1 ((hnew hfresh).mem_iff.1 he) with h | h
          · exact Or.inr (by rw [← hek, h])
          · exact Or.inl ⟨e, h, hek⟩
        · rintro (⟨e, he, hek⟩ | h)
          · exact ⟨e, (hnew hfresh).mem_iff.2 (List.mem_cons_of_mem _ he), hek⟩
          · exact ⟨⟨kv.1, kv.2⟩, (hnew hfresh).mem_iff.2 (List.mem_cons_self _ _), h.symm⟩
    have := ih (ht_set m kv.1 kv.2) hwf2 k
    rw [show ht_set_all m (kv :: ops) = ht_set_all (ht_set m kv.1 kv.2) ops from rfl, this, hstep,
      List.map_cons, List.mem_cons, or_assoc]

/-- The number of entries after a sequence of `ht_set` calls on a fresh map is
the number of distinct keys set. -/
theorem ht_set_all_entries_length (c : Nat) (hc : 1 ≤ c) (ops : List (List Char × α)) :
    (ht_entries (ht_set_all (hash_map_alloc c) ops)).length
      = (ops.map Prod.fst).dedup.length := by
  have hwf := ht_wf_set_all (hash_map_alloc c) ops (ht_wf_alloc c hc)
  have hnd : ((ht_entries (ht_set_all (hash_map_alloc c) ops)).map fun e => e.key).Nodup :=
    hwf.2.2.2
  have hmem : ∀ k, k ∈ ((ht_entries (ht_set_all (hash_map_alloc c) ops)).map fun e => e.key)
      ↔ k ∈ (ops.map Prod.fst).dedup := by
    intro k
    rw [List.mem_dedup, List.mem_map, ht_set_all_keys ops _ (ht_wf_alloc c hc) k,
      ht_entries_alloc]
    constructor
    · rintro (⟨e, he, _⟩ | h)
      · exact absurd he (List.not_mem_nil e)
      · exact h
    · exact Or.inr
  have hperm := (List.perm_ext_iff_of_nodup hnd (List.nodup_dedup _)).2 hmem
  rw [← hperm.length_eq, List.length_map]

end hash_frame

section hash_claims2
variable {α : Type}

/-- C16 as stated fails: on the capacity 2^25 + 6, which `float` holds as
2^25 + 8, the test of `ht_set` still fails at `len = 25165828`, so the call
number 25165829 (all with the same key) does not grow the table and leaves
`len / cap` above 0.75: `4 * len = 100663316` and `3 * cap = 100663314`. -/
theorem ht_set_load_factor_counterexample :
    ¬ (∀ (c : Nat), 1 ≤ c → ∀ (ops : List (List Char × Nat)) (k : List Char) (v : Nat),
        4 * (ht_set (ht_set_all (hash_map_alloc c) ops) k v).len
          < 3 * (ht_set (ht_set_all (hash_map_alloc c) ops) k v).cap ∧
        ((ht_set (ht_set_all (hash_map_alloc c) ops) k v).cap
            = (ht_set_all (hash_map_alloc c) ops).cap ∨
          (ht_set (ht_set_all (hash_map_alloc c) ops) k v).cap
            = 2 * (ht_set_all (hash_map_alloc c) ops).cap)) := by
  intro h
  obtain ⟨hno, _⟩ := load_factor_reached_late
  obtain ⟨h1, _⟩ := h (2 ^ 25 + 6) (by decide) (List.replicate 25165828 (['a'], 0)) ['a'] 0
  have hcap : (ht_set_all (hash_map_alloc (2 ^ 25 + 6))
      (List.replicate 25165828 ((['a'], 0) : List Char × Nat))).cap = 2 ^ 25 + 6 :=
    ht_set_all_no_growth _ _ (fun j hj => hno j (by
      rw [List.length_replicate] at hj
      omega))
  have hlen : (ht_set_all (hash_map_alloc (2 ^ 25 + 6))
      (List.replicate 25165828 ((['a'], 0) : List Char × Nat))).len = 25165828 := by
    rw [ht_set_all_len, List.length_replicate]
    rfl
  rw [ht_set_len, ht_set_cap, hlen, hcap, hno 25165828 (le_refl _)] at h1
  exact absurd h1 (by decide)

/-- C16, amended: for a map obtained from `hash_map_alloc c`, `1 ≤ c < 2^24`,
by any sequence of `ht_set` calls (keys distinct or repeated) of which there
are fewer than 6291456 in all (written `8 * (n + 1) < 3 * 2^24`), sizes at
which every `len` and `cap` that `ht_set` converts to `float` is below 2^24,
`len / cap < 0.75` (written `4 * len < 3 * cap`) holds after each further
`ht_set` call, and that call leaves `cap` or doubles it once. -/
theorem ht_set_load_factor (c : Nat) (hc : 1 ≤ c) (hcb : c < 2 ^ 24)
    (ops : List (List Char × α)) (hn : 8 * (ops.length + 1) < 3 * 2 ^ 24)
    (k : List Char) (v : α) :
    4 * (ht_set (ht_set_all (hash_map_alloc c) ops) k v).len
      < 3 * (ht_set (ht_set_all (hash_map_alloc c) ops) k v).cap ∧
    ((ht_set (ht_set_all (hash_map_alloc c) ops) k v).cap
        = (ht_set_all (hash_map_alloc c) ops).cap ∨
      (ht_set (ht_set_all (hash_map_alloc c) ops) k v).cap
        = 2 * (ht_set_all (hash_map_alloc c) ops).cap) := by
  obtain ⟨h1, h2, h3, h4⟩ := ht_set_all_load c hc hcb ops (by omega)
  have htest := load_factor_reached_small (ht_set_all (hash_map_alloc c) ops).len
    (ht_set_all (hash_map_alloc c) ops).cap (by omega) h3
  rw [ht_set_cap, ht_set_len]
  by_cases hg : 3 * (ht_set_all (hash_map_alloc c) ops).cap
      ≤ 4 * ((ht_set_all (hash_map_alloc c) ops).len + 1)
  · rw [if_pos (htest.2 hg)]
    refine ⟨?_, Or.inr (by omega)⟩
    rcases Nat.eq_zero_or_pos (ht_set_all (hash_map_alloc c) ops).len with h0 | h0
    · rw [h0]; omega
    · omega
  · rw [if_neg (fun ht => hg (htest.1 ht))]
    exact ⟨by omega, Or.inl rfl⟩

/-- Witness for C16 amended: the second `ht_set` of the same key into capacity
2 finds `(1 + 1) / 2 ≥ 0.75`, doubles the capacity to 4 and leaves `len = 2`. -/
theorem ht_set_load_factor_witness :
    (1 ≤ 1 ∧ 1 < 2 ^ 24 ∧ 8 * ([(['a'], (1 : Nat))].length + 1) < 3 * 2 ^ 24) ∧
    (ht_set (ht_set_all (hash_map_alloc 1) [(['a'], (1 : Nat))]) ['a'] 2).len = 2 ∧
    (ht_set (ht_set_all (hash_map_alloc 1) [(['a'], (1 : Nat))]) ['a'] 2).cap = 4 ∧
    4 * (ht_set (ht_set_all (hash_map_alloc 1) [(['a'], (1 : Nat))]) ['a'] 2).len
      < 3 * (ht_set (ht_set_all (hash_map_alloc 1) [(['a'], (1 : Nat))]) ['a'] 2).cap ∧
    ((ht_set (ht_set_all (hash_map_alloc 1) [(['a'], (1 : Nat))]) ['a'] 2).cap
        = (ht_set_all (hash_map_alloc 1) [(['a'], (1 : Nat))]).cap ∨
      (ht_set (ht_set_all (hash_map_alloc 1) [(['a'], (1 : Nat))]) ['a'] 2).cap
        = 2 * (ht_set_all (hash_map_alloc 1) [(['a'], (1 : Nat))]).cap) :=
  ⟨⟨by decide, by decide, by decide⟩, by decide, by decide,
    ht_set_load_factor 1 (by decide) (by decide) [(['a'], 1)] (by decide) ['a'] 2⟩

/-- C17: for a map obtained from `hash_map_alloc c`, `c ≥ 1`, by any sequence
of `ht_set` calls, and distinct keys `k` and `k2`, `ht_get k2` after
`ht_set k v` equals `ht_get k2` before it; and `__ht_grow`, which `ht_set`
runs when its test of `(len + 1) / cap ≥ 0.75` holds (for `len` and `cap`
below 2^24: when `3 * cap ≤ 4 * (len + 1)`), exactly doubles `cap` and changes
the result of `ht_get` for no key. -/
theorem ht_get_after_ht_set_other (c : Nat) (hc : 1 ≤ c) (ops : List (List Char × α))
    (k k2 : List Char) (v : α) (hk : k2 ≠ k) :
    ht_get (ht_set (ht_set_all (hash_map_alloc c) ops) k v) k2
      = ht_get (ht_set_all (hash_map_alloc c) ops) k2 ∧
    (load_factor_reached (ht_set_all (hash_map_alloc c) ops).len
        (ht_set_all (hash_map_alloc c) ops).cap = true →
      (ht_set (ht_set_all (hash_map_alloc c) ops) k v).cap
        = 2 * (ht_set_all (hash_map_alloc c) ops).cap) ∧
    ((ht_set_all (hash_map_alloc c) ops).len < 2 ^ 24 →
      (ht_set_all (hash_map_alloc c) ops).cap < 2 ^ 24 →
      3 * (ht_set_all (hash_map_alloc c) ops).cap
        ≤ 4 * ((ht_set_all (hash_map_alloc c) ops).len + 1) →
      (ht_set (ht_set_all (hash_map_alloc c) ops) k v).cap
        = 2 * (ht_set_all (hash_map_alloc c) ops).cap) ∧
    (__ht_grow (ht_set_all (hash_map_alloc c) ops)).cap
      = 2 * (ht_set_all (hash_map_alloc c) ops).cap ∧
    (∀ key, ht_get (__ht_grow (ht_set_all (hash_map_alloc c) ops)) key
      = ht_get (ht_set_all (hash_map_alloc c) ops) key) := by
  have hwf := ht_wf_set_all (hash_map_alloc c) ops (ht_wf_alloc c hc)
  refine ⟨ht_get_set_other _ hwf k k2 v hk, ?_, ?_, ?_, ?_⟩
  · intro hg
    rw [ht_set_cap, if_pos hg]
    omega
  · intro h1 h2 hg
    rw [ht_set_cap, if_pos ((load_factor_reached_small _ _ h1 h2).2 hg)]
    omega
  · rw [ht_grow_cap]
    omega
  · intro key
    obtain ⟨hwf2, hperm⟩ := ht_grow_wf _ hwf
    exact ht_get_congr _ _ hwf2 hwf (fun e => hperm.mem_iff) key

/-- Witness for C17: with `a` stored in capacity 2, setting `b` grows the table
to 4 buckets, and `ht_get a` returns the stored value before and after. -/
theorem ht_get_after_ht_set_other_witness :
    (1 ≤ 1 ∧ ['a'] ≠ ['b']) ∧
    ht_get (ht_set (ht_set_all (hash_map_alloc 1) [(['a'], (1 : Nat))]) ['b'] 2) ['a']
      = some 1 ∧
    ht_get (ht_set (ht_set_all (hash_map_alloc 1) [(['a'], (1 : Nat))]) ['b'] 2) ['a']
      = ht_get (ht_set_all (hash_map_alloc 1) [(['a'], (1 : Nat))]) ['a'] ∧
    (load_factor_reached (ht_set_all (hash_map_alloc 1) [(['a'], (1 : Nat))]).len
        (ht_set_all (hash_map_alloc 1) [(['a'], (1 : Nat))]).cap = true →
      (ht_set (ht_set_all (hash_map_alloc 1) [(['a'], (1 : Nat))]) ['b'] 2).cap
        = 2 * (ht_set_all (hash_map_alloc 1) [(['a'], (1 : Nat))]).cap) ∧
    ((ht_set_all (hash_map_alloc 1) [(['a'], (1 : Nat))]).len < 2 ^ 24 →
      (ht_set_all (hash_map_alloc 1) [(['a'], (1 : Nat))]).cap < 2 ^ 24 →
      3 * (ht_set_all (hash_map_alloc 1) [(['a'], (1 : Nat))]).cap
        ≤ 4 * ((ht_set_all (hash_map_alloc 1) [(['a'], (1 : Nat))]).len + 1) →
      (ht_set (ht_set_all (hash_map_alloc 1) [(['a'], (1 : Nat))]) ['b'] 2).cap
        = 2 * (ht_set_all (hash_map_alloc 1) [(['a'], (1 : Nat))]).cap) ∧
    (__ht_grow (ht_set_all (hash_map_alloc 1) [(['a'], (1 : Nat))])).cap
      = 2 * (ht_set_all (hash_map_alloc 1) [(['a'], (1 : Nat))]).cap ∧
    (∀ key, ht_get (__ht_grow (ht_set_all (hash_map_alloc 1) [(['a'], (1 : Nat))])) key
      = ht_get (ht_set_all (hash_map_alloc 1) [(['a'], (1 : Nat))]) key) :=
  ⟨⟨by decide, by decide⟩, by decide,
    ht_get_after_ht_set_other 1 (by decide) [(['a'], 1)] ['b'] ['a'] 2 (by decide)⟩

/-- C18: every call `ht_set k v` increases `len` by exactly 1, also when `k` is
already stored and the entries stay as they are; so after the calls `ops` on a
fresh map `len` is the number of calls, while the number of stored entries is
the number of distinct keys set. -/
theorem ht_set_len_counts_calls (c : Nat) (hc : 1 ≤ c) (ops : List (List Char × α)) :
    (∀ (ht : hash_map_t α) (k : List Char) (v : α), (ht_set ht k v).len = ht.len + 1) ∧
    (∀ (k : List Char) (v : α),
      (∃ e ∈ ht_entries (ht_set_all (hash_map_alloc c) ops), e.key = k) →
      (ht_entries (ht_set (ht_set_all (hash_map_alloc c) ops) k v)).Perm
        (ht_entries (ht_set_all (hash_map_alloc c) ops))) ∧
    (ht_set_all (hash_map_alloc c) ops).len = ops.length ∧
    (ht_entries (ht_set_all (hash_map_alloc c) ops)).length
      = (ops.map Prod.fst).dedup.length := by
  refine ⟨ht_set_len, ?_, ?_, ht_set_all_entries_length c hc ops⟩
  · intro k v hex
    exact (ht_set_wf _ k v (ht_wf_set_all (hash_map_alloc c) ops (ht_wf_alloc c hc))).2.2 hex
  · rw [ht_set_all_len]
    simp [hash_map_alloc]

/-- Witness for C18: three calls with the keys `a`, `b`, `a` into capacity 4
give `len = 3` and two entries. -/
theorem ht_set_len_counts_calls_witness :
    1 ≤ 4 ∧
    (ht_set_all (hash_map_alloc 4) [(['a'], (1 : Nat)), (['b'], 2), (['a'], 3)]).len = 3 ∧
    (ht_entries (ht_set_all (hash_map_alloc 4)
      [(['a'], (1 : Nat)), (['b'], 2), (['a'], 3)])).length = 2 ∧
    (ht_entries (ht_set_all (hash_map_alloc 4)
      [(['a'], (1 : Nat)), (['b'], 2), (['a'], 3)])).length
      = ([(['a'], (1 : Nat)), (['b'], 2), (['a'], 3)].map Prod.fst).dedup.length :=
  ⟨by decide, by decide, by decide,
    (ht_set_len_counts_calls 4 (by decide) [(['a'], 1), (['b'], 2), (['a'], 3)]).2.2.2⟩

end hash_claims2

/-! ## Numbers and keywords -/

theorem lex_run_ptr (f : Char → Bool) (hf : f EOF_char = false) (s : List Char) :
    ∀ t : string_t, (lex_run f t s).1.char_ptr = t.char_ptr ++ s.takeWhile f := by
  induction s with
  | nil => intro t; rw [lex_run_nil]; simp
  | cons c s ih =>
    intro t
    rw [lex_run_cons]
    by_cases he : c = EOF_char
    · rw [if_pos he, List.takeWhile_cons, he, hf]
      simp
    · rw [if_neg he]
      by_cases h : f c = true
      · rw [if_pos h, ih, str_append_char_ptr, List.takeWhile_cons, if_pos h]
        simp
      · rw [if_neg h, List.takeWhile_cons, if_neg h]
        simp

theorem isalpha_toNat_pos (c : Char) (h : isalpha c = true) : 0 < c.toNat := by
  simp only [isalpha, Bool.or_eq_true, Bool.and_eq_true, decide_eq_true_eq] at h
  omega

/-- The lexeme of a KEYWORD token the lexer returns is a non-empty run of
letters. -/
theorem get_next_token_keyword_lexeme (s s1 : List Char) (t : token_t)
    (h : get_next_token s = Res.ok (t, s1)) (ht : t.type = KEYWORD) :
    ∃ l, t.lexeme = some l ∧ l.char_ptr ≠ [] ∧ ∀ c ∈ l.char_ptr, isalpha c = true := by
  rw [get_next_token_skip] at h
  cases hd : s.dropWhile isspace with
  | nil =>
    rw [hd] at h
    simp only [get_next_token, Res.ok.injEq, Prod.mk.injEq] at h
    rw [← h.1] at ht
    exact absurd ht (by decide)
  | cons c r =>
    rw [hd] at h
    have hsp : isspace c = false := by
      have := List.head_dropWhile_not isspace s (by rw [hd]; simp)
      simpa [hd] using this
    by_cases hce : c = EOF_char
    · rw [hce, get_next_token_EOF_char] at h
      simp only [Res.ok.injEq, Prod.mk.injEq] at h
      rw [← h.1] at ht
      exact absurd ht (by decide)
    rw [get_next_token_cons c r hsp hce] at h
    split_ifs at h with a1 a2 a3 a4 a5 a6 a7 a8 a9 <;>
      simp only [Res.ok.injEq, Prod.mk.injEq, reduceCtorEq] at h
    all_goals first
      | (rw [← h.1] at ht; simp [single_type_token] at ht; done)
      | skip
    refine ⟨_, by rw [← h.1], ?_, ?_⟩
    · rw [lex_run_ptr _ isalpha_EOF_char, str_append_char_ptr]
      simp [str_alloc]
    · intro x hx
      rw [lex_run_ptr _ isalpha_EOF_char, str_append_char_ptr] at hx
      simp only [str_alloc, List.nil_append, List.singleton_append, List.mem_cons] at hx
      rcases hx with rfl | hx
      · exact a9
      · exact (List.mem_takeWhile_imp hx)

/-- C12: for every KEYWORD token the lexer returns, `parse_keyword` returns
JSON_TRUE with the payload 1 if the lexeme is exactly `true`, JSON_FALSE with
the payload 0 if it is exactly `false`, JSON_NULL if it is exactly `null`, and
for every other lexeme it ends in the fatal invalid-keyword error and returns
no value. -/
theorem parse_keyword_of_lexeme (s s1 : List Char) (t : token_t)
    (h : get_next_token s = Res.ok (t, s1)) (ht : t.type = KEYWORD) :
    ∃ l, t.lexeme = some l ∧
      (l.char_ptr = ['t', 'r', 'u', 'e'] → parse_keyword t = Res.ok (JSON_TRUE 1)) ∧
      (l.char_ptr = ['f', 'a', 'l', 's', 'e'] → parse_keyword t = Res.ok (JSON_FALSE 0)) ∧
      (l.char_ptr = ['n', 'u', 'l', 'l'] → parse_keyword t = Res.ok JSON_NULL) ∧
      (l.char_ptr ≠ ['t', 'r', 'u', 'e'] → l.char_ptr ≠ ['f', 'a', 'l', 's', 'e'] →
        l.char_ptr ≠ ['n', 'u', 'l', 'l'] →
        parse_keyword t = Res.fatal (Fatal.invalid_keyword l.char_ptr)) := by
  obtain ⟨l, hl, _, hal⟩ := get_next_token_keyword_lexeme s s1 t h ht
  have hc : c_str l.char_ptr = l.char_ptr :=
    c_str_of_no_nul _ (fun c hc => isalpha_toNat_pos c (hal c hc))
  refine ⟨l, hl, ?_, ?_, ?_, ?_⟩
  · intro h1
    unfold parse_keyword
    rw [hl]
    simp only [hc]
    rw [if_pos h1]
  · intro h1
    unfold parse_keyword
    rw [hl]
    simp only [hc]
    rw [h1]
    rfl
  · intro h1
    unfold parse_keyword
    rw [hl]
    simp only [hc]
    rw [h1]
    rfl
  · intro h1 h2 h3
    unfold parse_keyword
    rw [hl]
    simp only [hc]
    rw [if_neg h1, if_neg h2, if_neg h3]

/-- Witness for C12: the lexer turns `truee` into a KEYWORD token, on which
`parse_keyword` ends in the invalid-keyword error; on the token of `true` it
returns JSON_TRUE with the payload 1. -/
theorem parse_keyword_of_lexeme_witness :
    (get_next_token ['t', 'r', 'u', 'e', 'e']
        = Res.ok (keyword_token ['t', 'r', 'u', 'e', 'e'], []) ∧
      (keyword_token ['t', 'r', 'u', 'e', 'e']).type = KEYWORD) ∧
    parse_keyword (keyword_token ['t', 'r', 'u', 'e', 'e'])
      = Res.fatal (Fatal.invalid_keyword ['t', 'r', 'u', 'e', 'e']) ∧
    parse_keyword (keyword_token ['t', 'r', 'u', 'e']) = Res.ok (JSON_TRUE 1) ∧
    ∃ l, (keyword_token ['t', 'r', 'u', 'e', 'e']).lexeme = some l ∧
      (l.char_ptr = ['t', 'r', 'u', 'e'] →
        parse_keyword (keyword_token ['t', 'r', 'u', 'e', 'e']) = Res.ok (JSON_TRUE 1)) ∧
      (l.char_ptr = ['f', 'a', 'l', 's', 'e'] →
        parse_keyword (keyword_token ['t', 'r', 'u', 'e', 'e']) = Res.ok (JSON_FALSE 0)) ∧
      (l.char_ptr = ['n', 'u', 'l', 'l'] →
        parse_keyword (keyword_token ['t', 'r', 'u', 'e', 'e']) = Res.ok JSON_NULL) ∧
      (l.char_ptr ≠ ['t', 'r', 'u', 'e'] → l.char_ptr ≠ ['f', 'a', 'l', 's', 'e'] →
        l.char_ptr ≠ ['n', 'u', 'l', 'l'] →
        parse_keyword (keyword_token ['t', 'r', 'u', 'e', 'e'])
          = Res.fatal (Fatal.invalid_keyword l.char_ptr)) :=
  ⟨⟨by decide, by decide⟩, rfl, rfl,
    parse_keyword_of_lexeme ['t', 'r', 'u', 'e', 'e'] [] (keyword_token ['t', 'r', 'u', 'e', 'e'])
      (by decide) (by decide)⟩

/-! ## Parser: completeness on the sentences of the grammar -/

/-- A token without lexeme that the lexer returns is the token
`single_type_token` builds for its type. -/
theorem lexer_token_single (t : token_t) (h : lexer_token t) (ty : token_type_t)
    (hty : t.type = ty) (h1 : ty ≠ STRING) (h2 : ty ≠ NUMBER) (h3 : ty ≠ KEYWORD) :
    t = single_type_token ty := by
  obtain ⟨s, s1, hg⟩ := h
  rcases get_next_token_shape s s1 t hg with ⟨hl, _⟩ | ⟨l, _, hl⟩
  · cases t with
    | mk lexeme type =>
      simp only at hl hty
      rw [hl, hty]
      rfl
  · rw [hty] at hl
    rcases hl with hl | hl | hl
    · exact absurd hl h1
    · exact absurd hl h2
    · exact absurd hl h3

theorem Lexes_lexer_token (ts : List token_t) : ∀ s, Lexes s ts → ∀ t ∈ ts, lexer_token t := by
  induction ts with
  | nil => intro s _ t ht; exact absurd ht (List.not_mem_nil t)
  | cons x xs ih =>
    intro s h t ht
    rw [Lexes_cons] at h
    obtain ⟨_, s1, hg, hl⟩ := h
    rcases List.mem_cons.1 ht with rfl | ht
    · exact ⟨s, s1, hg⟩
    · exact ih s1 hl t ht

theorem AtTokens_lexer_token (p : parser_t) (ts : List token_t) (h : AtTokens p ts) :
    ∀ t ∈ ts, lexer_token t := by
  cases ts with
  | nil => intro t ht; exact absurd ht (List.not_mem_nil t)
  | cons x xs =>
    rw [AtTokens_cons] at h
    obtain ⟨_, _, hx, hl⟩ := h
    intro t ht
    rcases List.mem_cons.1 ht with rfl | ht
    · exact hx
    · exact Lexes_lexer_token xs _ hl t ht

theorem lexeme_ne_none_of_str (t : token_t) (c : Char) (cs : List Char)
    (h : t.lexeme_str = c :: cs) : t.lexeme ≠ none := by
  intro hn
  simp [token_t.lexeme_str, hn] at h

theorem production_tag_object (t : token_t) (h : t.type = BRACKET_OPEN) :
    production_tag t = some json_type_t.JSON_OBJECT := by
  unfold production_tag; rw [h]

theorem production_tag_array (t : token_t) (h : t.type = ARRAY_OPEN) :
    production_tag t = some json_type_t.JSON_ARRAY := by
  unfold production_tag; rw [h]

theorem production_tag_string (t : token_t) (h : t.type = STRING) :
    production_tag t = some json_type_t.JSON_STRING := by
  unfold production_tag; rw [h]

theorem production_tag_number (t : token_t) (h : t.type = NUMBER) :
    production_tag t = some json_type_t.JSON_NUMBER := by
  unfold production_tag; rw [h]

theorem production_tag_true (t : token_t) (h : t.type = KEYWORD)
    (hs : t.lexeme_str = ['t', 'r', 'u', 'e']) :
    production_tag t = some json_type_t.JSON_TRUE := by
  unfold production_tag; rw [h]; simp only; rw [if_pos hs]

theorem production_tag_false (t : token_t) (h : t.type = KEYWORD)
    (hs : t.lexeme_str = ['f', 'a', 'l', 's', 'e']) :
    production_tag t = some json_type_t.JSON_FALSE := by
  unfold production_tag; rw [h]; simp only; rw [hs]; rfl

theorem production_tag_null (t : token_t) (h : t.type = KEYWORD)
    (hs : t.lexeme_str = ['n', 'u', 'l', 'l']) :
    production_tag t = some json_type_t.JSON_NULL := by
  unfold production_tag; rw [h]; simp only; rw [hs]; rfl

/-- Every sentence of the grammar made of lexer tokens is parsed as its
nonterminal says. -/
theorem Derives_Parses (nt : Nonterminal) (e : List token_t) (h : Derives nt e) :
    (∀ t ∈ e, lexer_token t) → Parses nt e := by
  induction h with
  | value_object e hd ih =>
    intro hl
    obtain ⟨m, hm⟩ := ih hl
    obtain ⟨t, rest, he, _, ht, _⟩ := Derives_head _ _ hd
    refine ⟨JSON_OBJECT m, hm, ?_⟩
    rw [he]
    exact production_tag_object t (ht rfl)
  | value_array e hd ih =>
    intro hl
    obtain ⟨a, ha⟩ := ih hl
    obtain ⟨t, rest, he, _, _, ht⟩ := Derives_head _ _ hd
    refine ⟨JSON_ARRAY a, ha, ?_⟩
    rw [he]
    exact production_tag_array t (ht rfl)
  | value_string t ht =>
    intro _
    exact ⟨_, ParsesAs_string t ht, production_tag_string t ht⟩
  | value_number t ht =>
    intro _
    exact ⟨_, ParsesAs_number t ht, production_tag_number t ht⟩
  | value_true t ht hs =>
    intro _
    exact ⟨JSON_TRUE 1,
      ParsesAs_keyword t ht _ ((parse_keyword_of_str t (lexeme_ne_none_of_str t _ _ hs)).1 hs),
      production_tag_true t ht hs⟩
  | value_false t ht hs =>
    intro _
    exact ⟨JSON_FALSE 0,
      ParsesAs_keyword t ht _ ((parse_keyword_of_str t (lexeme_ne_none_of_str t _ _ hs)).2.1 hs),
      production_tag_false t ht hs⟩
  | value_null t ht hs =>
    intro _
    exact ⟨JSON_NULL,
      ParsesAs_keyword t ht _ ((parse_keyword_of_str t (lexeme_ne_none_of_str t _ _ hs)).2.2 hs),
      production_tag_null t ht hs⟩
  | object_empty o c ho hc =>
    intro hl
    have h1 := lexer_token_single o (hl o (by simp)) _ ho (by decide) (by decide) (by decide)
    have h2 := lexer_token_single c (hl c (by simp)) _ hc (by decide) (by decide) (by decide)
    have hp := ParsesAs_object [] (fun m hm => absurd hm (List.not_mem_nil m))
    rw [h1, h2]
    exact ⟨_, hp⟩
  | object_members o c ms ho _ hc ih =>
    intro hl
    have h1 := lexer_token_single o (hl o (by simp)) _ ho (by decide) (by decide) (by decide)
    have h2 := lexer_token_single c (hl c (by simp)) _ hc (by decide) (by decide) (by decide)
    obtain ⟨L, hL, _, hall⟩ := ih (fun t ht => hl t (by simp [ht]))
    have hp := ParsesAs_object L hall
    have he : object_tokens (L.map fun m => (m.1, m.2.1)) = o :: (ms ++ [c]) := by
      rw [h1, h2, hL]
      unfold object_tokens
      rw [List.map_map]
      rfl
    rw [he] at hp
    exact ⟨_, hp⟩
  | member k col v hk hcol _ ih =>
    intro hl
    have h1 := lexer_token_single col (hl col (by simp)) _ hcol (by decide) (by decide)
      (by decide)
    obtain ⟨x, hx, _⟩ := ih (fun t ht => hl t (by simp [ht]))
    exact ⟨k, v, x, by rw [h1]; rfl, hk, hx⟩
  | members_one m _ ih =>
    intro hl
    obtain ⟨k, ve, v, he, hk, hp⟩ := ih hl
    refine ⟨[(k, ve, v)], ?_, by simp, ?_⟩
    · rw [he, List.map_singleton, comma_separated_one]
    · intro m hm
      rw [List.mem_singleton] at hm
      subst hm
      exact ⟨hk, hp⟩
  | members_more m comma ms _ hcomma _ ih1 ih2 =>
    intro hl
    have h1 := lexer_token_single comma (hl comma (by simp)) _ hcomma (by decide) (by decide)
      (by decide)
    obtain ⟨k, ve, v, he, hk, hp⟩ := ih1 (fun t ht => hl t (by simp [ht]))
    obtain ⟨L, hL, hne, hall⟩ := ih2 (fun t ht => hl t (by simp [ht]))
    refine ⟨(k, ve, v) :: L, ?_, by simp, ?_⟩
    · cases L with
      | nil => exact absurd rfl hne
      | cons y ys =>
        subst he h1 hL
        exact (comma_separated_two _ _ _).symm
    · intro x hx
      rcases List.mem_cons.1 hx with rfl | hx
      · exact ⟨hk, hp⟩
      · exact hall x hx
  | array_empty o c ho hc =>
    intro hl
    have h1 := lexer_token_single o (hl o (by simp)) _ ho (by decide) (by decide) (by decide)
    have h2 := lexer_token_single c (hl c (by simp)) _ hc (by decide) (by decide) (by decide)
    have hp := ParsesAs_array [] (fun m hm => absurd hm (List.not_mem_nil m))
    rw [h1, h2]
    exact ⟨_, hp⟩
  | array_elements o c es ho _ hc ih =>
    intro hl
    have h1 := lexer_token_single o (hl o (by simp)) _ ho (by decide) (by decide) (by decide)
    have h2 := lexer_token_single c (hl c (by simp)) _ hc (by decide) (by decide) (by decide)
    obtain ⟨L, hL, _, hall⟩ := ih (fun t ht => hl t (by simp [ht]))
    have hp := ParsesAs_array L hall
    have he : array_tokens (L.map Prod.fst) = o :: (es ++ [c]) := by
      rw [h1, h2, hL]
      rfl
    rw [he] at hp
    exact ⟨_, hp⟩
  | elements_one v _ ih =>
    intro hl
    obtain ⟨x, hx, _⟩ := ih hl
    refine ⟨[(v, x)], ?_, by simp, ?_⟩
    · rw [List.map_singleton, comma_separated_one]
    · intro m hm
      rw [List.mem_singleton] at hm
      subst hm
      exact hx
  | elements_more v comma es _ hcomma _ ih1 ih2 =>
    intro hl
    have h1 := lexer_token_single comma (hl comma (by simp)) _ hcomma (by decide) (by decide)
      (by decide)
    obtain ⟨x, hx, _⟩ := ih1 (fun t ht => hl t (by simp [ht]))
    obtain ⟨L, hL, hne, hall⟩ := ih2 (fun t ht => hl t (by simp [ht]))
    refine ⟨(v, x) :: L, ?_, by simp, ?_⟩
    · cases L with
      | nil => exact absurd rfl hne
      | cons y ys =>
        subst h1 hL
        exact (comma_separated_two _ _ _).symm
    · intro m hm
      rcases List.mem_cons.1 hm with rfl | hm
      · exact hx
      · exact hall m hm

/-- C13: for every token sequence `s` derivable from `value` (keywords
restricted to `true`, `false`, `null`) and followed by end-of-stream,
`parse_value` returns, leaves the parser with the EOF token as lookahead
behind the tokens of `s`, and the tree it returns has the tag of the top
production of `s`. -/
theorem parse_value_derivable (p : parser_t) (s : List token_t) (h : AtTokens p s)
    (hd : Derives Nonterminal.value s) :
    ∃ v q, Returns (fun fuel => parse_value fuel p) (v, q) ∧ AtTokens q [] ∧
      q.lookahead.type = TOKEN_EOF ∧ s.head?.bind production_tag = some v.type := by
  obtain ⟨v, hpa, htag⟩ := Derives_Parses _ s hd (AtTokens_lexer_token p s h)
  obtain ⟨q, hret, hq⟩ := hpa p [] (by rw [List.append_nil]; exact h)
  exact ⟨v, q, hret, hq, (AtTokens_nil q).1 hq, htag⟩

/-- Witness for C13: the tokens of `{"a":[1,true]}` are a sentence of `value`;
`parse_value` returns the tree of the text, an OBJECT, and stops at the EOF
token. -/
theorem parse_value_derivable_witness :
    (AtTokens example_text_state example_text_tokens ∧
      Derives Nonterminal.value example_text_tokens) ∧
    parse_value 12 example_text_state
      = Res.ok (example_text_tree, ⟨single_type_token TOKEN_EOF, [], []⟩) ∧
    example_text_tokens.head?.bind production_tag = some json_type_t.JSON_OBJECT ∧
    ∃ v q, Returns (fun fuel => parse_value fuel example_text_state) (v, q) ∧ AtTokens q [] ∧
      q.lookahead.type = TOKEN_EOF ∧
      example_text_tokens.head?.bind production_tag = some v.type := by
  have h1 : AtTokens example_text_state example_text_tokens :=
    AtTokens_of_lex_all 10 example_text_state (single_type_token BRACKET_OPEN) _ example_text
      (by decide) rfl (by decide) (by decide)
  have h2 : Derives Nonterminal.value example_text_tokens :=
    Derives.value_object _ (Derives.object_members _ _ _ rfl
      (Derives.members_one _ (Derives.member _ _ _ rfl rfl
        (Derives.value_array _ (Derives.array_elements _ _ _ rfl
          (Derives.elements_more [number_token_1 '1'] _ _ (Derives.value_number _ rfl) rfl
            (Derives.elements_one _
              (Derives.value_true (keyword_token ['t', 'r', 'u', 'e']) rfl (by decide)))) rfl)))) rfl)
  exact ⟨⟨h1, h2⟩, rfl, by decide,
    parse_value_derivable example_text_state example_text_tokens h1 h2⟩

/-- C20: when `parse_value` returns the tree `v` on the token sequence `ts`
followed by end-of-stream, it returns the same tree `v` on `ts` followed by
any further tokens `xs` that lex without error: it never inspects or requires
the EOF token after the value. -/
theorem parse_value_ignores_rest (p : parser_t) (ts : List token_t) (fuel : Nat)
    (v : json_value_t) (q : parser_t) (h : AtTokens p ts)
    (hp : parse_value fuel p = Res.ok (v, q)) (p2 : parser_t) (xs : List token_t)
    (h2 : AtTokens p2 (ts ++ xs)) :
    ∃ q2, Returns (fun fuel => parse_value fuel p2) (v, q2) := by
  have hl := AtTokens_lexer_token p ts h
  have hN : parse_value (max fuel (4 * ts.length + 2)) p = Res.ok (v, q) :=
    Res.le_stable (fun n => parse_value n p) (parse_value_mono p) fuel _ hp (by simp) _
      (le_max_left _ _)
  rcases (parse_total (max fuel (4 * ts.length + 2))).2.2.2.2.2.2 p ts h (le_max_right _ _) with
    ⟨err, he, _⟩ | ⟨a, q1, e, rest, _, hts, hD, _⟩
  · rw [hN] at he
    simp at he
  · obtain ⟨v0, hpa, _⟩ := Derives_Parses _ e hD (fun t ht => hl t (by rw [hts]; simp [ht]))
    obtain ⟨q0, hret, _⟩ := hpa p rest (by rw [← hts]; exact h)
    have heq := Returns_unique _ _ _ hret (Returns_of_eq _ (parse_value_mono p) fuel _ hp)
    simp only [Prod.mk.injEq] at heq
    obtain ⟨q2, hret2, _⟩ := hpa p2 (rest ++ xs) (by rw [← List.append_assoc, ← hts]; exact h2)
    rw [heq.1] at hret2
    exact ⟨q2, hret2⟩

/-- Witness for C20: `1` followed by end-of-stream parses to the number 1, and
so does `1 2`. -/
theorem parse_value_ignores_rest_witness :
    (AtTokens ⟨number_token_1 '1', [], []⟩ [number_token_1 '1'] ∧
      parse_value 1 ⟨number_token_1 '1', [], []⟩
        = Res.ok (JSON_NUMBER 1, ⟨single_type_token TOKEN_EOF, [], []⟩) ∧
      AtTokens ⟨number_token_1 '1', [' ', '2'], []⟩ ([number_token_1 '1'] ++ [number_token_1 '2'])) ∧
    main 5 ['1', ' ', '2'] = Res.ok ['1', '\n'] ∧
    ∃ q2, Returns (fun fuel => parse_value fuel ⟨number_token_1 '1', [' ', '2'], []⟩)
      (JSON_NUMBER 1, q2) := by
  have h1 : AtTokens ⟨number_token_1 '1', [], []⟩ [number_token_1 '1'] :=
    AtTokens_of_lex_all 2 ⟨number_token_1 '1', [], []⟩ (number_token_1 '1') [] ['1']
      (by decide) rfl (by decide) (by decide)
  have h2 : parse_value 1 ⟨number_token_1 '1', [], []⟩
      = Res.ok (JSON_NUMBER 1, ⟨single_type_token TOKEN_EOF, [], []⟩) := rfl
  have h3 : AtTokens ⟨number_token_1 '1', [' ', '2'], []⟩
      ([number_token_1 '1'] ++ [number_token_1 '2']) :=
    AtTokens_of_lex_all 3 ⟨number_token_1 '1', [' ', '2'], []⟩ (number_token_1 '1')
      [number_token_1 '2'] ['1', ' ', '2'] (by decide) rfl (by decide) (by decide)
  exact ⟨⟨h1, h2, h3⟩, rfl,
    parse_value_ignores_rest ⟨number_token_1 '1', [], []⟩ [number_token_1 '1'] 1
      (JSON_NUMBER 1) ⟨single_type_token TOKEN_EOF, [], []⟩ h1 h2
      ⟨number_token_1 '1', [' ', '2'], []⟩ [number_token_1 '2'] h3⟩

/-! ## Hash map: complete iterations -/

section iterate
variable {α : Type}

/-- A call of `ht_get_next` that returns an entry leaves `curr_bucket` at most
at `cap`. -/
theorem ht_get_next_bucket_le (ht : hash_map_t α) (hlen : ht.buckets.length = ht.cap)
    (it it1 : ht_iterator_t) (e : ht_entry_t α) (h : ht_get_next ht it = (some e, it1)) :
    it1.curr_bucket ≤ ht.cap := by
  have hb : ∀ b, bucket_at ht.buckets b ≠ [] → b < ht.cap := by
    intro b hne
    by_contra hge
    exact hne (bucket_at_of_le _ _ (by omega))
  unfold ht_get_next at h
  by_cases hi : it.curr_idx ≠ 0
  · rw [if_pos hi] at h
    have hne : bucket_at ht.buckets it.curr_bucket ≠ [] := by
      intro h0
      rw [h0] at h
      simp at h
    have := hb _ hne
    split at h
    · simp at h
    · split_ifs at h <;> simp only [Prod.mk.injEq] at h <;> rw [← h.2] <;> simp only <;> omega
  · rw [if_neg hi] at h
    simp only at h
    split at h
    · simp at h
    · rename_i bucket next hbk
      have := hb _ (by rw [hbk]; simp)
      split_ifs at h <;> simp only [Prod.mk.injEq] at h <;> rw [← h.2] <;> simp only <;> omega

/-- The iterator after `i` calls: it has the entries from position `i` on
still to return. -/
theorem ht_iter_after_spec (ht : hash_map_t α) (hlen : ht.buckets.length = ht.cap) :
    ∀ i, i ≤ (ht_entries ht).length →
      iter_valid ht (ht_iter_after ht i) ∧
      iter_rest ht (ht_iter_after ht i) = (ht_entries ht).drop i ∧
      (ht_iter_after ht i).curr_bucket ≤ ht.cap := by
  intro i
  induction i with
  | zero =>
    intro _
    exact ⟨iter_valid_start ht, by rw [List.drop_zero]; exact iter_rest_start ht,
      Nat.zero_le _⟩
  | succ i ih =>
    intro hi
    obtain ⟨hv, hr, _⟩ := ih (by omega)
    have hlt : i < (ht_entries ht).length := by omega
    have hd : (ht_entries ht).drop i
        = (ht_entries ht).get ⟨i, hlt⟩ :: (ht_entries ht).drop (i + 1) :=
      List.drop_eq_getElem_cons hlt
    rcases ht_get_next_spec ht hlen _ hv with ⟨_, h1⟩ | ⟨e, it1, h1, h2, h3⟩
    · rw [hr, hd] at h1
      exact absurd h1 (List.cons_ne_nil _ _)
    · have hnext : ht_iter_after ht (i + 1) = it1 := by
        show (ht_get_next ht (ht_iter_after ht i)).2 = it1
        rw [h1]
      rw [hnext]
      refine ⟨h3, ?_, ht_get_next_bucket_le ht hlen _ _ e h1⟩
      rw [hr, hd] at h2
      exact (List.cons.inj h2).2.symm

/-- The call number `i + 1` of `ht_get_next` returns the entry at position `i`
of the bucket-major order, and `NULL` when there is none. -/
theorem ht_get_next_nth (ht : hash_map_t α) (hlen : ht.buckets.length = ht.cap) (i : Nat)
    (hi : i ≤ (ht_entries ht).length) :
    (ht_get_next ht (ht_iter_after ht i)).1 = (ht_entries ht).get? i := by
  obtain ⟨hv, hr, _⟩ := ht_iter_after_spec ht hlen i hi
  rcases ht_get_next_spec ht hlen _ hv with ⟨h1, h2⟩ | ⟨e, it1, h1, h2, _⟩
  · rw [h1]
    rw [hr] at h2
    have := List.drop_eq_nil_iff.1 h2
    exact (List.get?_eq_none.2 this).symm
  · rw [h1]
    rw [hr] at h2
    have hlt : i < (ht_entries ht).length := by
      by_contra hge
      rw [List.drop_eq_nil_of_le (by omega)] at h2
      simp at h2
    rw [List.drop_eq_getElem_cons hlt] at h2
    rw [List.get?_eq_get hlt]
    exact congrArg some (List.cons.inj h2).1.symm

/-- The scan loop started at a bucket `b ≤ cap` with only empty buckets from
`b` on reads the bucket array at `cap`. -/
theorem ht_scan_reads_cap (ht : hash_map_t α) (fuel : Nat) : ∀ b, ht.cap - b ≤ fuel →
    b ≤ ht.cap → (ht.buckets.drop b).flatten = [] →
    ht.cap ∈ b :: ht_scan_reads ht fuel b := by
  induction fuel with
  | zero =>
    intro b hf hb _
    have : b = ht.cap := by omega
    rw [this]
    exact List.mem_cons_self _ _
  | succ fuel ih =>
    intro b hf hb hempty
    by_cases hbc : b = ht.cap
    · rw [hbc]
      exact List.mem_cons_self _ _
    · have hlt : b < ht.cap := by omega
      rw [flatten_drop] at hempty
      obtain ⟨h1, h2⟩ := List.append_eq_nil.1 hempty
      have hcond : (bucket_at ht.buckets b).isEmpty ∧ b < ht.cap := ⟨by rw [h1]; rfl, hlt⟩
      have hrec := ih (b + 1) (by omega) (by omega) h2
      have hreads : ht_scan_reads ht (fuel + 1) b = (b + 1) :: ht_scan_reads ht fuel (b + 1) := by
        show (if (bucket_at ht.buckets b).isEmpty ∧ b < ht.cap then
          (b + 1) :: ht_scan_reads ht fuel (b + 1) else []) = _
        rw [if_pos hcond]
      rw [hreads]
      exact List.mem_cons_of_mem _ hrec

/-- The call of `ht_get_next` after the last entry reads `buckets[cap]`. -/
theorem ht_get_next_reads_cap (ht : hash_map_t α) (hlen : ht.buckets.length = ht.cap) :
    ht.cap ∈ ht_get_next_reads ht (ht_iter_after ht (ht_entries ht).length) := by
  obtain ⟨hv, hr, hb⟩ := ht_iter_after_spec ht hlen _ (le_refl _)
  rw [List.drop_length] at hr
  have hidx : (ht_iter_after ht (ht_entries ht).length).curr_idx = 0 := by
    rcases hv with h | h
    · exact h
    · unfold iter_rest at hr
      have h1 := (List.append_eq_nil.1 hr).1
      have := List.drop_eq_nil_iff.1 h1
      omega
  have hempty : (ht.buckets.drop (ht_iter_after ht (ht_entries ht).length).curr_bucket).flatten
      = [] := by
    unfold iter_rest at hr
    rw [hidx, List.drop_zero, ← flatten_drop] at hr
    exact hr
  unfold ht_get_next_reads
  rw [if_neg (by simp [hidx])]
  exact ht_scan_reads_cap ht _ _ (le_refl _) hb hempty

theorem ht_scan_reads_succ (ht : hash_map_t α) (fuel b : Nat) :
    ht_scan_reads ht (fuel + 1) b =
      if (bucket_at ht.buckets b).isEmpty ∧ b < ht.cap then
        (b + 1) :: ht_scan_reads ht fuel (b + 1)
      else [] := rfl

/-- While an entry is left behind bucket `b`, the scan loop reads inside the
array only. -/
theorem ht_scan_reads_lt (ht : hash_map_t α) (hlen : ht.buckets.length = ht.cap) (fuel : Nat) :
    ∀ b, (ht.buckets.drop b).flatten ≠ [] → ∀ j ∈ b :: ht_scan_reads ht fuel b, j < ht.cap := by
  induction fuel with
  | zero =>
    intro b hne j hj
    have hb : b < ht.cap := by
      by_contra hge
      exact hne (by rw [List.drop_eq_nil_of_le (by omega)]; rfl)
    simp only [ht_scan_reads, List.mem_singleton] at hj
    omega
  | succ fuel ih =>
    intro b hne j hj
    have hb : b < ht.cap := by
      by_contra hge
      exact hne (by rw [List.drop_eq_nil_of_le (by omega)]; rfl)
    rw [ht_scan_reads_succ] at hj
    by_cases hc : (bucket_at ht.buckets b).isEmpty ∧ b < ht.cap
    · rw [if_pos hc] at hj
      rcases List.mem_cons.1 hj with rfl | hj
      · exact hb
      · refine ih (b + 1) ?_ j hj
        rw [flatten_drop, List.isEmpty_iff.1 hc.1, List.nil_append] at hne
        exact hne
    · rw [if_neg hc] at hj
      simp only [List.mem_singleton] at hj
      omega

/-- A call of `ht_get_next` with an entry still to return reads inside the
array only. -/
theorem ht_get_next_reads_lt (ht : hash_map_t α) (hlen : ht.buckets.length = ht.cap)
    (it : ht_iterator_t) (hv : iter_valid ht it) (hne : iter_rest ht it ≠ []) :
    ∀ j ∈ ht_get_next_reads ht it, j < ht.cap := by
  intro j hj
  unfold ht_get_next_reads at hj
  by_cases hi : it.curr_idx ≠ 0
  · rw [if_pos hi] at hj
    simp only [List.mem_singleton] at hj
    have hlt : it.curr_idx < (bucket_at ht.buckets it.curr_bucket).length := by
      rcases hv with h | h
      · exact absurd h hi
      · exact h
    by_contra hge
    rw [bucket_at_of_le _ _ (by omega)] at hlt
    simp at hlt
  · rw [if_neg hi] at hj
    have h0 : it.curr_idx = 0 := by omega
    refine ht_scan_reads_lt ht hlen _ it.curr_bucket ?_ j hj
    unfold iter_rest at hne
    rw [h0, List.drop_zero, ← flatten_drop] at hne
    exact hne

end iterate

section iter_claims
variable {α : Type}

/-- C14 fails in its last part: for a map obtained from `hash_map_alloc c`,
`c ≥ 1`, by any sequence of `ht_set` calls, the calls of `ht_get_next` from a
fresh `ht_get_iter` iterator return the stored entries in order of increasing
bucket index and, within a bucket, from the head of the chain to its tail,
each once, reading inside the bucket array only; but the call after the last
entry reads `buckets[cap]`, behind the array, and what it returns is whatever
that read finds, not `NULL` by the code. -/
theorem ht_get_next_entries_then_past_end (c : Nat) (hc : 1 ≤ c) (ops : List (List Char × α)) :
    ht_entries (ht_set_all (hash_map_alloc c) ops)
      = (ht_set_all (hash_map_alloc c) ops).buckets.flatten ∧
    (∀ i, i < (ht_entries (ht_set_all (hash_map_alloc c) ops)).length →
      (ht_get_next (ht_set_all (hash_map_alloc c) ops)
          (ht_iter_after (ht_set_all (hash_map_alloc c) ops) i)).1
        = (ht_entries (ht_set_all (hash_map_alloc c) ops)).get? i ∧
      ∀ j ∈ ht_get_next_reads (ht_set_all (hash_map_alloc c) ops)
          (ht_iter_after (ht_set_all (hash_map_alloc c) ops) i),
        j < (ht_set_all (hash_map_alloc c) ops).cap) ∧
    ((ht_entries (ht_set_all (hash_map_alloc c) ops)).map fun e => e.key).Nodup ∧
    (∀ k v, ht_get (ht_set_all (hash_map_alloc c) ops) k = some v ↔
      (⟨k, v⟩ : ht_entry_t α) ∈ ht_entries (ht_set_all (hash_map_alloc c) ops)) ∧
    (ht_set_all (hash_map_alloc c) ops).buckets.length = (ht_set_all (hash_map_alloc c) ops).cap ∧
    (ht_set_all (hash_map_alloc c) ops).cap ∈
      ht_get_next_reads (ht_set_all (hash_map_alloc c) ops)
        (ht_iter_after (ht_set_all (hash_map_alloc c) ops)
          (ht_entries (ht_set_all (hash_map_alloc c) ops)).length) := by
  have hwf := ht_wf_set_all (hash_map_alloc c) ops (ht_wf_alloc c hc)
  have hlen := hwf.1
  refine ⟨rfl, fun i hi => ⟨ht_get_next_nth _ hlen i (le_of_lt hi), ?_⟩, hwf.2.2.2,
    fun k v => ht_get_eq_some_iff _ hwf k v, hlen, ht_get_next_reads_cap _ hlen⟩
  obtain ⟨hv, hr, _⟩ := ht_iter_after_spec _ hlen i (le_of_lt hi)
  refine ht_get_next_reads_lt _ hlen _ hv ?_
  rw [hr]
  intro h0
  have := List.drop_eq_nil_iff.1 h0
  omega

/-- The failing input of C14: the keys `a` and `d` set into
`hash_map_alloc(3)` share bucket 2; the first two calls of `ht_get_next`
return `a` and `d`, the head and the tail of that chain, and the third call
reads `buckets[3]` of an array with the slots 0 to 2. -/
theorem ht_get_next_entries_then_past_end_witness :
    1 ≤ 3 ∧
    (ht_set_all (hash_map_alloc 3) [(['a'], (1 : Nat)), (['d'], 2)]).buckets
      = [[], [], [⟨['a'], 1⟩, ⟨['d'], 2⟩]] ∧
    (ht_get_next (ht_set_all (hash_map_alloc 3) [(['a'], (1 : Nat)), (['d'], 2)])
      (ht_iter_after (ht_set_all (hash_map_alloc 3) [(['a'], (1 : Nat)), (['d'], 2)]) 0)).1
      = some ⟨['a'], 1⟩ ∧
    (ht_get_next (ht_set_all (hash_map_alloc 3) [(['a'], (1 : Nat)), (['d'], 2)])
      (ht_iter_after (ht_set_all (hash_map_alloc 3) [(['a'], (1 : Nat)), (['d'], 2)]) 1)).1
      = some ⟨['d'], 2⟩ ∧
    ht_get_next_reads (ht_set_all (hash_map_alloc 3) [(['a'], (1 : Nat)), (['d'], 2)])
      (ht_iter_after (ht_set_all (hash_map_alloc 3) [(['a'], (1 : Nat)), (['d'], 2)]) 2)
      = [3] ∧
    (ht_set_all (hash_map_alloc 3) [(['a'], (1 : Nat)), (['d'], 2)]).cap ∈
      ht_get_next_reads (ht_set_all (hash_map_alloc 3) [(['a'], (1 : Nat)), (['d'], 2)])
        (ht_iter_after (ht_set_all (hash_map_alloc 3) [(['a'], (1 : Nat)), (['d'], 2)])
          (ht_entries
            (ht_set_all (hash_map_alloc 3) [(['a'], (1 : Nat)), (['d'], 2)])).length) :=
  ⟨by decide, by decide, by decide, by decide, by decide,
    (ht_get_next_entries_then_past_end 3 (by decide)
      [(['a'], (1 : Nat)), (['d'], 2)]).2.2.2.2.2⟩

/-- C19 fails: for a map obtained from `hash_map_alloc c`, `c ≥ 1`, by any
sequence of `ht_set` calls, the call of `ht_get_next` after the last entry,
the one that returns `NULL`, reads `ht->buckets` at the index `cap`, which is
not in the range `0 ≤ index < cap`. -/
theorem ht_get_next_reads_out_of_range (c : Nat) (hc : 1 ≤ c) (ops : List (List Char × α)) :
    (ht_get_next (ht_set_all (hash_map_alloc c) ops)
        (ht_iter_after (ht_set_all (hash_map_alloc c) ops)
          (ht_entries (ht_set_all (hash_map_alloc c) ops)).length)).1 = none ∧
    (ht_set_all (hash_map_alloc c) ops).cap ∈
      ht_get_next_reads (ht_set_all (hash_map_alloc c) ops)
        (ht_iter_after (ht_set_all (hash_map_alloc c) ops)
          (ht_entries (ht_set_all (hash_map_alloc c) ops)).length) ∧
    ¬ (∀ i ∈ ht_get_next_reads (ht_set_all (hash_map_alloc c) ops)
        (ht_iter_after (ht_set_all (hash_map_alloc c) ops)
          (ht_entries (ht_set_all (hash_map_alloc c) ops)).length),
      i < (ht_set_all (hash_map_alloc c) ops).cap) := by
  have hwf := ht_wf_set_all (hash_map_alloc c) ops (ht_wf_alloc c hc)
  have hmem := ht_get_next_reads_cap _ hwf.1
  refine ⟨?_, hmem, fun h => Nat.lt_irrefl _ (h _ hmem)⟩
  rw [ht_get_next_nth _ hwf.1 _ (le_refl _)]
  exact List.get?_eq_none.2 (le_refl _)

/-- The failing input of C19: on the empty map of `hash_map_alloc(4)` (the map
of the text `{}`), the first call of `ht_get_next` returns `NULL` after
reading `buckets[0]` to `buckets[4]`; the array has the 4 slots 0 to 3. -/
theorem ht_get_next_reads_out_of_range_witness :
    1 ≤ 4 ∧
    ht_get_next_reads (hash_map_alloc 4 : hash_map_t Nat) ht_get_iter = [0, 1, 2, 3, 4] ∧
    (hash_map_alloc 4 : hash_map_t Nat).buckets.length = 4 ∧
    (ht_get_next (hash_map_alloc 4 : hash_map_t Nat) ht_get_iter).1 = none ∧
    (ht_set_all (hash_map_alloc 4) ([] : List (List Char × Nat))).cap ∈
      ht_get_next_reads (ht_set_all (hash_map_alloc 4) ([] : List (List Char × Nat)))
        (ht_iter_after (ht_set_all (hash_map_alloc 4) ([] : List (List Char × Nat)))
          (ht_entries (ht_set_all (hash_map_alloc 4) ([] : List (List Char × Nat)))).length) :=
  ⟨by decide, by decide, by decide, by decide,
    (ht_get_next_reads_out_of_range 4 (by decide) ([] : List (List Char × Nat))).2.1⟩

end iter_claims

/-! ## The program's output -/

/-- C15 fails: on the input `[1,2,3]` parsing succeeds, and the program writes
the line `trying to allocate new array of size 4` of
`__json_value_array_resize` before the serialization `[ 1, 2, 3 ]` of the
parsed tree and the newline. -/
theorem main_output_resize_line :
    main 20 example_array_text
      = Res.ok (example_array_resize_line ++ example_array_rendering ++ ['\n']) ∧
    parse_value 20 ⟨single_type_token ARRAY_OPEN, ['1', ',', '2', ',', '3', ']'], []⟩
      = Res.ok (JSON_ARRAY ⟨[JSON_NUMBER 1, JSON_NUMBER 2, JSON_NUMBER 3], 4⟩,
          ⟨single_type_token TOKEN_EOF, [], example_array_resize_line⟩) ∧
    print_json_value 20 (JSON_ARRAY ⟨[JSON_NUMBER 1, JSON_NUMBER 2, JSON_NUMBER 3], 4⟩)
      = Res.ok example_array_rendering ∧
    main 20 example_array_text ≠ Res.ok (example_array_rendering ++ ['\n']) := by
  refine ⟨rfl, rfl, rfl, ?_⟩
  decide

end Liljson
